import Mathlib

/-!
# SimDex: per-cluster exact top-K (`computeTopKForCluster`, `src/cpp/algo.cpp`)

A shallow embedding of `computeTopKForCluster`, of the DEBUG oracle
`check_against_naive` and of `find_theta_bin_index`, followed by theorems about them.

Conventions of the embedding.

* The scalar type `α` is any linearly ordered commutative ring (`ℚ` for concrete runs,
  `ℝ` for the geometric statements); `float` and `double` values are both read as
  elements of `α`, and sums and products are exact, with one exception.  The product
  `user_norms[i] * sorted_upper_bounds[j]` is formed in `float` and stored in the
  `float` buffer `user_norm_times_upper_bound` (lines 122-123, 268, 326-327), and is then
  compared with a `double` at line 331: this product is rounded to `float`, by
  `Oracle.float_round`.
* A C buffer is a total function `Nat → α` together with the allocated length the
  source gives it (`Buf.size`).  Every read of the six scratch/input buffers is
  recorded in the ghost field `trace`, so that reads outside the allocated length can
  be detected.  The initial contents of `malloc`ed memory are not determined by the
  program; they are fields of `Oracle`.
* Code that is not part of the function is taken as given data (`Oracle`): the C
  library `cos`, the results of `compute_norms_vector` and
  `compute_theta_ucs_for_centroid` (file `arith.cpp`), and the index permutation
  written by `ippsSortRadixIndexDescend_32f`.
* `std::priority_queue<pair<double,int>, vector<...>, greater<...>>` is represented by
  the ascending list of its elements: `top` is the head, `pop` the tail.
* Sizes and indices (`int` in the source) are natural numbers.  The mask
  `mod = item_batch_size - 1` is computed in `ℕ`, which is the source's value whenever
  `item_batch_size ≥ 1`.
* Intermediate states of the scan loop of a user are observed through `scanStep`, the
  body of the loop, and `scanConfig inp env i t`, the state and queue with which user
  `i` arrives at scan index `K + t`; `scanLoop` is the iteration of `scanStep`
  (`scanLoop_succ`).
* The build modelled is the default one (`DEBUG`, `STATS` undefined); `cblas_dgemm` and
  `cblas_dgemv` are given the meaning of the loops in the `NAIVE` branches.
-/

namespace SimDex

/-- Buffers of `computeTopKForCluster` whose reads are recorded. -/
inductive Buf
  | sorted_upper_bounds_indices
  | sorted_upper_bounds
  | upper_bounds
  | item_weights
  | sorted_item_weights
  | users_dot_items
  deriving DecidableEq

/-- Ghost events recorded while a cluster is processed.
`read b idx`: buffer `b` is read at flat index `idx`.
`score i j v`: line 335, user `i` at scan index `j` reads the value `v` from
`users_dot_items`.
`brk i j top ceil`: lines 331-332, user `i` breaks at scan index `j`; `top` is
`q.top().first` and `ceil` is `user_norm_times_upper_bound[j & mod]`.
`emptyTop i j`: `q.top()` is evaluated on an empty queue. -/
inductive Event (α : Type)
  | read (b : Buf) (idx : Nat)
  | score (i j : Nat) (v : α)
  | brk (i j : Nat) (top ceil : α)
  | emptyTop (i j : Nat)
  deriving DecidableEq

/-- Arguments of `computeTopKForCluster` (lines 91-97).  Matrices are row-major. -/
structure ClusterInput (α : Type) where
  centroid : Nat → α
  user_weights : Nat → α
  item_weights : Nat → α
  item_norms : Nat → α
  theta_ics : Nat → α
  centroid_norm : α
  num_items : Nat
  num_latent_factors : Nat
  K : Nat
  item_batch_size : Nat
  num_users_to_compute : Nat

/-- Data produced by code outside `computeTopKForCluster`. -/
structure Oracle (α : Type) where
  /-- C library cosine (line 175). -/
  cos : α → α
  /-- Result of `compute_norms_vector` (line 130). -/
  user_norms : Nat → α
  /-- Result of `compute_theta_ucs_for_centroid` (line 132). -/
  theta_ucs : Nat → α
  /-- Index array written by `ippsSortRadixIndexDescend_32f` (line 189). -/
  sorted_upper_bounds_indices : Nat → Nat
  /-- Rounding of a product of two `float`s to `float` (lines 268 and 326-327). -/
  float_round : α → α
  /-- Contents of freshly allocated memory. -/
  malloc_upper_bounds : Nat → α
  malloc_sorted_upper_bounds : Nat → α
  malloc_sorted_item_weights : Nat → α
  malloc_users_dot_items : Nat → α
  malloc_user_norm_times_upper_bound : Nat → α
  /-- Contents of the caller's output buffer before the call. -/
  top_K_items : Nat → Nat

/-- Mutable state of `computeTopKForCluster` once the sort has run. -/
structure ClusterState (α : Type) where
  sorted_upper_bounds : Nat → α
  sorted_item_weights : Nat → α
  users_dot_items : Nat → α
  user_norm_times_upper_bound : Nat → α
  batch_counter : Nat
  n : Nat
  top_K_items : Nat → Nat
  trace : List (Event α)

/-- Allocated length of each recorded buffer (lines 104-108, 120-121 and the caller's
contract for `item_weights`). -/
def Buf.size {α : Type} (inp : ClusterInput α) : Buf → Nat
  | Buf.sorted_upper_bounds_indices => inp.num_items
  | Buf.sorted_upper_bounds => inp.num_items
  | Buf.upper_bounds => inp.num_items
  | Buf.item_weights => inp.num_items * inp.num_latent_factors
  | Buf.sorted_item_weights => inp.num_items * inp.num_latent_factors
  | Buf.users_dot_items => inp.num_users_to_compute * inp.item_batch_size

/-- The queue type: ascending list of `(score, item_id)` pairs. -/
abbrev Heap (α : Type) := List (α × Nat)

section Model

variable {α : Type} [LinearOrderedCommRing α]

/-- Dot product of the `F` entries of `a` starting at `ao` with the `F` entries of `b`
starting at `bo` (inner loops of lines 246-249 and 317-320). -/
def dotRows (F : Nat) (a : Nat → α) (ao : Nat) (b : Nat → α) (bo : Nat) : α :=
  ((List.range F).map (fun c => a (ao + c) * b (bo + c))).sum

/-- BLAS `isamax`: the (0-based) index of the first entry of largest absolute value
among `x[0..n-1]`; `0` when `n = 0`. -/
def cblas_isamax (n : Nat) (x : Nat → α) : Nat :=
  (List.range n).foldl (fun best i => if |x best| < |x i| then i else best) 0

/-- Line 139-140. -/
def theta_max (inp : ClusterInput α) (env : Oracle α) : α :=
  env.theta_ucs (cblas_isamax inp.num_users_to_compute env.theta_ucs)

/-- The buffer `upper_bounds` after lines 145-177: `std::fill` with `theta_max`,
subtraction from `theta_ics`, `ippsThreshold_32f_I(.., 0, ippCmpLess)`, cosine and
multiplication by the item norm.  Cells at index `num_items` and beyond are not
written. -/
def upper_bounds (inp : ClusterInput α) (env : Oracle α) (i : Nat) : α :=
  if i < inp.num_items then
    let filled := theta_max inp env
    let diff := inp.theta_ics i - filled
    let clamped := if diff < 0 then 0 else diff
    inp.item_norms i * env.cos clamped
  else env.malloc_upper_bounds i

/-- Body of the copy loops (lines 208-213 and 290-296) for destination row `j`. -/
def copyRow (inp : ClusterInput α) (env : Oracle α) (st : ClusterState α) (j : Nat) :
    ClusterState α :=
  let F := inp.num_latent_factors
  let item_id := env.sorted_upper_bounds_indices j
  { st with
    sorted_upper_bounds := fun k =>
      if k = j then upper_bounds inp env item_id else st.sorted_upper_bounds k
    sorted_item_weights := fun k =>
      if j * F ≤ k ∧ k < j * F + F then inp.item_weights (item_id * F + (k - j * F))
      else st.sorted_item_weights k
    trace := st.trace ++
      (Event.read Buf.sorted_upper_bounds_indices j :: Event.read Buf.upper_bounds item_id ::
        (List.range F).map (fun c => Event.read Buf.item_weights (item_id * F + c))) }

/-- Lexicographic `operator<` of `std::pair<double,int>`. -/
def pairLt (a b : α × Nat) : Bool :=
  decide (a.1 < b.1) || (decide (a.1 = b.1) && decide (a.2 < b.2))

/-- `q.push(p)` on the ascending-list representation. -/
def push (p : α × Nat) : Heap α → Heap α
  | [] => [p]
  | x :: xs => if pairLt x p then x :: push p xs else p :: x :: xs

/-- Lines 283-299: when `j == batch_counter`, copy the next `n` rows. -/
def fillBatch (inp : ClusterInput α) (env : Oracle α) (j : Nat) (st : ClusterState α) :
    ClusterState α :=
  if j = st.batch_counter then
    let n := min inp.item_batch_size (inp.num_items - st.batch_counter)
    let st' := (List.range n).foldl (fun s l => copyRow inp env s (st.batch_counter + l)) st
    { st' with n := n, batch_counter := st.batch_counter + n }
  else st

/-- Lines 304-307 (`cblas_dgemv`, same result as the loop of lines 315-321): the first
`n` cells of row `i` of `users_dot_items` receive the products of user `i` with rows
`j .. j+n-1` of `sorted_item_weights`. -/
def gemvUser (inp : ClusterInput α) (i j : Nat) (st : ClusterState α) : ClusterState α :=
  let F := inp.num_latent_factors
  let B := inp.item_batch_size
  { st with
    users_dot_items := fun idx =>
      if i * B ≤ idx ∧ idx < i * B + st.n then
        dotRows F inp.user_weights (i * F) st.sorted_item_weights ((j + (idx - i * B)) * F)
      else st.users_dot_items idx
    trace := st.trace ++
      (List.range st.n).flatMap (fun a => (List.range F).map (fun b =>
        Event.read Buf.sorted_item_weights ((j + a) * F + b))) }

/-- Lines 325-328: `user_norm_times_upper_bound[l] = user_norms[i] *
sorted_upper_bounds[j + l]` for `l < item_batch_size`, a `float` product stored in a
`float` buffer. -/
def refreshCeilings (inp : ClusterInput α) (env : Oracle α) (i j : Nat) (st : ClusterState α) :
    ClusterState α :=
  { st with
    user_norm_times_upper_bound := fun l =>
      if l < inp.item_batch_size then
        env.float_round (env.user_norms i * st.sorted_upper_bounds (j + l))
      else st.user_norm_times_upper_bound l
    trace := st.trace ++
      (List.range inp.item_batch_size).map (fun l => Event.read Buf.sorted_upper_bounds (j + l)) }

/-- Lines 283-328: the work done when `(j & mod) == 0`. -/
def enterBatch (inp : ClusterInput α) (env : Oracle α) (i j : Nat) (st : ClusterState α) :
    ClusterState α :=
  refreshCeilings inp env i j (gemvUser inp i j (fillBatch inp env j st))

/-- The scan loop `for (j = K; j < num_items; j++)` of lines 281-343 for user `i`;
the first argument counts the iterations still allowed, `num_items - j`. -/
def scanLoop (inp : ClusterInput α) (env : Oracle α) (i : Nat) :
    Nat → Nat → ClusterState α → Heap α → ClusterState α × Heap α
  | 0, _, st, q => (st, q)
  | fuel + 1, j, st, q =>
    let B := inp.item_batch_size
    let mod := B - 1
    let st := if j &&& mod = 0 then enterBatch inp env i j st else st
    match q with
    | [] => ({ st with trace := st.trace ++ [Event.emptyTop i j] }, [])
    | top :: rest =>
      if st.user_norm_times_upper_bound (j &&& mod) < top.1 then
        ({ st with trace := st.trace ++
            [Event.brk i j top.1 (st.user_norm_times_upper_bound (j &&& mod))] }, top :: rest)
      else
        let item_id := env.sorted_upper_bounds_indices j
        let score := st.users_dot_items (i * B + (j &&& mod))
        let st := { st with trace := st.trace ++
            [Event.read Buf.sorted_upper_bounds_indices j,
             Event.read Buf.users_dot_items (i * B + (j &&& mod)),
             Event.score i j score] }
        scanLoop inp env i fuel (j + 1) st
          (if top.1 < score then push (score, item_id) rest else top :: rest)

/-- Lines 271-275: the queue after the first `K` pushes. -/
def seedHeap (inp : ClusterInput α) (env : Oracle α) (i : Nat) (st : ClusterState α) : Heap α :=
  (List.range inp.K).foldl
    (fun q j => push (st.users_dot_items (i * inp.item_batch_size + j),
                      env.sorted_upper_bounds_indices j) q) []

/-- Lines 347-355: `K` times, store `q.top().second` at `top_K_items[i*K + K-1-j]` and
pop.  The first argument counts the iterations still allowed, `K - j`. -/
def extractLoop (i K : Nat) : Nat → Nat → Heap α → ClusterState α → ClusterState α
  | 0, _, _, st => st
  | _ + 1, j, [], st => { st with trace := st.trace ++ [Event.emptyTop i j] }
  | fuel + 1, j, p :: rest, st =>
    extractLoop i K fuel (j + 1) rest
      { st with top_K_items := fun k => if k = i * K + K - 1 - j then p.2
                                         else st.top_K_items k }

/-- Body of the user loop (lines 254-373) for user `i`: ceilings of the first batch
(lines 267-269), seeding, scan, extraction. -/
def processUser (inp : ClusterInput α) (env : Oracle α) (st : ClusterState α) (i : Nat) :
    ClusterState α :=
  let B := inp.item_batch_size
  let K := inp.K
  let st1 := refreshCeilings inp env i 0 st
  let q := seedHeap inp env i st1
  let st2 : ClusterState α :=
    { st1 with trace := st1.trace ++ (List.range K).flatMap (fun j =>
        [Event.read Buf.sorted_upper_bounds_indices j,
         Event.read Buf.users_dot_items (i * B + j)]) }
  let r := scanLoop inp env i (inp.num_items - K) K st2 q
  extractLoop i K K 0 r.2 r.1

/-- State when the user loop is entered: lines 207-215 (initial batch) and 226-238
(`cblas_dgemm` with `ldc = n = min(item_batch_size, num_items)`). -/
def initState (inp : ClusterInput α) (env : Oracle α) : ClusterState α :=
  let B := inp.item_batch_size
  let F := inp.num_latent_factors
  let m := inp.num_users_to_compute
  let st0 : ClusterState α :=
    { sorted_upper_bounds := env.malloc_sorted_upper_bounds
      sorted_item_weights := env.malloc_sorted_item_weights
      users_dot_items := env.malloc_users_dot_items
      user_norm_times_upper_bound := env.malloc_user_norm_times_upper_bound
      batch_counter := 0
      n := 0
      top_K_items := env.top_K_items
      trace := [] }
  let st1 := (List.range B).foldl (copyRow inp env) st0
  let n := min B inp.num_items
  { st1 with
    batch_counter := B
    n := n
    users_dot_items := fun idx =>
      if idx < m * n then
        dotRows F inp.user_weights (idx / n * F) st1.sorted_item_weights (idx % n * F)
      else st1.users_dot_items idx
    trace := st1.trace ++ (List.range n).flatMap (fun b => (List.range F).map (fun c =>
      Event.read Buf.sorted_item_weights (b * F + c))) }

/-- Value of a 32-bit two's-complement `int` holding the mathematical integer `x`. -/
def toInt32 (x : Int) : Int := (x + 2147483648) % 4294967296 - 2147483648

/-- The test of line 114: `num_users_to_compute * item_batch_size < 0` in `int`. -/
def overflowCheck (num_users_to_compute item_batch_size : Nat) : Bool :=
  decide (toInt32 ((num_users_to_compute : Int) * (item_batch_size : Int)) < 0)

/-- State after the first `i` users have been processed. -/
def stateAfter (inp : ClusterInput α) (env : Oracle α) (i : Nat) : ClusterState α :=
  (List.range i).foldl (processUser inp env) (initState inp env)

/-- The function `computeTopKForCluster`; `none` is the error exit of line 117. -/
def computeTopKForCluster (inp : ClusterInput α) (env : Oracle α) : Option (ClusterState α) :=
  if overflowCheck inp.num_users_to_compute inp.item_batch_size then none
  else some (stateAfter inp env inp.num_users_to_compute)

/-- Row `i` of a `K`-column output matrix `t`. -/
def rowOf (K : Nat) (t : Nat → Nat) (i : Nat) : List Nat :=
  (List.range K).map (fun p => t (i * K + p))

/-- All rows of `top_K_items` after the call. -/
def topKRows (inp : ClusterInput α) (env : Oracle α) : Option (List (List Nat)) :=
  (computeTopKForCluster inp env).map (fun st =>
    (List.range inp.num_users_to_compute).map (rowOf inp.K st.top_K_items))

/-- Exact score `u_i · item_k`. -/
def exactScore (inp : ClusterInput α) (i k : Nat) : α :=
  dotRows inp.num_latent_factors inp.user_weights (i * inp.num_latent_factors)
    inp.item_weights (k * inp.num_latent_factors)

/-- Modelled from the spec: the order of the reference ranking of property P1 for user
`i`, higher score first and equal scores by ascending item id.  (The comparator of
line 77 orders by score only.) -/
def rankBefore (inp : ClusterInput α) (i : Nat) (a b : Nat) : Prop :=
  exactScore inp i b < exactScore inp i a ∨ (exactScore inp i a = exactScore inp i b ∧ a ≤ b)

instance rankBefore_decidable (inp : ClusterInput α) (i : Nat) :
    DecidableRel (rankBefore inp i) := fun a b => by
  unfold rankBefore
  exact inferInstance

/-- Modelled from the spec: the reference ranking of property P1, all `num_items` scores
of user `i`, the item ids by descending score and, for equal scores, by ascending item
id, the first `K` ids being the ones compared with the computed row.  The source builds
its reference (lines 69-79) with `std::sort` and a comparator on the scores only (line
77), which leaves the order of ids of equal score open; the two agree wherever the
scores of the user are pairwise distinct. -/
def naiveTopK (inp : ClusterInput α) (i : Nat) : List Nat :=
  ((List.range inp.num_items).insertionSort (rankBefore inp i)).take inp.K

/-- The DEBUG check `check_against_naive` (lines 80-87): `true` when, position by
position, the computed row equals the first `K` ids of the reference ranking (the
source exits with status 1 otherwise).  The reference ranking is taken with the rule
of `naiveTopK` for equal scores; a row whose scores are not in descending order fails
the check whatever `std::sort` does with equal scores (`take_ne_of_ascending_pair`). -/
def check_against_naive (inp : ClusterInput α) (i : Nat) (computed_top_K : List Nat) : Bool :=
  decide (computed_top_K = naiveTopK inp i)

end Model

section Steps

variable {α : Type} [LinearOrderedCommRing α]

/-- Lines 267-275 for user `i`, starting in state `st`: the ceilings of the first batch,
the `K` pushes that seed the queue, and the record of the reads made for the pushes.
The result is the state and the queue with which the scan loop is entered (the first
two steps of `processUser`). -/
def seedPhase (inp : ClusterInput α) (env : Oracle α) (st : ClusterState α) (i : Nat) :
    ClusterState α × Heap α :=
  let st1 := refreshCeilings inp env i 0 st
  ({ st1 with trace := st1.trace ++ (List.range inp.K).flatMap (fun j =>
      [Event.read Buf.sorted_upper_bounds_indices j,
       Event.read Buf.users_dot_items (i * inp.item_batch_size + j)]) },
   seedHeap inp env i st1)

/-- One pass through the body of the scan loop (lines 282-342) at index `j`, the body of
`scanLoop`.  `Sum.inl` holds the state and queue with which the loop is left, by the
`break` of line 332 or at `q.top()` on an empty queue; `Sum.inr` holds the state and
queue with which the next index is entered. -/
def scanStep (inp : ClusterInput α) (env : Oracle α) (i j : Nat) (st : ClusterState α)
    (q : Heap α) : (ClusterState α × Heap α) ⊕ (ClusterState α × Heap α) :=
  let B := inp.item_batch_size
  let mod := B - 1
  let st := if j &&& mod = 0 then enterBatch inp env i j st else st
  match q with
  | [] => Sum.inl ({ st with trace := st.trace ++ [Event.emptyTop i j] }, [])
  | top :: rest =>
    if st.user_norm_times_upper_bound (j &&& mod) < top.1 then
      Sum.inl ({ st with trace := st.trace ++
          [Event.brk i j top.1 (st.user_norm_times_upper_bound (j &&& mod))] }, top :: rest)
    else
      let item_id := env.sorted_upper_bounds_indices j
      let score := st.users_dot_items (i * B + (j &&& mod))
      Sum.inr ({ st with trace := st.trace ++
          [Event.read Buf.sorted_upper_bounds_indices j,
           Event.read Buf.users_dot_items (i * B + (j &&& mod)),
           Event.score i j score] },
        if top.1 < score then push (score, item_id) rest else top :: rest)

/-- The state and queue with which the scan loop of user `i` evaluates its guard
`j < num_items` at the index `j = K + t`, the passes at the indices `K .. K + t - 1`
having run to their end; `none` when the loop is left before that. -/
def scanConfig (inp : ClusterInput α) (env : Oracle α) (i : Nat) :
    Nat → Option (ClusterState α × Heap α)
  | 0 => some (seedPhase inp env (stateAfter inp env i) i)
  | t + 1 =>
    match scanConfig inp env i t with
    | none => none
    | some c =>
      if inp.K + t < inp.num_items then
        match scanStep inp env i (inp.K + t) c.1 c.2 with
        | Sum.inl _ => none
        | Sum.inr r => some r
      else none

/-- The state and queue with which user `i` leaves the scan loop. -/
def scanEnd (inp : ClusterInput α) (env : Oracle α) (i : Nat) : ClusterState α × Heap α :=
  scanLoop inp env i (inp.num_items - inp.K) inp.K
    (seedPhase inp env (stateAfter inp env i) i).1
    (seedPhase inp env (stateAfter inp env i) i).2

/-- The queue after `fuel` passes of the extraction loop (one `q.pop()` per pass, line
354); a pass that finds the queue empty ends the loop, as in `extractLoop`. -/
def extractQueue : Nat → Heap α → Heap α
  | 0, q => q
  | _ + 1, [] => []
  | fuel + 1, _ :: rest => extractQueue fuel rest

/-- The values user `i` has read from `users_dot_items` at line 335 according to the
trace `tr`, in the order of reading. -/
def scoresRead (i : Nat) (tr : List (Event α)) : List α :=
  tr.filterMap (fun e => match e with
    | Event.score i' _ v => if i' = i then some v else none
    | _ => none)

/-- The values user `i` reads from `users_dot_items` at line 273 for the sorted
positions `0 .. K-1`. -/
def seedScores (inp : ClusterInput α) (env : Oracle α) (i : Nat) : List α :=
  (List.range inp.K).map (fun k =>
    (seedPhase inp env (stateAfter inp env i) i).1.users_dot_items
      (i * inp.item_batch_size + k))

/-- The loop of `find_theta_bin_index` (lines 49-53) from index `i`, with `fuel` the
number of passes still allowed, `num_bins - i`.  `theta_bins` is the vector passed by
value; reading it past its end gives `none`. -/
def find_theta_bin_index_loop (theta_uc : α) (theta_bins : List α) (num_bins : Nat) :
    Nat → Nat → Option Int
  | 0, _ => some ((num_bins : Int) - 1)
  | fuel + 1, i =>
    match theta_bins[i]? with
    | none => none
    | some b =>
      if theta_uc ≤ b then some (i : Int)
      else find_theta_bin_index_loop theta_uc theta_bins num_bins fuel (i + 1)

/-- The function `find_theta_bin_index` (lines 46-55). -/
def find_theta_bin_index (theta_uc : α) (theta_bins : List α) (num_bins : Nat) : Option Int :=
  find_theta_bin_index_loop theta_uc theta_bins num_bins num_bins 0

end Steps

section Predicates

variable {α : Type} [LinearOrderedCommRing α]

/-- Non-strict lexicographic order on `(score, item_id)` pairs. -/
def PairLe (a b : α × Nat) : Prop := a.1 < b.1 ∨ (a.1 = b.1 ∧ a.2 ≤ b.2)

/-- The scan of lines 281-343 for one user, on given data: `score j` is the value the
scan is meant to read at sorted position `j` and `ceil j` the ceiling it is meant to
compare with.  Same control flow as `scanLoop`, without buffers. -/
def idealScan (score ceil : Nat → α) (pi : Nat → Nat) : Nat → Nat → Heap α → Heap α
  | 0, _, q => q
  | _ + 1, _, [] => []
  | fuel + 1, j, top :: rest =>
    if ceil j < top.1 then top :: rest
    else idealScan score ceil pi fuel (j + 1)
      (if top.1 < score j then push (score j, pi j) rest else top :: rest)

/-- The seeding of lines 271-275 on exact data. -/
def idealSeed (score : Nat → α) (pi : Nat → Nat) (K : Nat) : Heap α :=
  (List.range K).foldl (fun q j => push (score j, pi j) q) []

/-- Every ceiling bounds the score at its own and at every later sorted position below
`N`. -/
def CeilOk (score ceil : Nat → α) (N : Nat) : Prop :=
  ∀ a b, a ≤ b → b < N → score b ≤ ceil a

/-- Invariant of the queue of one user after the scan has dealt with the sorted
positions below `j`: ascending, `K` distinct pairs taken from those positions, and,
when the ceilings are sound, every position dealt with is in the queue or scores no
more than every queue element. -/
structure HeapInv (score ceil : Nat → α) (pi : Nat → Nat) (K N j : Nat) (q : Heap α) :
    Prop where
  sorted : q.Pairwise PairLe
  len : q.length = K
  nodup : q.Nodup
  src : ∀ e ∈ q, ∃ p, p < j ∧ e = (score p, pi p)
  cover : CeilOk score ceil N → ∀ p, p < j → (score p, pi p) ∈ q ∨ ∀ e ∈ q, score p ≤ e.1

/-- Exact score of user `i` with the item at sorted position `p`. -/
def score (inp : ClusterInput α) (env : Oracle α) (i p : Nat) : α :=
  exactScore inp i (env.sorted_upper_bounds_indices p)

/-- The ceiling of user `i` at sorted position `p`: the product
`user_norms[i] * upper_bounds[π[p]]` rounded to `float`. -/
def ceiling (inp : ClusterInput α) (env : Oracle α) (i p : Nat) : α :=
  env.float_round
    (env.user_norms i * upper_bounds inp env (env.sorted_upper_bounds_indices p))

/-- The row the exact scan produces for user `i`: item ids of the final queue, largest
pair first. -/
def idealRow (inp : ClusterInput α) (env : Oracle α) (i : Nat) : List Nat :=
  ((idealScan (score inp env i) (ceiling inp env i) env.sorted_upper_bounds_indices
    (inp.num_items - inp.K) inp.K
    (idealSeed (score inp env i) env.sorted_upper_bounds_indices inp.K)).map Prod.snd).reverse

/-- The sorted buffers are filled below `batch_counter`. -/
structure Filled (inp : ClusterInput α) (env : Oracle α) (st : ClusterState α) : Prop where
  bc_ge : inp.item_batch_size ≤ st.batch_counter
  bc_le : st.batch_counter ≤ inp.num_items
  bc_shape : inp.item_batch_size ∣ st.batch_counter ∨ st.batch_counter = inp.num_items
  n_le : st.n ≤ inp.item_batch_size
  sub : ∀ k, k < st.batch_counter →
    st.sorted_upper_bounds k = upper_bounds inp env (env.sorted_upper_bounds_indices k)
  siw : ∀ k c, k < st.batch_counter → c < inp.num_latent_factors →
    st.sorted_item_weights (k * inp.num_latent_factors + c) =
      inp.item_weights (env.sorted_upper_bounds_indices k * inp.num_latent_factors + c)

/-- Events that carry no value: buffer reads and the empty-queue flag. -/
def Event.quiet : Event α → Bool
  | Event.read _ _ => true
  | Event.emptyTop _ _ => true
  | _ => false

/-- The trace `new` extends `old` by quiet events only. -/
def Quiet (old new : List (Event α)) : Prop :=
  ∀ e, e ∈ new → e ∈ old ∨ e.quiet = true

/-- Standing assumptions on the size arguments: `item_batch_size` is a power of two and
`1 ≤ K ≤ item_batch_size ≤ num_items`. -/
structure Params (inp : ClusterInput α) (p : Nat) : Prop where
  hB : inp.item_batch_size = 2 ^ p
  hK : 1 ≤ inp.K
  hKB : inp.K ≤ inp.item_batch_size
  hBN : inp.item_batch_size ≤ inp.num_items

/-- Every batch start up to the one following `j` is at or below `batch_counter`. -/
def Reach (inp : ClusterInput α) (st : ClusterState α) (j : Nat) : Prop :=
  ∀ t, inp.item_batch_size * t < j + inp.item_batch_size →
    inp.item_batch_size * t < inp.num_items → inp.item_batch_size * t ≤ st.batch_counter

/-- The ceilings of the rest of the batch of `j` are in `user_norm_times_upper_bound`. -/
def CeilCoh (inp : ClusterInput α) (env : Oracle α) (i : Nat) (st : ClusterState α)
    (j : Nat) : Prop :=
  ∀ j', j ≤ j' → j' < inp.num_items → j' / inp.item_batch_size = j / inp.item_batch_size →
    st.user_norm_times_upper_bound (j' % inp.item_batch_size) = ceiling inp env i j'

/-- The scores of the rest of the batch of `j` are in row `i` of `users_dot_items`. -/
def ScoreCoh (inp : ClusterInput α) (env : Oracle α) (i : Nat) (st : ClusterState α)
    (j : Nat) : Prop :=
  ∀ j', j ≤ j' → j' < inp.num_items → j' / inp.item_batch_size = j / inp.item_batch_size →
    st.users_dot_items (i * inp.item_batch_size + j' % inp.item_batch_size) = score inp env i j'

/-- The variable `n` is large enough for every filled batch that starts at or after `j`. -/
def NGood (inp : ClusterInput α) (st : ClusterState α) (j : Nat) : Prop :=
  ∀ t, j ≤ inp.item_batch_size * t → inp.item_batch_size * t < st.batch_counter →
    min inp.item_batch_size (inp.num_items - inp.item_batch_size * t) ≤ st.n

/-- Every recorded break compared the queue minimum with the ceiling of its user and
index. -/
def GoodBrk (inp : ClusterInput α) (env : Oracle α) (tr : List (Event α)) : Prop :=
  ∀ i j top c, Event.brk i j top c ∈ tr →
    i < inp.num_users_to_compute ∧ inp.K ≤ j ∧ j < inp.num_items ∧
      c = ceiling inp env i j ∧ c < top

/-- Users for which the stale value of `n` cannot matter: the first user of the
cluster, or any user when `item_batch_size` divides `num_items` or there are at most
two batches. -/
def Unaffected (inp : ClusterInput α) (i : Nat) : Prop :=
  i = 0 ∨ inp.item_batch_size ∣ inp.num_items ∨ inp.num_items ≤ 2 * inp.item_batch_size

/-- Invariant of the user loop before user `i` is processed. -/
structure UserInv (inp : ClusterInput α) (env : Oracle α) (i : Nat) (st : ClusterState α) :
    Prop where
  filled : Filled inp env st
  brk : GoodBrk inp env st.trace
  rows : ∀ i' l, i ≤ i' → i' < inp.num_users_to_compute → l < inp.item_batch_size →
    st.users_dot_items (i' * inp.item_batch_size + l) = score inp env i' l
  ngood : Unaffected inp i → NGood inp st 1
  done : ∀ i', i' < i → Unaffected inp i' → rowOf inp.K st.top_K_items i' = idealRow inp env i'
  scores : ∀ i' j v, Event.score i' j v ∈ st.trace → Unaffected inp i' → v = score inp env i' j

end Predicates

section Hypotheses

variable {α : Type} [LinearOrderedCommRing α]

/-- The buffer `upper_bounds` bounds every score of the cluster:
`u_i · item_k ≤ ‖u_i‖ · upper_bounds[k]`. -/
def ValidBound (inp : ClusterInput α) (env : Oracle α) : Prop :=
  ∀ i, i < inp.num_users_to_compute → ∀ k, k < inp.num_items →
    exactScore inp i k ≤ env.user_norms i * upper_bounds inp env k

/-- Order of a row of `top_K_items`: the earlier id has the larger score, and of two ids
with equal scores the earlier one is the larger id. -/
def RowOrder (inp : ClusterInput α) (i : Nat) (a b : Nat) : Prop :=
  exactScore inp i b < exactScore inp i a ∨ (exactScore inp i a = exactScore inp i b ∧ b < a)

end Hypotheses

section Geometry

/-- The norms and angles handed to the upper-bound constructor are the true ones: norms
are the positive square roots of the self products, and each angle lies in `[0, π]`
and has the cosine `x · c / (‖x‖ ‖c‖)`.  The cosine used is the real cosine. -/
structure TrueGeometry (inp : ClusterInput ℝ) (env : Oracle ℝ) : Prop where
  cos_eq : env.cos = Real.cos
  centroid_norm_pos : 0 < inp.centroid_norm
  centroid_norm_sq : inp.centroid_norm ^ 2 =
    dotRows inp.num_latent_factors inp.centroid 0 inp.centroid 0
  item_norm_pos : ∀ k, k < inp.num_items → 0 < inp.item_norms k
  item_norm_sq : ∀ k, k < inp.num_items → inp.item_norms k ^ 2 =
    dotRows inp.num_latent_factors inp.item_weights (k * inp.num_latent_factors)
      inp.item_weights (k * inp.num_latent_factors)
  item_theta_range : ∀ k, k < inp.num_items → 0 ≤ inp.theta_ics k ∧ inp.theta_ics k ≤ Real.pi
  item_theta : ∀ k, k < inp.num_items →
    Real.cos (inp.theta_ics k) * (inp.item_norms k * inp.centroid_norm) =
      dotRows inp.num_latent_factors inp.item_weights (k * inp.num_latent_factors)
        inp.centroid 0
  user_norm_pos : ∀ i, i < inp.num_users_to_compute → 0 < env.user_norms i
  user_norm_sq : ∀ i, i < inp.num_users_to_compute → env.user_norms i ^ 2 =
    dotRows inp.num_latent_factors inp.user_weights (i * inp.num_latent_factors)
      inp.user_weights (i * inp.num_latent_factors)
  user_theta_range : ∀ i, i < inp.num_users_to_compute →
    0 ≤ env.theta_ucs i ∧ env.theta_ucs i ≤ Real.pi
  user_theta : ∀ i, i < inp.num_users_to_compute →
    Real.cos (env.theta_ucs i) * (env.user_norms i * inp.centroid_norm) =
      dotRows inp.num_latent_factors inp.user_weights (i * inp.num_latent_factors)
        inp.centroid 0

end Geometry

section StepPredicates

variable {α : Type} [LinearOrderedCommRing α]

/-- The materialized prefix: below `min(batch_counter, num_items)` the sorted buffers
hold the upper bound and the weight row of the item at that sorted position. -/
def Materialized (inp : ClusterInput α) (env : Oracle α) (st : ClusterState α) : Prop :=
  ∀ k, k < min st.batch_counter inp.num_items →
    st.sorted_upper_bounds k = upper_bounds inp env (env.sorted_upper_bounds_indices k) ∧
    ∀ c, c < inp.num_latent_factors →
      st.sorted_item_weights (k * inp.num_latent_factors + c) =
        inp.item_weights (env.sorted_upper_bounds_indices k * inp.num_latent_factors + c)

/-- From state `st` to the later state `st'`, `batch_counter` has not decreased and the
rows that were filled in `st` hold the same values in `st'`. -/
def KeepsFilled (inp : ClusterInput α) (st st' : ClusterState α) : Prop :=
  st.batch_counter ≤ st'.batch_counter ∧
  ∀ k, k < st.batch_counter →
    st'.sorted_upper_bounds k = st.sorted_upper_bounds k ∧
    ∀ c, c < inp.num_latent_factors →
      st'.sorted_item_weights (k * inp.num_latent_factors + c) =
        st.sorted_item_weights (k * inp.num_latent_factors + c)

/-- The event is a buffer read. -/
def Event.isRead : Event α → Bool
  | Event.read _ _ => true
  | _ => false

/-- The trace `new` is the trace `old` followed by events that all satisfy `ok`. -/
def TraceExt (ok : Event α → Prop) (old new : List (Event α)) : Prop :=
  ∃ l, new = old ++ l ∧ ∀ e, e ∈ l → ok e

/-- Events a pass of the scan loop of user `i` can record when it runs to its end:
buffer reads and score reads of user `i`. -/
def Event.scanOf (i : Nat) (e : Event α) : Prop :=
  e.isRead = true ∨ ∃ j v, e = Event.score i j v

/-- Events the processing of user `i` can record: buffer reads, and score reads, breaks
and empty-queue flags of user `i`. -/
def Event.userOf (i : Nat) (e : Event α) : Prop :=
  e.isRead = true ∨ (∃ j v, e = Event.score i j v) ∨ (∃ j top c, e = Event.brk i j top c) ∨
    ∃ j, e = Event.emptyTop i j

/-- Invariant of the queue `q` of user `i` in state `st` when the scan loop is at index
`j`, in terms of the values actually read: the queue is ascending and holds `K` pairs;
its item ids are those of distinct sorted positions below `j` the user has visited (a
seed position, or one with a recorded score read); the values read so far, `j` in
number, split into the scores of the queue and others none of which exceeds a score of
the queue. -/
structure ScanInv (inp : ClusterInput α) (env : Oracle α) (i j : Nat) (st : ClusterState α)
    (q : Heap α) : Prop where
  len : q.length = inp.K
  sorted : q.Pairwise PairLe
  pos : ∃ ps : List Nat, ps.Nodup ∧
    (q.map Prod.snd).Perm (ps.map env.sorted_upper_bounds_indices) ∧
    ∀ p, p ∈ ps → p < j ∧ (p < inp.K ∨ ∃ v, Event.score i p v ∈ st.trace)
  reads : ∃ others : List α,
    (seedScores inp env i ++ scoresRead i st.trace).Perm (q.map Prod.fst ++ others) ∧
    ∀ x, x ∈ others → ∀ e, e ∈ q → x ≤ e.1
  count : (seedScores inp env i ++ scoresRead i st.trace).length = j

end StepPredicates

section Concrete

/-- A list read as a buffer; cells past the end of the list hold `d`. -/
def vec {β : Type} (d : β) (l : List β) : Nat → β := fun k => l.getD k d

/-- Rational stand-in for the C library cosine in the concrete runs over `ℚ`: the
Taylor polynomial of degree two.  It is exact at `0`, the only angle that occurs in
those runs. -/
def cosQ (x : ℚ) : ℚ := 1 - x * x / 2

/-- Round to nearest, ties to even, of the quotient `n / d` to a natural number. -/
def roundNearestEven (n d : Nat) : Nat :=
  let q := n / d
  let r := n % d
  if 2 * r < d then q
  else if d < 2 * r then q + 1
  else if q % 2 = 0 then q else q + 1

/-- The number of halvings that take `n` below `2`, at most `fuel` of them: the binary
logarithm of `n`, rounded down, when `fuel ≥ n`. -/
def halvings : Nat → Nat → Nat
  | 0, _ => 0
  | fuel + 1, n => if n < 2 then 0 else halvings fuel (n / 2) + 1

/-- The binary exponent `e` of the positive quotient `n / d`: `2^e ≤ n / d < 2^(e+1)`. -/
def binaryExponent (n d : Nat) : Int :=
  let e0 : Int := (halvings n n : Int) - (halvings d d : Int)
  if n * 2 ^ (-e0).toNat < d * 2 ^ e0.toNat then e0 - 1 else e0

/-- Rounding of a rational number to IEEE-754 single precision (`float`), round to
nearest, ties to even: a value with binary exponent `e` is rounded to a multiple of
`2^(e-23)`, and of `2^(-149)` below `2^(-126)`.  Overflow to infinity (values of
`2^128` and more) is not represented; no run below comes near it. -/
def roundFloat (x : ℚ) : ℚ :=
  if x.num = 0 then 0
  else
    let n := x.num.natAbs
    let d := x.den
    let e := max (binaryExponent n d) (-126)
    let s : Int := 23 - e
    let m := roundNearestEven (n * 2 ^ s.toNat) (d * 2 ^ (-s).toNat)
    let y : ℚ := ((m * 2 ^ (-s).toNat : Nat) : ℚ) / ((2 ^ s.toNat : Nat) : ℚ)
    if x.num < 0 then -y else y

/-- A cluster with one latent factor on the positive half-line: the centroid is `1`,
users and items are positive numbers, so every angle is `0` and the norm of a vector
is its value. -/
def lineInput (users items : List ℚ) (K B : Nat) : ClusterInput ℚ :=
  { centroid := vec 0 [1]
    user_weights := vec 0 users
    item_weights := vec 0 items
    item_norms := vec 0 items
    theta_ics := fun _ => 0
    centroid_norm := 1
    num_items := items.length
    num_latent_factors := 1
    K := K
    item_batch_size := B
    num_users_to_compute := users.length }

/-- The data computed outside the function for `lineInput`, with the sort result
`order`; products stored in `float` are rounded by `roundFloat`; fresh memory and the
output buffer hold zeros. -/
def lineOracle (users : List ℚ) (order : List Nat) : Oracle ℚ :=
  { cos := cosQ
    user_norms := vec 0 users
    theta_ucs := fun _ => 0
    sorted_upper_bounds_indices := vec 0 order
    float_round := roundFloat
    malloc_upper_bounds := fun _ => 0
    malloc_sorted_upper_bounds := fun _ => 0
    malloc_sorted_item_weights := fun _ => 0
    malloc_users_dot_items := fun _ => 0
    malloc_user_norm_times_upper_bound := fun _ => 0
    top_K_items := fun _ => 0 }

/-- Seventeen items (two of value 2, fifteen of value 1), batch size 8, `K = 3`. -/
def staleItems : List ℚ := [2, 2, 1, 1, 1, 1, 1, 1, 1, 1, 1, 1, 1, 1, 1, 1, 1]

/-- Two users `1` and `2` on `staleItems`: `N = 17`, `B = 8`, `K = 3`. -/
def staleInput : ClusterInput ℚ := lineInput [1, 2] staleItems 3 8

/-- Oracle of `staleInput`; equal upper bounds are listed by ascending item id. -/
def staleOracle : Oracle ℚ := lineOracle [1, 2] (List.range 17)

/-- The cluster of `staleInput` with its two users in the other order. -/
def staleInputSwapped : ClusterInput ℚ := lineInput [2, 1] staleItems 3 8

/-- Oracle of `staleInputSwapped`. -/
def staleOracleSwapped : Oracle ℚ := lineOracle [2, 1] (List.range 17)

/-- Scenario 2 of the specification: items `1.0, 1.0, 0.5`, one user `1.0`, `K = 2`
(batch size 2). -/
def tieInput : ClusterInput ℚ := lineInput [1] [1, 1, 1 / 2] 2 2

/-- Oracle of `tieInput`; equal upper bounds are listed by ascending item id. -/
def tieOracle : Oracle ℚ := lineOracle [1] [0, 1, 2]

/-- Three items `3, 2, 1`, users `10` and `1`, `K = 2` larger than the batch size 1. -/
def narrowInput : ClusterInput ℚ := lineInput [10, 1] [3, 2, 1] 2 1

/-- Oracle of `narrowInput`. -/
def narrowOracle : Oracle ℚ := lineOracle [10, 1] [0, 1, 2]

/-- Three items `3, 2, 1`, one user, `K = 1`, batch size 4 larger than `num_items`. -/
def wideInput : ClusterInput ℚ := lineInput [1] [3, 2, 1] 1 4

/-- Oracle of `wideInput`. -/
def wideOracle : Oracle ℚ := lineOracle [1] [0, 1, 2]

/-- A cluster in the plane: centroid `(1, 0)`, users `(1, 0)` and `(-1, 0)`, items
`(4, 0)` and `(4, 3)` of norms `4` and `5`; `a` is the angle between the second item
and the centroid.  `N = 2`, `F = 2`, `K = 1`, `B = 1`. -/
def planeInput {α : Type} [LinearOrderedCommRing α] (a : α) : ClusterInput α :=
  { centroid := vec 0 [1, 0]
    user_weights := vec 0 [1, 0, -1, 0]
    item_weights := vec 0 [4, 0, 4, 3]
    item_norms := vec 0 [4, 5]
    theta_ics := vec 0 [0, a]
    centroid_norm := 1
    num_items := 2
    num_latent_factors := 2
    K := 1
    item_batch_size := 1
    num_users_to_compute := 2 }

/-- Oracle of `planeInput`: the users have norm `1` and angles `0` and `straight` (the
straight angle) to the centroid; the upper bounds are `4` and `5`, so the sort result
is `[1, 0]`.  The products of a user norm and an upper bound of this cluster, `1 · 4`
and `1 · 5`, are `float`s, which rounding to `float` leaves as they are: `float_round`
is the identity here. -/
def planeOracle {α : Type} [LinearOrderedCommRing α] (cosf : α → α) (straight : α) : Oracle α :=
  { cos := cosf
    user_norms := vec 0 [1, 1]
    theta_ucs := vec 0 [0, straight]
    sorted_upper_bounds_indices := vec 0 [1, 0]
    float_round := fun x => x
    malloc_upper_bounds := fun _ => 0
    malloc_sorted_upper_bounds := fun _ => 0
    malloc_sorted_item_weights := fun _ => 0
    malloc_users_dot_items := fun _ => 0
    malloc_user_norm_times_upper_bound := fun _ => 0
    top_K_items := fun _ => 0 }

end Concrete

section ConcreteWitness

/-- Four items `4, 3, 2, 1`, users `1` and `2`, `K = 2`, batch size 2 (which divides
`num_items`). -/
def evenInput : ClusterInput ℚ := lineInput [1, 2] [4, 3, 2, 1] 2 2

/-- Oracle of `evenInput`. -/
def evenOracle : Oracle ℚ := lineOracle [1, 2] [0, 1, 2, 3]

/-- Three users with angles `1/2, 3/2, 1` to the centroid and two items with angles
`2` and `1`, norms `3` and `5`; only the upper-bound constructor is run on it. -/
def angleInput : ClusterInput ℚ :=
  { centroid := vec 0 [1]
    user_weights := vec 0 [1, 1, 1]
    item_weights := vec 0 [3, 5]
    item_norms := vec 0 [3, 5]
    theta_ics := vec 0 [2, 1]
    centroid_norm := 1
    num_items := 2
    num_latent_factors := 1
    K := 1
    item_batch_size := 1
    num_users_to_compute := 3 }

/-- Oracle of `angleInput`. -/
def angleOracle : Oracle ℚ :=
  { cos := cosQ
    user_norms := vec 0 [1, 1, 1]
    theta_ucs := vec 0 [1 / 2, 3 / 2, 1]
    sorted_upper_bounds_indices := vec 0 [1, 0]
    float_round := roundFloat
    malloc_upper_bounds := fun _ => 0
    malloc_sorted_upper_bounds := fun _ => 0
    malloc_sorted_item_weights := fun _ => 0
    malloc_users_dot_items := fun _ => 0
    malloc_user_norm_times_upper_bound := fun _ => 0
    top_K_items := fun _ => 0 }

/-- A cluster of `65536` users with batch size `65536`: the product of the two sizes is
`2^32`. -/
def overflowInput : ClusterInput ℚ :=
  { centroid := vec 0 [1]
    user_weights := fun _ => 1
    item_weights := fun _ => 1
    item_norms := fun _ => 1
    theta_ics := fun _ => 0
    centroid_norm := 1
    num_items := 65536
    num_latent_factors := 1
    K := 1
    item_batch_size := 65536
    num_users_to_compute := 65536 }

/-- Oracle of `overflowInput`. -/
def overflowOracle : Oracle ℚ := lineOracle [] []

end ConcreteWitness

section ConcreteSteps

/-- A cluster on the line: centroid `1`, one user `1` (norm `1`, angle `0`), one item `-1`
(norm `1`), whose angle to the centroid is `a`, the straight angle.  `N = 1`, `F = 1`,
`K = 1`, `B = 1`. -/
def backInput {α : Type} [LinearOrderedCommRing α] (a : α) : ClusterInput α :=
  { centroid := vec 0 [1]
    user_weights := vec 0 [1]
    item_weights := vec 0 [-1]
    item_norms := vec 0 [1]
    theta_ics := vec 0 [a]
    centroid_norm := 1
    num_items := 1
    num_latent_factors := 1
    K := 1
    item_batch_size := 1
    num_users_to_compute := 1 }

/-- Oracle of `backInput` with the cosine `cosf`; only the upper-bound constructor is run
on it, which rounds no product, and `float_round` is the identity. -/
def backOracle {α : Type} [LinearOrderedCommRing α] (cosf : α → α) : Oracle α :=
  { cos := cosf
    user_norms := vec 0 [1]
    theta_ucs := vec 0 [0]
    sorted_upper_bounds_indices := vec 0 [0]
    float_round := fun x => x
    malloc_upper_bounds := fun _ => 0
    malloc_sorted_upper_bounds := fun _ => 0
    malloc_sorted_item_weights := fun _ => 0
    malloc_users_dot_items := fun _ => 0
    malloc_user_norm_times_upper_bound := fun _ => 0
    top_K_items := fun _ => 0 }

end ConcreteSteps

section HeapTheory
variable {α : Type} [LinearOrderedCommRing α]

theorem pairLt_true_le {a b : α × Nat} (h : pairLt a b = true) : PairLe a b := by
  unfold pairLt at h
  unfold PairLe
  simp only [Bool.or_eq_true, Bool.and_eq_true, decide_eq_true_eq] at h
  rcases h with h | ⟨h1, h2⟩
  · exact Or.inl h
  · exact Or.inr ⟨h1, le_of_lt h2⟩

theorem pairLt_false_le {a b : α × Nat} (h : pairLt a b = false) : PairLe b a := by
  unfold pairLt at h
  unfold PairLe
  simp only [Bool.or_eq_false_iff, Bool.and_eq_false_iff, decide_eq_false_iff_not, not_lt] at h
  obtain ⟨h1, h2⟩ := h
  rcases lt_or_eq_of_le h1 with h3 | h3
  · exact Or.inl h3
  · right
    refine ⟨h3, ?_⟩
    rcases h2 with h2 | h2
    · exact absurd h3.symm h2
    · exact h2

theorem PairLe.trans_le {a b c : α × Nat} (h1 : PairLe a b) (h2 : PairLe b c) : PairLe a c := by
  unfold PairLe at *
  rcases h1 with h1 | ⟨h1, h1'⟩ <;> rcases h2 with h2 | ⟨h2, h2'⟩
  · exact Or.inl (lt_trans h1 h2)
  · exact Or.inl (h2 ▸ h1)
  · exact Or.inl (h1 ▸ h2)
  · exact Or.inr ⟨h1.trans h2, le_trans h1' h2'⟩

theorem PairLe.fst_le {a b : α × Nat} (h : PairLe a b) : a.1 ≤ b.1 := by
  rcases h with h | ⟨h, _⟩
  · exact le_of_lt h
  · exact le_of_eq h

theorem PairLe.antisymm {a b : α × Nat} (h1 : PairLe a b) (h2 : PairLe b a) : a = b := by
  unfold PairLe at *
  rcases h1 with h1 | ⟨h1, h1'⟩ <;> rcases h2 with h2 | ⟨h2, h2'⟩
  · exact absurd h1 (not_lt.mpr (le_of_lt h2))
  · exact absurd h1 (by rw [h2]; exact lt_irrefl _)
  · exact absurd h2 (by rw [h1]; exact lt_irrefl _)
  · exact Prod.ext h1 (le_antisymm h1' h2')

theorem push_perm (p : α × Nat) (q : Heap α) : (push p q).Perm (p :: q) := by
  induction q with
  | nil => simp [push]
  | cons x xs ih =>
    unfold push
    split
    · exact (List.Perm.cons x ih).trans (List.Perm.swap p x xs)
    · exact List.Perm.refl _

theorem mem_push {p e : α × Nat} {q : Heap α} : e ∈ push p q ↔ e = p ∨ e ∈ q := by
  rw [(push_perm p q).mem_iff]
  simp

theorem length_push (p : α × Nat) (q : Heap α) : (push p q).length = q.length + 1 := by
  rw [(push_perm p q).length_eq]
  simp

theorem push_sorted (p : α × Nat) (q : Heap α) (h : q.Pairwise PairLe) :
    (push p q).Pairwise PairLe := by
  induction q with
  | nil => simp [push]
  | cons x xs ih =>
    rw [List.pairwise_cons] at h
    unfold push
    split
    · rename_i hlt
      rw [List.pairwise_cons]
      refine ⟨?_, ih h.2⟩
      intro y hy
      rcases mem_push.mp hy with rfl | hy
      · exact pairLt_true_le hlt
      · exact h.1 y hy
    · rename_i hlt
      have hpx : PairLe p x := pairLt_false_le (by simpa using hlt)
      rw [List.pairwise_cons, List.pairwise_cons]
      refine ⟨?_, h⟩
      intro y hy
      rcases List.mem_cons.mp hy with rfl | hy
      · exact hpx
      · exact hpx.trans_le (h.1 y hy)

theorem push_nodup (p : α × Nat) (q : Heap α) (h : q.Nodup) (hp : p ∉ q) : (push p q).Nodup := by
  rw [(push_perm p q).nodup_iff]
  exact List.nodup_cons.mpr ⟨hp, h⟩

end HeapTheory

section IdealTheory
variable {α : Type} [LinearOrderedCommRing α]

theorem idealSeed_succ (score : Nat → α) (pi : Nat → Nat) (k : Nat) :
    idealSeed score pi (k + 1) = push (score k, pi k) (idealSeed score pi k) := by
  unfold idealSeed
  rw [List.range_succ, List.foldl_append]
  rfl

theorem idealSeed_inv (score ceil : Nat → α) (pi : Nat → Nat) (N : Nat)
    (hinj : ∀ a b, a < N → b < N → pi a = pi b → a = b) :
    ∀ k, k ≤ N → HeapInv score ceil pi k N k (idealSeed score pi k) ∧
      ∀ p, p < k → (score p, pi p) ∈ idealSeed score pi k := by
  intro k
  induction k with
  | zero =>
    intro _
    refine ⟨⟨?_, ?_, ?_, ?_, ?_⟩, ?_⟩ <;> simp [idealSeed]
  | succ k ih =>
    intro hk
    obtain ⟨hinv, hall⟩ := ih (by omega)
    rw [idealSeed_succ]
    have hnot : (score k, pi k) ∉ idealSeed score pi k := by
      intro hmem
      obtain ⟨p, hp, he⟩ := hinv.src _ hmem
      have h2 : pi k = pi p := congrArg Prod.snd he
      have := hinj k p (by omega) (by omega) h2
      omega
    have hall2 : ∀ p, p < k + 1 → (score p, pi p) ∈ push (score k, pi k) (idealSeed score pi k) := by
      intro p hp
      rcases Nat.lt_succ_iff_lt_or_eq.mp hp with h | h
      · exact mem_push.mpr (Or.inr (hall p h))
      · subst h
        exact mem_push.mpr (Or.inl rfl)
    refine ⟨⟨push_sorted _ _ hinv.sorted, ?_, push_nodup _ _ hinv.nodup hnot, ?_, ?_⟩, hall2⟩
    · rw [length_push, hinv.len]
    · intro e he
      rcases mem_push.mp he with rfl | he
      · exact ⟨k, by omega, rfl⟩
      · obtain ⟨p, hp, hpe⟩ := hinv.src e he
        exact ⟨p, by omega, hpe⟩
    · intro _ p hp
      exact Or.inl (hall2 p hp)

theorem HeapInv.top_le {score ceil : Nat → α} {pi : Nat → Nat} {K N j : Nat} {top : α × Nat}
    {rest : Heap α} (h : HeapInv score ceil pi K N j (top :: rest)) :
    ∀ e ∈ top :: rest, top.1 ≤ e.1 := by
  intro e he
  rcases List.mem_cons.mp he with rfl | he
  · exact le_refl _
  · exact ((List.pairwise_cons.mp h.sorted).1 e he).fst_le

theorem idealScan_inv (score ceil : Nat → α) (pi : Nat → Nat) (K N : Nat)
    (hinj : ∀ a b, a < N → b < N → pi a = pi b → a = b) :
    ∀ fuel j q, j + fuel = N → HeapInv score ceil pi K N j q →
      HeapInv score ceil pi K N N (idealScan score ceil pi fuel j q) := by
  intro fuel
  induction fuel with
  | zero =>
    intro j q hj hq
    have : j = N := by omega
    subst this
    simpa [idealScan] using hq
  | succ fuel ih =>
    intro j q hj hq
    cases q with
    | nil =>
      simp only [idealScan]
      exact ⟨by simp, hq.len, by simp, by simp, by simp⟩
    | cons top rest =>
      simp only [idealScan]
      have htop := hq.top_le
      split
      · rename_i hbrk
        refine ⟨hq.sorted, hq.len, hq.nodup, ?_, ?_⟩
        · intro e he
          obtain ⟨p, hp, hpe⟩ := hq.src e he
          exact ⟨p, by omega, hpe⟩
        · intro hok p hp
          by_cases hpj : p < j
          · exact hq.cover hok p hpj
          · right
            intro e he
            have h1 := hok j p (by omega) hp
            have h3 := htop e he
            exact le_trans h1 (le_trans (le_of_lt hbrk) h3)
      · rename_i hbrk
        apply ih (j + 1) _ (by omega)
        have hsorted := List.pairwise_cons.mp hq.sorted
        have hnd := List.nodup_cons.mp hq.nodup
        have hlen : rest.length + 1 = K := by simpa using hq.len
        split
        · rename_i hrep
          have hnot : (score j, pi j) ∉ rest := by
            intro hmem
            obtain ⟨p, hp, he⟩ := hq.src _ (List.mem_cons_of_mem _ hmem)
            have h2 : pi j = pi p := congrArg Prod.snd he
            have := hinj j p (by omega) (by omega) h2
            omega
          refine ⟨push_sorted _ _ hsorted.2, ?_, push_nodup _ _ hnd.2 hnot, ?_, ?_⟩
          · rw [length_push, hlen]
          · intro e he
            rcases mem_push.mp he with rfl | he
            · exact ⟨j, by omega, rfl⟩
            · obtain ⟨p, hp, hpe⟩ := hq.src e (List.mem_cons_of_mem _ he)
              exact ⟨p, by omega, hpe⟩
          · intro hok p hp
            rcases Nat.lt_succ_iff_lt_or_eq.mp hp with h | h
            · have key : score p ≤ top.1 → ∀ e ∈ push (score j, pi j) rest, score p ≤ e.1 := by
                intro hle e he
                rcases mem_push.mp he with rfl | he
                · exact le_trans hle (le_of_lt hrep)
                · exact le_trans hle (htop e (List.mem_cons_of_mem _ he))
              rcases hq.cover hok p h with hin | hall
              · rcases List.mem_cons.mp hin with heq | hin
                · right
                  apply key
                  rw [← heq]
                · exact Or.inl (mem_push.mpr (Or.inr hin))
              · exact Or.inr (key (hall top (List.mem_cons_self _ _)))
            · subst h
              exact Or.inl (mem_push.mpr (Or.inl rfl))
        · rename_i hrep
          refine ⟨hq.sorted, hq.len, hq.nodup, ?_, ?_⟩
          · intro e he
            obtain ⟨p, hp, hpe⟩ := hq.src e he
            exact ⟨p, by omega, hpe⟩
          · intro hok p hp
            rcases Nat.lt_succ_iff_lt_or_eq.mp hp with h | h
            · exact hq.cover hok p h
            · subst h
              right
              intro e he
              exact le_trans (not_lt.mp hrep) (htop e he)

end IdealTheory

section QuietTheory
variable {α : Type}

theorem Quiet.refl (t : List (Event α)) : Quiet t t := fun _ h => Or.inl h

theorem Quiet.andThen {a b c : List (Event α)} (h1 : Quiet a b) (h2 : Quiet b c) :
    Quiet a c := by
  intro e he
  rcases h2 e he with h | h
  · exact h1 e h
  · exact Or.inr h

theorem Quiet.append (t l : List (Event α)) (h : ∀ e, e ∈ l → e.quiet = true) :
    Quiet t (t ++ l) := by
  intro e he
  rcases List.mem_append.mp he with h1 | h1
  · exact Or.inl h1
  · exact Or.inr (h e h1)

end QuietTheory

section StateTheory
variable {α : Type} [LinearOrderedCommRing α]

variable (inp : ClusterInput α) (env : Oracle α)

theorem row_cell_iff (F a k c : Nat) (hc : c < F) :
    (a * F ≤ k * F + c ∧ k * F + c < a * F + F) ↔ k = a := by
  constructor
  · rintro ⟨h1, h2⟩
    rcases Nat.lt_trichotomy k a with h | h | h
    · have := Nat.mul_le_mul_right F (Nat.succ_le_of_lt h)
      rw [Nat.succ_mul] at this
      omega
    · exact h
    · have := Nat.mul_le_mul_right F (Nat.succ_le_of_lt h)
      rw [Nat.succ_mul] at this
      omega
  · rintro rfl
    omega

theorem dotRows_congr (F : Nat) (a : Nat → α) (ao : Nat) (b b' : Nat → α) (bo bo' : Nat)
    (h : ∀ c, c < F → b (bo + c) = b' (bo' + c)) :
    dotRows F a ao b bo = dotRows F a ao b' bo' := by
  unfold dotRows
  congr 1
  apply List.map_congr_left
  intro c hc
  rw [h c (List.mem_range.mp hc)]

theorem copyRow_fields (st : ClusterState α) (j : Nat) :
    (copyRow inp env st j).users_dot_items = st.users_dot_items ∧
    (copyRow inp env st j).user_norm_times_upper_bound = st.user_norm_times_upper_bound ∧
    (copyRow inp env st j).batch_counter = st.batch_counter ∧
    (copyRow inp env st j).n = st.n ∧
    (copyRow inp env st j).top_K_items = st.top_K_items := by
  simp [copyRow]

theorem foldl_copyRow_fields (l : List Nat) (st : ClusterState α) :
    (l.foldl (copyRow inp env) st).users_dot_items = st.users_dot_items ∧
    (l.foldl (copyRow inp env) st).user_norm_times_upper_bound = st.user_norm_times_upper_bound ∧
    (l.foldl (copyRow inp env) st).batch_counter = st.batch_counter ∧
    (l.foldl (copyRow inp env) st).n = st.n ∧
    (l.foldl (copyRow inp env) st).top_K_items = st.top_K_items := by
  induction l generalizing st with
  | nil => simp
  | cons a l ih =>
    rw [List.foldl_cons]
    obtain ⟨h1, h2, h3, h4, h5⟩ := ih (copyRow inp env st a)
    obtain ⟨g1, g2, g3, g4, g5⟩ := copyRow_fields inp env st a
    exact ⟨h1.trans g1, h2.trans g2, h3.trans g3, h4.trans g4, h5.trans g5⟩

theorem foldl_copyRow_sub (l : List Nat) (st : ClusterState α) (k : Nat) :
    (l.foldl (copyRow inp env) st).sorted_upper_bounds k =
      if k ∈ l then upper_bounds inp env (env.sorted_upper_bounds_indices k)
      else st.sorted_upper_bounds k := by
  induction l generalizing st with
  | nil => simp
  | cons a l ih =>
    rw [List.foldl_cons, ih]
    by_cases hk : k ∈ l
    · simp [hk]
    · by_cases hka : k = a
      · subst hka
        simp [hk, copyRow]
      · simp [hk, hka, copyRow]

theorem foldl_copyRow_siw (l : List Nat) (st : ClusterState α) (k c : Nat)
    (hc : c < inp.num_latent_factors) :
    (l.foldl (copyRow inp env) st).sorted_item_weights (k * inp.num_latent_factors + c) =
      if k ∈ l then
        inp.item_weights (env.sorted_upper_bounds_indices k * inp.num_latent_factors + c)
      else st.sorted_item_weights (k * inp.num_latent_factors + c) := by
  induction l generalizing st with
  | nil => simp
  | cons a l ih =>
    rw [List.foldl_cons, ih]
    by_cases hk : k ∈ l
    · simp [hk]
    · have hiff := row_cell_iff inp.num_latent_factors a k c hc
      by_cases hka : k = a
      · subst hka
        simp [hk, copyRow, hc]
      · have hn : ¬ (a * inp.num_latent_factors ≤ k * inp.num_latent_factors + c ∧
            k * inp.num_latent_factors + c < a * inp.num_latent_factors + inp.num_latent_factors) :=
          fun h => hka (hiff.mp h)
        simp only [hk, hka, copyRow, if_false, List.mem_cons, or_self]
        rw [if_neg hn]

theorem copyRow_trace (st : ClusterState α) (j : Nat) :
    Quiet st.trace (copyRow inp env st j).trace := by
  unfold copyRow
  apply Quiet.append
  intro e he
  simp only [List.mem_cons, List.mem_map] at he
  rcases he with rfl | rfl | ⟨c, _, rfl⟩ <;> rfl

theorem foldl_copyRow_trace (l : List Nat) (st : ClusterState α) :
    Quiet st.trace (l.foldl (copyRow inp env) st).trace := by
  induction l generalizing st with
  | nil => exact Quiet.refl _
  | cons a l ih =>
    rw [List.foldl_cons]
    exact (copyRow_trace inp env st a).andThen (ih _)

end StateTheory

section BatchTheory
variable {α : Type} [LinearOrderedCommRing α]
variable (inp : ClusterInput α) (env : Oracle α)

theorem Filled.of_eq {st st' : ClusterState α} (h : Filled inp env st)
    (h1 : st'.sorted_upper_bounds = st.sorted_upper_bounds)
    (h2 : st'.sorted_item_weights = st.sorted_item_weights)
    (h3 : st'.batch_counter = st.batch_counter) (h4 : st'.n = st.n) : Filled inp env st' := by
  refine ⟨?_, ?_, ?_, ?_, ?_, ?_⟩
  · rw [h3]; exact h.bc_ge
  · rw [h3]; exact h.bc_le
  · rw [h3]; exact h.bc_shape
  · rw [h4]; exact h.n_le
  · intro k hk
    rw [h1]
    exact h.sub k (h3 ▸ hk)
  · intro k c hk hc
    rw [h2]
    exact h.siw k c (h3 ▸ hk) hc

theorem mem_map_add_range (bc n k : Nat) :
    k ∈ (List.range n).map (fun l => bc + l) ↔ bc ≤ k ∧ k < bc + n := by
  simp only [List.mem_map, List.mem_range]
  constructor
  · rintro ⟨l, hl, rfl⟩
    omega
  · rintro ⟨h1, h2⟩
    exact ⟨k - bc, by omega, by omega⟩

theorem fillBatch_frame (j : Nat) (st : ClusterState α) :
    (fillBatch inp env j st).users_dot_items = st.users_dot_items ∧
    (fillBatch inp env j st).user_norm_times_upper_bound = st.user_norm_times_upper_bound ∧
    (fillBatch inp env j st).top_K_items = st.top_K_items ∧
    Quiet st.trace (fillBatch inp env j st).trace := by
  unfold fillBatch
  split
  · simp only
    rw [← List.foldl_map]
    obtain ⟨h1, h2, _, _, h5⟩ := foldl_copyRow_fields inp env
      ((List.range (min inp.item_batch_size (inp.num_items - st.batch_counter))).map
        (fun l => st.batch_counter + l)) st
    exact ⟨h1, h2, h5, foldl_copyRow_trace inp env _ st⟩
  · exact ⟨rfl, rfl, rfl, Quiet.refl _⟩

theorem fillBatch_n (j : Nat) (st : ClusterState α) :
    (fillBatch inp env j st).n =
      if j = st.batch_counter then min inp.item_batch_size (inp.num_items - st.batch_counter)
      else st.n := by
  unfold fillBatch
  split <;> rfl

theorem fillBatch_bc (j : Nat) (st : ClusterState α) :
    (fillBatch inp env j st).batch_counter =
      if j = st.batch_counter then
        st.batch_counter + min inp.item_batch_size (inp.num_items - st.batch_counter)
      else st.batch_counter := by
  unfold fillBatch
  split <;> rfl

theorem fillBatch_filled (t j : Nat) (st : ClusterState α) (hj : j = inp.item_batch_size * t)
    (hjN : j < inp.num_items) (hjbc : j ≤ st.batch_counter) (h : Filled inp env st) :
    Filled inp env (fillBatch inp env j st) ∧
      min (j + inp.item_batch_size) inp.num_items ≤ (fillBatch inp env j st).batch_counter := by
  have hge := h.bc_ge
  have hle := h.bc_le
  by_cases hjeq : j = st.batch_counter
  · have hbc : (fillBatch inp env j st).batch_counter =
        st.batch_counter + min inp.item_batch_size (inp.num_items - st.batch_counter) := by
      rw [fillBatch_bc, if_pos hjeq]
    have hn : (fillBatch inp env j st).n =
        min inp.item_batch_size (inp.num_items - st.batch_counter) := by
      rw [fillBatch_n, if_pos hjeq]
    have hsub : ∀ k, (fillBatch inp env j st).sorted_upper_bounds k =
        if st.batch_counter ≤ k ∧ k < st.batch_counter +
            min inp.item_batch_size (inp.num_items - st.batch_counter)
        then upper_bounds inp env (env.sorted_upper_bounds_indices k)
        else st.sorted_upper_bounds k := by
      intro k
      unfold fillBatch
      rw [if_pos hjeq]
      simp only
      rw [← List.foldl_map, foldl_copyRow_sub]
      simp only [mem_map_add_range]
    have hsiw : ∀ k c, c < inp.num_latent_factors →
        (fillBatch inp env j st).sorted_item_weights (k * inp.num_latent_factors + c) =
        if st.batch_counter ≤ k ∧ k < st.batch_counter +
            min inp.item_batch_size (inp.num_items - st.batch_counter)
        then inp.item_weights (env.sorted_upper_bounds_indices k * inp.num_latent_factors + c)
        else st.sorted_item_weights (k * inp.num_latent_factors + c) := by
      intro k c hc
      unfold fillBatch
      rw [if_pos hjeq]
      simp only
      rw [← List.foldl_map, foldl_copyRow_siw inp env _ _ _ _ hc]
      simp only [mem_map_add_range]
    refine ⟨⟨?_, ?_, ?_, ?_, ?_, ?_⟩, ?_⟩
    · rw [hbc]; omega
    · rw [hbc]; omega
    · rw [hbc]
      by_cases hfull : inp.item_batch_size ≤ inp.num_items - st.batch_counter
      · left
        rw [Nat.min_eq_left hfull, ← hjeq, hj]
        exact ⟨t + 1, by rw [Nat.mul_succ]⟩
      · right
        rw [Nat.min_eq_right (by omega)]
        omega
    · rw [hn]; exact Nat.min_le_left _ _
    · intro k hk
      rw [hsub]
      split
      · rfl
      · rw [hbc] at hk
        exact h.sub k (by omega)
    · intro k c hk hc
      rw [hsiw k c hc]
      split
      · rfl
      · rw [hbc] at hk
        exact h.siw k c (by omega) hc
    · rw [hbc, ← hjeq]
      omega
  · have heq : fillBatch inp env j st = st := by
      unfold fillBatch
      rw [if_neg hjeq]
    rw [heq]
    refine ⟨h, ?_⟩
    have hlt : j < st.batch_counter := by omega
    rcases h.bc_shape with ⟨s, hs⟩ | hN
    · have : t < s := by
        by_contra hts
        have := Nat.mul_le_mul_left inp.item_batch_size (not_lt.mp hts)
        omega
      have := Nat.mul_le_mul_left inp.item_batch_size (Nat.succ_le_of_lt this)
      rw [Nat.mul_succ] at this
      omega
    · omega

theorem gemvUser_frame (i j : Nat) (st : ClusterState α) :
    (gemvUser inp i j st).sorted_upper_bounds = st.sorted_upper_bounds ∧
    (gemvUser inp i j st).sorted_item_weights = st.sorted_item_weights ∧
    (gemvUser inp i j st).batch_counter = st.batch_counter ∧
    (gemvUser inp i j st).n = st.n ∧
    (gemvUser inp i j st).user_norm_times_upper_bound = st.user_norm_times_upper_bound ∧
    (gemvUser inp i j st).top_K_items = st.top_K_items ∧
    Quiet st.trace (gemvUser inp i j st).trace := by
  refine ⟨rfl, rfl, rfl, rfl, rfl, rfl, ?_⟩
  unfold gemvUser
  apply Quiet.append
  intro e he
  simp only [List.mem_flatMap, List.mem_map] at he
  obtain ⟨a, _, b, _, rfl⟩ := he
  rfl

theorem gemvUser_udi (i j idx : Nat) (st : ClusterState α) :
    (gemvUser inp i j st).users_dot_items idx =
      if i * inp.item_batch_size ≤ idx ∧ idx < i * inp.item_batch_size + st.n then
        dotRows inp.num_latent_factors inp.user_weights (i * inp.num_latent_factors)
          st.sorted_item_weights ((j + (idx - i * inp.item_batch_size)) * inp.num_latent_factors)
      else st.users_dot_items idx := rfl

theorem refreshCeilings_frame (i j : Nat) (st : ClusterState α) :
    (refreshCeilings inp env i j st).sorted_upper_bounds = st.sorted_upper_bounds ∧
    (refreshCeilings inp env i j st).sorted_item_weights = st.sorted_item_weights ∧
    (refreshCeilings inp env i j st).batch_counter = st.batch_counter ∧
    (refreshCeilings inp env i j st).n = st.n ∧
    (refreshCeilings inp env i j st).users_dot_items = st.users_dot_items ∧
    (refreshCeilings inp env i j st).top_K_items = st.top_K_items ∧
    Quiet st.trace (refreshCeilings inp env i j st).trace := by
  refine ⟨rfl, rfl, rfl, rfl, rfl, rfl, ?_⟩
  unfold refreshCeilings
  apply Quiet.append
  intro e he
  simp only [List.mem_map] at he
  obtain ⟨a, _, rfl⟩ := he
  rfl

theorem refreshCeilings_unt (i j l : Nat) (st : ClusterState α) :
    (refreshCeilings inp env i j st).user_norm_times_upper_bound l =
      if l < inp.item_batch_size then
        env.float_round (env.user_norms i * st.sorted_upper_bounds (j + l))
      else st.user_norm_times_upper_bound l := rfl

end BatchTheory

section ParamsTheory
variable {α : Type}

theorem Params.pos {inp : ClusterInput α} {p : Nat} (hP : Params inp p) :
    0 < inp.item_batch_size := by
  rw [hP.hB]
  exact Nat.pos_pow_of_pos p (by norm_num)

theorem Params.land {inp : ClusterInput α} {p : Nat} (hP : Params inp p) (j : Nat) :
    j &&& (inp.item_batch_size - 1) = j % inp.item_batch_size := by
  rw [hP.hB]
  exact Nat.and_pow_two_sub_one_eq_mod j p

end ParamsTheory

section LoopTheory
variable {α : Type} [LinearOrderedCommRing α]

variable (inp : ClusterInput α) (env : Oracle α)

theorem GoodBrk.of_quiet {old new : List (Event α)} (h : GoodBrk inp env old)
    (h2 : Quiet old new) : GoodBrk inp env new := by
  intro i j top c he
  rcases h2 _ he with h3 | h3
  · exact h i j top c h3
  · simp [Event.quiet] at h3

theorem no_multiple_between (B t s : Nat) (h1 : B * t < B * s) (h2 : B * s < B * t + B) : False := by
  have h3 : t < s := Nat.lt_of_mul_lt_mul_left h1
  have h4 := Nat.mul_le_mul_left B (Nat.succ_le_of_lt h3)
  rw [Nat.mul_succ] at h4
  omega

theorem same_batch_eq (B j j' : Nat) (hj : j % B = 0) (h : j' / B = j / B) :
    j + j' % B = j' := by
  have h1 := Nat.div_add_mod j B
  have h2 := Nat.div_add_mod j' B
  rw [h] at h2
  omega

/-- Effect of the batch-boundary code on the invariants. -/
theorem boundary_step {p : Nat} (hP : Params inp p) (i j : Nat) (st : ClusterState α)
    (hjN : j < inp.num_items) (hF : Filled inp env st) (hR : Reach inp st j)
    (hC : j % inp.item_batch_size ≠ 0 → CeilCoh inp env i st j) :
    let st0 := if j % inp.item_batch_size = 0 then enterBatch inp env i j st else st
    Filled inp env st0 ∧ Reach inp st0 (j + 1) ∧ CeilCoh inp env i st0 j ∧
    st0.top_K_items = st.top_K_items ∧
    (∀ idx, ¬ (i * inp.item_batch_size ≤ idx ∧ idx < i * inp.item_batch_size + inp.item_batch_size) →
      st0.users_dot_items idx = st.users_dot_items idx) ∧
    Quiet st.trace st0.trace ∧
    (NGood inp st j → (j % inp.item_batch_size ≠ 0 → ScoreCoh inp env i st j) →
      NGood inp st0 (j + 1) ∧ ScoreCoh inp env i st0 j) ∧
    ((inp.item_batch_size ∣ inp.num_items ∨ inp.num_items ≤ 2 * inp.item_batch_size) →
      NGood inp st 1 → NGood inp st0 1) := by
  intro st0
  have hBpos := hP.pos
  by_cases hb : j % inp.item_batch_size = 0
  · have hst0 : st0 = enterBatch inp env i j st := if_pos hb
    have hjt : j = inp.item_batch_size * (j / inp.item_batch_size) := by
      have := Nat.div_add_mod j inp.item_batch_size
      omega
    have hjbc : j ≤ st.batch_counter := by
      have := hR (j / inp.item_batch_size) (by omega) (by omega)
      omega
    obtain ⟨hFf, hmin⟩ := fillBatch_filled inp env _ j st hjt hjN hjbc hF
    obtain ⟨f1, f2, f3, f4⟩ := fillBatch_frame inp env j st
    obtain ⟨g1, g2, g3, g4, g5, g6, g7⟩ := gemvUser_frame inp i j (fillBatch inp env j st)
    obtain ⟨r1, r2, r3, r4, r5, r6, r7⟩ :=
      refreshCeilings_frame inp env i j (gemvUser inp i j (fillBatch inp env j st))
    have hbc0 : st0.batch_counter = (fillBatch inp env j st).batch_counter := by
      rw [hst0]; exact r3.trans g3
    have hn0 : st0.n = (fillBatch inp env j st).n := by
      rw [hst0]; exact r4.trans g4
    have hF0 : Filled inp env st0 := by
      rw [hst0]
      exact hFf.of_eq inp env (r1.trans g1) (r2.trans g2) (r3.trans g3) (r4.trans g4)
    have hinb : ∀ j', j ≤ j' → j' < inp.num_items →
        j' / inp.item_batch_size = j / inp.item_batch_size →
        j + j' % inp.item_batch_size = j' ∧ j' < (fillBatch inp env j st).batch_counter := by
      intro j' _ h2 h3
      have e := same_batch_eq inp.item_batch_size j j' hb h3
      have := Nat.mod_lt j' hBpos
      exact ⟨e, by omega⟩
    refine ⟨hF0, ?_, ?_, ?_, ?_, ?_, ?_, ?_⟩
    · intro t h1 h2
      rw [hbc0]
      omega
    · intro j' h1 h2 h3
      obtain ⟨e, hlt⟩ := hinb j' h1 h2 h3
      rw [hst0]
      unfold enterBatch
      rw [refreshCeilings_unt, if_pos (Nat.mod_lt j' hBpos), g1, e, hFf.sub j' hlt]
      rfl
    · rw [hst0]; exact (r6.trans g6).trans f3
    · intro idx hidx
      rw [hst0]
      unfold enterBatch
      rw [r5, gemvUser_udi, if_neg, f1]
      intro hh
      have := hFf.n_le
      exact hidx ⟨hh.1, by omega⟩
    · rw [hst0]
      exact (f4.andThen g7).andThen r7
    · intro hNG hSC
      have hnf := fillBatch_n inp env j st
      have hbf := fillBatch_bc inp env j st
      constructor
      · intro t h1 h2
        rw [hbc0] at h2
        rw [hn0]
        by_cases hjeq : j = st.batch_counter
        · rw [if_pos hjeq] at hbf
          exfalso
          rw [hbf, ← hjeq] at h2
          have hh : min inp.item_batch_size (inp.num_items - j) ≤ inp.item_batch_size :=
            Nat.min_le_left _ _
          exact no_multiple_between inp.item_batch_size (j / inp.item_batch_size) t
            (by omega) (by omega)
        · rw [if_neg hjeq] at hbf hnf
          rw [hnf]
          exact hNG t (by omega) (by omega)
      · intro j' h1 h2 h3
        obtain ⟨e, hlt⟩ := hinb j' h1 h2 h3
        have hmodlt := Nat.mod_lt j' hBpos
        have hnge : j' % inp.item_batch_size < (fillBatch inp env j st).n := by
          by_cases hjeq : j = st.batch_counter
          · rw [if_pos hjeq] at hnf
            rw [hnf, ← hjeq]
            omega
          · rw [if_neg hjeq] at hnf
            rw [hnf]
            have := hNG (j / inp.item_batch_size) (by omega) (by omega)
            omega
        rw [hst0]
        unfold enterBatch
        rw [r5, gemvUser_udi, if_pos ⟨by omega, by omega⟩]
        have hidx : i * inp.item_batch_size + j' % inp.item_batch_size - i * inp.item_batch_size
            = j' % inp.item_batch_size := by omega
        rw [hidx, e]
        unfold score exactScore
        apply dotRows_congr
        intro c hc
        exact hFf.siw j' c hlt hc
    · intro hA hNG t h1 h2
      rw [hbc0] at h2
      rw [hn0]
      have hnf := fillBatch_n inp env j st
      have hbf := fillBatch_bc inp env j st
      by_cases hjeq : j = st.batch_counter
      · rw [if_pos hjeq] at hbf hnf
        rw [hnf, ← hjeq]
        rw [hbf, ← hjeq] at h2
        rcases hA with ⟨s, hs⟩ | hA
        · have : inp.item_batch_size ≤ inp.num_items - j := by
            have h5 : j / inp.item_batch_size < s := by
              apply Nat.lt_of_mul_lt_mul_left (a := inp.item_batch_size)
              omega
            have h6 := Nat.mul_le_mul_left inp.item_batch_size (Nat.succ_le_of_lt h5)
            rw [Nat.mul_succ] at h6
            omega
          rw [Nat.min_eq_left this]
          exact Nat.min_le_left _ _
        · have hge := hF.bc_ge
          have ht1 : t = 1 := by
            have h7 : t < 2 := by
              apply Nat.lt_of_mul_lt_mul_left (a := inp.item_batch_size)
              omega
            have h8 : 0 < t := by
              rcases Nat.eq_zero_or_pos t with h0 | h0
              · subst h0; omega
              · exact h0
            omega
          subst ht1
          have hj1 : j = inp.item_batch_size := by
            have h9 : j / inp.item_batch_size < 2 := by
              apply Nat.lt_of_mul_lt_mul_left (a := inp.item_batch_size)
              omega
            have h10 : 0 < j / inp.item_batch_size := by
              rcases Nat.eq_zero_or_pos (j / inp.item_batch_size) with h0 | h0
              · rw [h0] at hjt; omega
              · exact h0
            have : j / inp.item_batch_size = 1 := by omega
            rw [this] at hjt
            omega
          rw [hj1]
          simp
      · rw [if_neg hjeq] at hbf hnf
        rw [hnf]
        exact hNG t h1 (by omega)
  · have hst0 : st0 = st := if_neg hb
    rw [hst0]
    refine ⟨hF, ?_, hC hb, rfl, fun _ _ => rfl, Quiet.refl _, ?_, fun _ h => h⟩
    · intro t h1 h2
      by_cases h3 : inp.item_batch_size * t < j + inp.item_batch_size
      · exact hR t h3 h2
      · exfalso
        have h4 : inp.item_batch_size * t = j + inp.item_batch_size := by omega
        have h5 : j = inp.item_batch_size * (t - 1) := by
          rcases Nat.eq_zero_or_pos t with h0 | h0
          · subst h0; omega
          · have : t = (t - 1) + 1 := by omega
            rw [this, Nat.mul_succ] at h4
            omega
        apply hb
        rw [h5]
        exact Nat.mul_mod_right _ _
    · intro hNG hSC
      exact ⟨fun t h1 h2 => hNG t (by omega) h2, hSC hb⟩

end LoopTheory

section LoopTheory2
variable {α : Type} [LinearOrderedCommRing α]
variable (inp : ClusterInput α) (env : Oracle α)

theorem coh_succ (B j j' : Nat) (hs : (j + 1) % B ≠ 0) (h1 : j + 1 ≤ j')
    (h3 : j' / B = (j + 1) / B) : j ≤ j' ∧ j' / B = j / B := by
  refine ⟨by omega, ?_⟩
  rw [h3]
  apply Nat.succ_div_of_not_dvd
  intro hd
  exact hs (Nat.mod_eq_zero_of_dvd hd)

/-- The scan loop of user `i`: what it preserves for every user, and, when `n` is
adequate, that the queue evolves as `idealScan` on the exact scores and ceilings. -/
theorem scanLoop_spec {p : Nat} (hP : Params inp p) (i : Nat)
    (hi : i < inp.num_users_to_compute) :
    ∀ fuel j st q, j + fuel = inp.num_items → inp.K ≤ j → Filled inp env st →
      Reach inp st j → (j % inp.item_batch_size ≠ 0 → CeilCoh inp env i st j) →
      GoodBrk inp env st.trace →
      Filled inp env (scanLoop inp env i fuel j st q).1 ∧
      GoodBrk inp env (scanLoop inp env i fuel j st q).1.trace ∧
      (scanLoop inp env i fuel j st q).1.top_K_items = st.top_K_items ∧
      (∀ idx, ¬ (i * inp.item_batch_size ≤ idx ∧
          idx < i * inp.item_batch_size + inp.item_batch_size) →
        (scanLoop inp env i fuel j st q).1.users_dot_items idx = st.users_dot_items idx) ∧
      (∀ i' j' v, Event.score i' j' v ∈ (scanLoop inp env i fuel j st q).1.trace →
        Event.score i' j' v ∈ st.trace ∨ i' = i) ∧
      (NGood inp st j → (j % inp.item_batch_size ≠ 0 → ScoreCoh inp env i st j) →
        (scanLoop inp env i fuel j st q).2 =
          idealScan (score inp env i) (ceiling inp env i) env.sorted_upper_bounds_indices
            fuel j q ∧
        (∀ i' j' v, Event.score i' j' v ∈ (scanLoop inp env i fuel j st q).1.trace →
          Event.score i' j' v ∈ st.trace ∨ (i' = i ∧ v = score inp env i j')) ∧
        ((inp.item_batch_size ∣ inp.num_items ∨ inp.num_items ≤ 2 * inp.item_batch_size) →
          NGood inp st 1 → NGood inp (scanLoop inp env i fuel j st q).1 1)) := by
  intro fuel
  induction fuel with
  | zero =>
    intro j st q _ _ hF _ _ hG
    simp only [scanLoop, idealScan]
    exact ⟨hF, hG, trivial, fun _ _ => trivial, fun _ _ _ h => Or.inl h,
      fun _ _ => ⟨trivial, fun _ _ _ h => Or.inl h, fun _ h => h⟩⟩
  | succ fuel ih =>
    intro j st q hj hKj hF hR hC hG
    have hjN : j < inp.num_items := by omega
    obtain ⟨b1, b2, b3, b4, b5, b6, b7, b8⟩ := boundary_step inp env hP i j st hjN hF hR hC
    generalize hst0 : (if j % inp.item_batch_size = 0 then enterBatch inp env i j st else st)
      = st0 at b1 b2 b3 b4 b5 b6 b7 b8
    have hcj : st0.user_norm_times_upper_bound (j % inp.item_batch_size) = ceiling inp env i j :=
      b3 j (le_refl _) hjN rfl
    cases q with
    | nil =>
      simp only [scanLoop, idealScan, hP.land, hst0]
      have hG0 := hG.of_quiet inp env b6
      refine ⟨b1.of_eq inp env rfl rfl rfl rfl, ?_, b4, b5, ?_, ?_⟩
      · intro i' j' top c he
        rcases List.mem_append.mp he with h | h
        · exact hG0 i' j' top c h
        · simp at h
      · intro i' j' v he
        rcases List.mem_append.mp he with h | h
        · rcases b6 _ h with h2 | h2
          · exact Or.inl h2
          · simp [Event.quiet] at h2
        · simp at h
      · intro hNG hSC
        refine ⟨trivial, ?_, ?_⟩
        · intro i' j' v he
          rcases List.mem_append.mp he with h | h
          · rcases b6 _ h with h2 | h2
            · exact Or.inl h2
            · simp [Event.quiet] at h2
          · simp at h
        · intro hA hN1
          exact b8 hA hN1
    | cons top rest =>
      simp only [scanLoop, idealScan, hP.land, hst0]
      rw [hcj]
      have hG0 := hG.of_quiet inp env b6
      by_cases hbrk : ceiling inp env i j < top.1
      · rw [if_pos hbrk, if_pos hbrk]
        refine ⟨b1.of_eq inp env rfl rfl rfl rfl, ?_, b4, b5, ?_, ?_⟩
        · intro i' j' t' c he
          rcases List.mem_append.mp he with h | h
          · exact hG0 i' j' t' c h
          · simp only [List.mem_singleton, Event.brk.injEq] at h
            obtain ⟨rfl, rfl, rfl, rfl⟩ := h
            exact ⟨hi, hKj, hjN, rfl, hbrk⟩
        · intro i' j' v he
          rcases List.mem_append.mp he with h | h
          · rcases b6 _ h with h2 | h2
            · exact Or.inl h2
            · simp [Event.quiet] at h2
          · simp at h
        · intro hNG hSC
          refine ⟨rfl, ?_, ?_⟩
          · intro i' j' v he
            rcases List.mem_append.mp he with h | h
            · rcases b6 _ h with h2 | h2
              · exact Or.inl h2
              · simp [Event.quiet] at h2
            · simp at h
          · intro hA hN1
            exact b8 hA hN1
      · rw [if_neg hbrk, if_neg hbrk]
        generalize hst1 : ({ st0 with trace := st0.trace ++
            [Event.read Buf.sorted_upper_bounds_indices j,
             Event.read Buf.users_dot_items
               (i * inp.item_batch_size + j % inp.item_batch_size),
             Event.score i j (st0.users_dot_items
               (i * inp.item_batch_size + j % inp.item_batch_size))] } : ClusterState α) = st1
        have e1 : st1.sorted_upper_bounds = st0.sorted_upper_bounds := by rw [← hst1]
        have e2 : st1.sorted_item_weights = st0.sorted_item_weights := by rw [← hst1]
        have e3 : st1.batch_counter = st0.batch_counter := by rw [← hst1]
        have e4 : st1.n = st0.n := by rw [← hst1]
        have e5 : st1.users_dot_items = st0.users_dot_items := by rw [← hst1]
        have e6 : st1.user_norm_times_upper_bound = st0.user_norm_times_upper_bound := by
          rw [← hst1]
        have e7 : st1.top_K_items = st0.top_K_items := by rw [← hst1]
        have e8 : st1.trace = st0.trace ++
            [Event.read Buf.sorted_upper_bounds_indices j,
             Event.read Buf.users_dot_items
               (i * inp.item_batch_size + j % inp.item_batch_size),
             Event.score i j (st0.users_dot_items
               (i * inp.item_batch_size + j % inp.item_batch_size))] := by rw [← hst1]
        have hF1 : Filled inp env st1 := b1.of_eq inp env e1 e2 e3 e4
        have hR1 : Reach inp st1 (j + 1) := by
          intro t h1 h2
          rw [e3]
          exact b2 t h1 h2
        have hC1 : (j + 1) % inp.item_batch_size ≠ 0 → CeilCoh inp env i st1 (j + 1) := by
          intro hs j' h1 h2 h3
          obtain ⟨h4, h5⟩ := coh_succ inp.item_batch_size j j' hs h1 h3
          rw [e6]
          exact b3 j' h4 h2 h5
        have hG1 : GoodBrk inp env st1.trace := by
          intro i' j' t' c he
          rw [e8] at he
          rcases List.mem_append.mp he with h | h
          · exact hG0 i' j' t' c h
          · simp at h
        obtain ⟨c1, c2, c3, c4, c6, c5⟩ := ih (j + 1) st1
          (if top.1 < st0.users_dot_items (i * inp.item_batch_size + j % inp.item_batch_size)
            then push (st0.users_dot_items (i * inp.item_batch_size + j % inp.item_batch_size),
              env.sorted_upper_bounds_indices j) rest
            else top :: rest) (by omega) (by omega) hF1 hR1 hC1 hG1
        refine ⟨c1, c2, ?_, ?_, ?_, ?_⟩
        · rw [c3, e7, b4]
        · intro idx hidx
          rw [c4 idx hidx, e5, b5 idx hidx]
        · intro i' j' v he
          rcases c6 i' j' v he with h | h
          · rw [e8] at h
            rcases List.mem_append.mp h with h | h
            · rcases b6 _ h with h2 | h2
              · exact Or.inl h2
              · simp [Event.quiet] at h2
            · simp only [List.mem_cons, List.mem_singleton, Event.score.injEq,
                List.not_mem_nil, or_false] at h
              rcases h with h | h | h
              · cases h
              · cases h
              · exact Or.inr h.1
          · exact Or.inr h
        · intro hNG hSC
          obtain ⟨d1, d2⟩ := b7 hNG hSC
          have hsj : st0.users_dot_items (i * inp.item_batch_size + j % inp.item_batch_size)
              = score inp env i j := d2 j (le_refl _) hjN rfl
          have hN1 : NGood inp st1 (j + 1) := by
            intro t h1 h2
            rw [e3] at h2
            rw [e4]
            exact d1 t h1 h2
          have hS1 : (j + 1) % inp.item_batch_size ≠ 0 → ScoreCoh inp env i st1 (j + 1) := by
            intro hs j' h1 h2 h3
            obtain ⟨h4, h5⟩ := coh_succ inp.item_batch_size j j' hs h1 h3
            rw [e5]
            exact d2 j' h4 h2 h5
          obtain ⟨f1, f2, f3⟩ := c5 hN1 hS1
          refine ⟨?_, ?_, ?_⟩
          · rw [f1, hsj]
          · intro i' j' v he
            rcases f2 i' j' v he with h | h
            · rw [e8] at h
              rcases List.mem_append.mp h with h | h
              · rcases b6 _ h with h2 | h2
                · exact Or.inl h2
                · simp [Event.quiet] at h2
              · simp only [List.mem_cons, List.mem_singleton, Event.score.injEq,
                  List.not_mem_nil, or_false] at h
                rcases h with h | h | h
                · cases h
                · cases h
                · obtain ⟨rfl, rfl, rfl⟩ := h
                  exact Or.inr ⟨rfl, hsj⟩
            · exact Or.inr h
          · intro hA hNa
            apply f3 hA
            have := b8 hA hNa
            intro t h1 h2
            rw [e3] at h2
            rw [e4]
            exact this t h1 h2

end LoopTheory2

section ExtractFrame
variable {α : Type}

/-- The extraction loop writes only cells of row `i` and records quiet events only. -/
theorem extractLoop_frame (i K : Nat) :
    ∀ fuel j q (st : ClusterState α), j + fuel = K →
      (extractLoop i K fuel j q st).sorted_upper_bounds = st.sorted_upper_bounds ∧
      (extractLoop i K fuel j q st).sorted_item_weights = st.sorted_item_weights ∧
      (extractLoop i K fuel j q st).batch_counter = st.batch_counter ∧
      (extractLoop i K fuel j q st).n = st.n ∧
      (extractLoop i K fuel j q st).users_dot_items = st.users_dot_items ∧
      Quiet st.trace (extractLoop i K fuel j q st).trace ∧
      (∀ k, (∀ t, t < fuel → k ≠ i * K + K - 1 - (j + t)) →
        (extractLoop i K fuel j q st).top_K_items k = st.top_K_items k) := by
  intro fuel
  induction fuel with
  | zero =>
    intro j q st _
    exact ⟨rfl, rfl, rfl, rfl, rfl, Quiet.refl _, fun _ _ => rfl⟩
  | succ fuel ih =>
    intro j q st hj
    cases q with
    | nil =>
      refine ⟨rfl, rfl, rfl, rfl, rfl, ?_, fun _ _ => rfl⟩
      apply Quiet.append
      intro e he
      simp only [List.mem_singleton] at he
      subst he
      rfl
    | cons p rest =>
      simp only [extractLoop]
      obtain ⟨h1, h2, h3, h4, h5, h6, h7⟩ := ih (j + 1) rest
        { st with top_K_items := fun k => if k = i * K + K - 1 - j then p.2
                                           else st.top_K_items k } (by omega)
      refine ⟨h1, h2, h3, h4, h5, h6, ?_⟩
      intro k hk
      rw [h7 k (fun t ht => by have := hk (t + 1) (by omega); rw [show j + 1 + t = j + (t + 1) by omega]; exact this)]
      simp only
      rw [if_neg]
      have := hk 0 (by omega)
      simpa using this

/-- With a queue of exactly `K` elements the extraction loop stores the item id of the
`t`-th smallest pair at column `K - 1 - t` of row `i`. -/
theorem extractLoop_cells (i K : Nat) :
    ∀ fuel j q (st : ClusterState α), j + fuel = K → q.length = fuel →
      ∀ t, t < fuel →
        (q.map Prod.snd)[t]? =
          some ((extractLoop i K fuel j q st).top_K_items (i * K + K - 1 - (j + t))) := by
  intro fuel
  induction fuel with
  | zero => intro j q st _ _ t ht; omega
  | succ fuel ih =>
    intro j q st hj hq t ht
    cases q with
    | nil => simp at hq
    | cons p rest =>
      simp only [extractLoop]
      cases t with
      | zero =>
        obtain ⟨_, _, _, _, _, _, h7⟩ := extractLoop_frame i K fuel (j + 1) rest
          { st with top_K_items := fun k => if k = i * K + K - 1 - j then p.2
                                             else st.top_K_items k } (by omega)
        simp only [List.map_cons, List.getElem?_cons_zero, Nat.add_zero, Option.some.injEq]
        rw [h7 _ (fun t ht => by omega)]
        simp
      | succ t =>
        have := ih (j + 1) rest
          { st with top_K_items := fun k => if k = i * K + K - 1 - j then p.2
                                             else st.top_K_items k } (by omega)
          (by simpa using hq) t (by omega)
        simp only [List.map_cons, List.getElem?_cons_succ]
        rw [this]
        congr 2
        omega

end ExtractFrame

section UserTheory
variable {α : Type} [LinearOrderedCommRing α]
variable (inp : ClusterInput α) (env : Oracle α)

theorem idealScan_length (sc ceil : Nat → α) (pi : Nat → Nat) :
    ∀ fuel j q, (idealScan sc ceil pi fuel j q).length = q.length := by
  intro fuel
  induction fuel with
  | zero => intro j q; rfl
  | succ fuel ih =>
    intro j q
    cases q with
    | nil => rfl
    | cons top rest =>
      simp only [idealScan]
      split
      · rfl
      · rw [ih]
        split
        · rw [length_push]
          rfl
        · rfl

theorem idealSeed_length (sc : Nat → α) (pi : Nat → Nat) (K : Nat) :
    (idealSeed sc pi K).length = K := by
  induction K with
  | zero => rfl
  | succ k ih => rw [idealSeed_succ, length_push, ih]

end UserTheory

section SeedTrace
variable {α : Type}

/-- The trace after lines 271-275. -/
theorem seed_trace_quiet (inp : ClusterInput α) (i : Nat) (tr : List (Event α)) :
    Quiet tr (tr ++ (List.range inp.K).flatMap (fun j =>
        [Event.read Buf.sorted_upper_bounds_indices j,
         Event.read Buf.users_dot_items (i * inp.item_batch_size + j)])) := by
  apply Quiet.append
  intro e he
  simp only [List.mem_flatMap, List.mem_cons, List.mem_singleton, List.not_mem_nil,
    or_false] at he
  obtain ⟨j, _, rfl | rfl⟩ := he <;> rfl

theorem rowOf_extract (i K : Nat) (q : Heap α) (st : ClusterState α) (hq : q.length = K) :
    rowOf K (extractLoop i K K 0 q st).top_K_items i = (q.map Prod.snd).reverse := by
  apply List.ext_getElem?
  intro n
  by_cases hn : n < K
  · have h1 := extractLoop_cells i K K 0 q st (by omega) hq (K - 1 - n) (by omega)
    rw [List.getElem?_reverse (by simpa [hq] using hn)]
    simp only [List.length_map, hq]
    rw [h1]
    unfold rowOf
    rw [List.getElem?_map, List.getElem?_range hn]
    simp only [Option.map_some']
    congr 2
    omega
  · rw [List.getElem?_eq_none (by simp [rowOf]; omega),
      List.getElem?_eq_none (by simp [hq]; omega)]

end SeedTrace

section UserTheory2
variable {α : Type} [LinearOrderedCommRing α]
variable (inp : ClusterInput α) (env : Oracle α)

theorem rowOf_congr (K i : Nat) (t t' : Nat → Nat)
    (h : ∀ k, i * K ≤ k → k < i * K + K → t k = t' k) : rowOf K t i = rowOf K t' i := by
  unfold rowOf
  apply List.map_congr_left
  intro p hp
  have := List.mem_range.mp hp
  exact h _ (by omega) (by omega)

theorem seedHeap_eq (i : Nat) (st : ClusterState α)
    (h : ∀ j, j < inp.K → st.users_dot_items (i * inp.item_batch_size + j) = score inp env i j) :
    seedHeap inp env i st = idealSeed (score inp env i) env.sorted_upper_bounds_indices inp.K := by
  unfold seedHeap idealSeed
  apply List.foldl_ext
  intro q j hj
  rw [h j (List.mem_range.mp hj)]

/-- One iteration of the user loop. -/
theorem processUser_spec {p : Nat} (hP : Params inp p) (i : Nat)
    (hi : i < inp.num_users_to_compute) (st : ClusterState α) (hF : Filled inp env st)
    (hG : GoodBrk inp env st.trace) :
    Filled inp env (processUser inp env st i) ∧
    GoodBrk inp env (processUser inp env st i).trace ∧
    (∀ idx, ¬ (i * inp.item_batch_size ≤ idx ∧
        idx < i * inp.item_batch_size + inp.item_batch_size) →
      (processUser inp env st i).users_dot_items idx = st.users_dot_items idx) ∧
    (∀ k, ¬ (i * inp.K ≤ k ∧ k < i * inp.K + inp.K) →
      (processUser inp env st i).top_K_items k = st.top_K_items k) ∧
    (∀ i' j' v, Event.score i' j' v ∈ (processUser inp env st i).trace →
      Event.score i' j' v ∈ st.trace ∨ i' = i) ∧
    (NGood inp st 1 →
      (∀ l, l < inp.item_batch_size →
        st.users_dot_items (i * inp.item_batch_size + l) = score inp env i l) →
      rowOf inp.K (processUser inp env st i).top_K_items i = idealRow inp env i ∧
      (∀ i' j' v, Event.score i' j' v ∈ (processUser inp env st i).trace →
          Event.score i' j' v ∈ st.trace ∨ (i' = i ∧ v = score inp env i j')) ∧
      ((inp.item_batch_size ∣ inp.num_items ∨ inp.num_items ≤ 2 * inp.item_batch_size) →
        NGood inp (processUser inp env st i) 1)) := by
  have hBpos := hP.pos
  have hK := hP.hK
  have hKB := hP.hKB
  have hBN := hP.hBN
  obtain ⟨r1, r2, r3, r4, r5, r6, r7⟩ := refreshCeilings_frame inp env i 0 st
  generalize hst1 : refreshCeilings inp env i 0 st = st1 at r1 r2 r3 r4 r5 r6 r7
  have hunt : ∀ l, l < inp.item_batch_size →
      st1.user_norm_times_upper_bound l = ceiling inp env i l := by
    intro l hl
    rw [← hst1, refreshCeilings_unt, if_pos hl, Nat.zero_add, hF.sub l (by have := hF.bc_ge; omega)]
    rfl
  generalize hst2 : ({ st1 with trace := st1.trace ++ (List.range inp.K).flatMap (fun j =>
        [Event.read Buf.sorted_upper_bounds_indices j,
         Event.read Buf.users_dot_items (i * inp.item_batch_size + j)]) } :
      ClusterState α) = st2
  have e1 : st2.sorted_upper_bounds = st.sorted_upper_bounds := by rw [← hst2]; exact r1
  have e2 : st2.sorted_item_weights = st.sorted_item_weights := by rw [← hst2]; exact r2
  have e3 : st2.batch_counter = st.batch_counter := by rw [← hst2]; exact r3
  have e4 : st2.n = st.n := by rw [← hst2]; exact r4
  have e5 : st2.users_dot_items = st.users_dot_items := by rw [← hst2]; exact r5
  have e6 : st2.user_norm_times_upper_bound = st1.user_norm_times_upper_bound := by rw [← hst2]
  have e7 : st2.top_K_items = st.top_K_items := by rw [← hst2]; exact r6
  have e8 : Quiet st.trace st2.trace := by
    rw [← hst2]
    exact r7.andThen (seed_trace_quiet inp i st1.trace)
  have hF2 : Filled inp env st2 := hF.of_eq inp env e1 e2 e3 e4
  have hG2 : GoodBrk inp env st2.trace := hG.of_quiet inp env e8
  have hR2 : Reach inp st2 inp.K := by
    intro t h1 _
    rw [e3]
    have hge := hF.bc_ge
    have ht : t < 2 := by
      apply Nat.lt_of_mul_lt_mul_left (a := inp.item_batch_size)
      omega
    rcases Nat.lt_succ_iff_lt_or_eq.mp ht with h | h
    · have : t = 0 := by omega
      subst this
      omega
    · subst h
      omega
  have hsmall : inp.K % inp.item_batch_size ≠ 0 → ∀ j', j' / inp.item_batch_size =
      inp.K / inp.item_batch_size → j' < inp.item_batch_size ∧ j' % inp.item_batch_size = j' := by
    intro hne j' h3
    have hlt : inp.K < inp.item_batch_size := by
      rcases Nat.lt_or_ge inp.K inp.item_batch_size with h | h
      · exact h
      · exfalso
        apply hne
        have : inp.K = inp.item_batch_size := by omega
        rw [this]
        exact Nat.mod_self _
    rw [Nat.div_eq_of_lt hlt] at h3
    have : j' < inp.item_batch_size := by
      by_contra hcon
      have := Nat.div_pos (not_lt.mp hcon) hBpos
      omega
    exact ⟨this, Nat.mod_eq_of_lt this⟩
  have hC2 : inp.K % inp.item_batch_size ≠ 0 → CeilCoh inp env i st2 inp.K := by
    intro hne j' _ _ h3
    obtain ⟨h4, h5⟩ := hsmall hne j' h3
    rw [h5, e6]
    exact hunt j' h4
  generalize hq : seedHeap inp env i st1 = q
  obtain ⟨s1, s2, s3, s4, s6, s5⟩ := scanLoop_spec inp env hP i hi (inp.num_items - inp.K) inp.K st2 q
    (by omega) (le_refl _) hF2 hR2 hC2 hG2
  have hproc : processUser inp env st i = extractLoop i inp.K inp.K 0
      (scanLoop inp env i (inp.num_items - inp.K) inp.K st2 q).2
      (scanLoop inp env i (inp.num_items - inp.K) inp.K st2 q).1 := by
    unfold processUser
    simp only [hst1, hst2, hq]
  obtain ⟨x1, x2, x3, x4, x5, x6, x7⟩ := extractLoop_frame i inp.K inp.K 0
    (scanLoop inp env i (inp.num_items - inp.K) inp.K st2 q).2
    (scanLoop inp env i (inp.num_items - inp.K) inp.K st2 q).1 (by omega)
  rw [hproc]
  refine ⟨s1.of_eq inp env x1 x2 x3 x4, s2.of_quiet inp env x6, ?_, ?_, ?_, ?_⟩
  · intro idx hidx
    rw [x5, s4 idx hidx, e5]
  · intro k hk
    rw [x7 k (fun t ht => by omega), s3, e7]
  · intro i' j' v he
    rcases x6 _ he with h | h
    · rcases s6 i' j' v h with h | h
      · rcases e8 _ h with h | h
        · exact Or.inl h
        · simp [Event.quiet] at h
      · exact Or.inr h
    · simp [Event.quiet] at h
  · intro hN hrow
    have hN2 : NGood inp st2 inp.K := by
      intro t h1 h2
      rw [e3] at h2
      rw [e4]
      exact hN t (by omega) h2
    have hS2 : inp.K % inp.item_batch_size ≠ 0 → ScoreCoh inp env i st2 inp.K := by
      intro hne j' _ _ h3
      obtain ⟨h4, h5⟩ := hsmall hne j' h3
      rw [h5, e5]
      exact hrow j' h4
    obtain ⟨t1, t2, t3⟩ := s5 hN2 hS2
    have hqe : q = idealSeed (score inp env i) env.sorted_upper_bounds_indices inp.K := by
      rw [← hq]
      apply seedHeap_eq
      intro j hj
      rw [r5]
      exact hrow j (by omega)
    refine ⟨?_, ?_, ?_⟩
    · rw [rowOf_extract]
      · rw [t1, hqe]
        rfl
      · rw [t1, idealScan_length, hqe, idealSeed_length]
    · intro i' j' v he
      rcases x6 _ he with h | h
      · rcases t2 i' j' v h with h | h
        · rcases e8 _ h with h | h
          · exact Or.inl h
          · simp [Event.quiet] at h
        · exact Or.inr h
      · simp [Event.quiet] at h
    · intro hA
      have hN1 : NGood inp st2 1 := by
        intro t h1 h2
        rw [e3] at h2
        rw [e4]
        exact hN t h1 h2
      have := t3 hA hN1
      intro t h1 h2
      rw [x3] at h2
      rw [x4]
      exact this t h1 h2

end UserTheory2

section ClusterTheory
variable {α : Type} [LinearOrderedCommRing α]
variable (inp : ClusterInput α) (env : Oracle α)

theorem stateAfter_succ (i : Nat) :
    stateAfter inp env (i + 1) = processUser inp env (stateAfter inp env i) i := by
  unfold stateAfter
  rw [List.range_succ, List.foldl_append]
  rfl

/-- The state in which the user loop is entered. -/
theorem initState_spec {p : Nat} (hP : Params inp p) :
    Filled inp env (initState inp env) ∧
    Quiet [] (initState inp env).trace ∧
    NGood inp (initState inp env) 1 ∧
    (∀ i l, i < inp.num_users_to_compute → l < inp.item_batch_size →
      (initState inp env).users_dot_items (i * inp.item_batch_size + l) = score inp env i l) ∧
    (initState inp env).top_K_items = env.top_K_items := by
  have hBpos := hP.pos
  have hBN := hP.hBN
  generalize hst0 : ({ sorted_upper_bounds := env.malloc_sorted_upper_bounds
                       sorted_item_weights := env.malloc_sorted_item_weights
                       users_dot_items := env.malloc_users_dot_items
                       user_norm_times_upper_bound := env.malloc_user_norm_times_upper_bound
                       batch_counter := 0
                       n := 0
                       top_K_items := env.top_K_items
                       trace := [] } : ClusterState α) = st0
  have htr0 : st0.trace = [] := by rw [← hst0]
  have htop0 : st0.top_K_items = env.top_K_items := by rw [← hst0]
  obtain ⟨_, _, _, _, c5⟩ := foldl_copyRow_fields inp env (List.range inp.item_batch_size) st0
  have hsub := foldl_copyRow_sub inp env (List.range inp.item_batch_size) st0
  have hsiw := foldl_copyRow_siw inp env (List.range inp.item_batch_size) st0
  have htr := foldl_copyRow_trace inp env (List.range inp.item_batch_size) st0
  generalize hst1 : (List.range inp.item_batch_size).foldl (copyRow inp env) st0 = st1
    at c5 hsub hsiw htr
  have hmin : min inp.item_batch_size inp.num_items = inp.item_batch_size := Nat.min_eq_left hBN
  have hbc : (initState inp env).batch_counter = inp.item_batch_size := by
    unfold initState
    simp only [hst0, hst1]
  have hn : (initState inp env).n = inp.item_batch_size := by
    unfold initState
    simp only [hst0, hst1, hmin]
  have hsub' : (initState inp env).sorted_upper_bounds = st1.sorted_upper_bounds := by
    unfold initState
    simp only [hst0, hst1]
  have hsiw' : (initState inp env).sorted_item_weights = st1.sorted_item_weights := by
    unfold initState
    simp only [hst0, hst1]
  have hudi : ∀ idx, (initState inp env).users_dot_items idx =
      if idx < inp.num_users_to_compute * inp.item_batch_size then
        dotRows inp.num_latent_factors inp.user_weights
          (idx / inp.item_batch_size * inp.num_latent_factors) st1.sorted_item_weights
          (idx % inp.item_batch_size * inp.num_latent_factors)
      else st1.users_dot_items idx := by
    intro idx
    unfold initState
    simp only [hst0, hst1, hmin]
  have htrace : (initState inp env).trace = st1.trace ++
      (List.range inp.item_batch_size).flatMap (fun b =>
        (List.range inp.num_latent_factors).map (fun c =>
          Event.read Buf.sorted_item_weights (b * inp.num_latent_factors + c))) := by
    unfold initState
    simp only [hst0, hst1, hmin]
  have hF : Filled inp env (initState inp env) := by
    refine ⟨?_, ?_, ?_, ?_, ?_, ?_⟩
    · rw [hbc]
    · rw [hbc]; exact hBN
    · rw [hbc]; exact Or.inl (dvd_refl _)
    · rw [hn]
    · intro k hk
      rw [hbc] at hk
      rw [hsub', hsub, if_pos (List.mem_range.mpr hk)]
    · intro k c hk hc
      rw [hbc] at hk
      rw [hsiw', hsiw k c hc, if_pos (List.mem_range.mpr hk)]
  refine ⟨hF, ?_, ?_, ?_, ?_⟩
  · rw [htrace]
    rw [htr0] at htr
    apply htr.andThen
    apply Quiet.append
    intro e he
    simp only [List.mem_flatMap, List.mem_map] at he
    obtain ⟨a, _, b, _, rfl⟩ := he
    rfl
  · intro t h1 h2
    rw [hbc] at h2
    exfalso
    have : t < 1 := by
      apply Nat.lt_of_mul_lt_mul_left (a := inp.item_batch_size)
      omega
    have : t = 0 := by omega
    subst this
    omega
  · intro i l hi hl
    rw [hudi]
    have hlt : i * inp.item_batch_size + l < inp.num_users_to_compute * inp.item_batch_size := by
      have := Nat.mul_le_mul_right inp.item_batch_size (Nat.succ_le_of_lt hi)
      rw [Nat.succ_mul] at this
      omega
    rw [if_pos hlt]
    have hdiv : (i * inp.item_batch_size + l) / inp.item_batch_size = i := by
      rw [Nat.add_comm, Nat.add_mul_div_right _ _ hBpos, Nat.div_eq_of_lt hl, Nat.zero_add]
    have hmod : (i * inp.item_batch_size + l) % inp.item_batch_size = l := by
      rw [Nat.add_comm, Nat.add_mul_mod_self_right, Nat.mod_eq_of_lt hl]
    rw [hdiv, hmod]
    unfold score exactScore
    apply dotRows_congr
    intro c hc
    rw [hsiw l c hc, if_pos (List.mem_range.mpr hl)]
  · unfold initState
    simp only [hst0, hst1]
    rw [c5, htop0]

theorem userInv_stateAfter {p : Nat} (hP : Params inp p) :
    ∀ i, i ≤ inp.num_users_to_compute → UserInv inp env i (stateAfter inp env i) := by
  intro i
  induction i with
  | zero =>
    intro _
    obtain ⟨h1, h2, h3, h4, _⟩ := initState_spec inp env hP
    refine ⟨h1, ?_, ?_, fun _ => h3, ?_, ?_⟩
    · intro i j top c he
      rcases h2 _ he with h | h
      · simp at h
      · simp [Event.quiet] at h
    · intro i' l _ hi' hl
      exact h4 i' l hi' hl
    · intro i' hi'
      omega
    · intro i' j v he
      rcases h2 _ he with h | h
      · simp at h
      · simp [Event.quiet] at h
  | succ i ih =>
    intro hi
    have hinv := ih (by omega)
    have hBpos := hP.pos
    rw [stateAfter_succ]
    obtain ⟨a1, a2, a3, a4, a6, a5⟩ := processUser_spec inp env hP i (by omega)
      (stateAfter inp env i) hinv.filled hinv.brk
    have hrowi : ∀ l, l < inp.item_batch_size →
        (stateAfter inp env i).users_dot_items (i * inp.item_batch_size + l) = score inp env i l :=
      fun l hl => hinv.rows i l (le_refl _) (by omega) hl
    refine ⟨a1, a2, ?_, ?_, ?_, ?_⟩
    · intro i' l h1 h2 hl
      rw [a3]
      · exact hinv.rows i' l (by omega) h2 hl
      · intro hh
        have := Nat.mul_le_mul_right inp.item_batch_size (Nat.succ_le_of_lt h1)
        rw [Nat.succ_mul] at this
        omega
    · intro hU
      have hA : inp.item_batch_size ∣ inp.num_items ∨ inp.num_items ≤ 2 * inp.item_batch_size := by
        rcases hU with h | h
        · omega
        · exact h
      exact (a5 (hinv.ngood (Or.inr hA)) hrowi).2.2 hA
    · intro i' hi' hU
      rcases Nat.lt_succ_iff_lt_or_eq.mp hi' with h | h
      · rw [← hinv.done i' h hU]
        apply rowOf_congr
        intro k hk1 hk2
        apply a4
        intro hh
        have := Nat.mul_le_mul_right inp.K (Nat.succ_le_of_lt h)
        rw [Nat.succ_mul] at this
        omega
      · subst h
        exact (a5 (hinv.ngood hU) hrowi).1
    · intro i' j v he hU
      by_cases hii : i' = i
      · subst hii
        rcases (a5 (hinv.ngood hU) hrowi).2.1 i' j v he with h | h
        · exact hinv.scores i' j v h hU
        · exact h.2
      · rcases a6 i' j v he with h | h
        · exact hinv.scores i' j v h hU
        · exact absurd h hii

end ClusterTheory

section RowTheory
variable {α : Type} [LinearOrderedCommRing α]
variable (inp : ClusterInput α) (env : Oracle α)

/-- For an unaffected user the row written by the program is the row of the exact
scan. -/
theorem row_eq_idealRow {p : Nat} (hP : Params inp p) (i : Nat)
    (hi : i < inp.num_users_to_compute) (hU : Unaffected inp i) :
    rowOf inp.K (stateAfter inp env inp.num_users_to_compute).top_K_items i =
      idealRow inp env i :=
  (userInv_stateAfter inp env hP inp.num_users_to_compute (le_refl _)).done i hi hU

/-- For an unaffected user every value the scan reads from `users_dot_items` (line 335)
is the exact score of the item at that sorted position. -/
theorem score_reads_exact {p : Nat} (hP : Params inp p) (i j : Nat) (v : α)
    (he : Event.score i j v ∈ (stateAfter inp env inp.num_users_to_compute).trace)
    (hU : Unaffected inp i) : v = score inp env i j :=
  (userInv_stateAfter inp env hP inp.num_users_to_compute (le_refl _)).scores i j v he hU

theorem computeTopKForCluster_eq (hov : overflowCheck inp.num_users_to_compute
    inp.item_batch_size = false) :
    computeTopKForCluster inp env = some (stateAfter inp env inp.num_users_to_compute) := by
  unfold computeTopKForCluster
  rw [hov]
  rfl

/-- The final queue of the exact scan satisfies the queue invariant at `num_items`. -/
theorem finalHeap_inv {p : Nat} (hP : Params inp p)
    (hinj : ∀ a, a < inp.num_items → ∀ b, b < inp.num_items →
      env.sorted_upper_bounds_indices a = env.sorted_upper_bounds_indices b → a = b)
    (i : Nat) :
    HeapInv (score inp env i) (ceiling inp env i) env.sorted_upper_bounds_indices inp.K
      inp.num_items inp.num_items
      (idealScan (score inp env i) (ceiling inp env i) env.sorted_upper_bounds_indices
        (inp.num_items - inp.K) inp.K
        (idealSeed (score inp env i) env.sorted_upper_bounds_indices inp.K)) := by
  have hKN : inp.K ≤ inp.num_items := le_trans hP.hKB hP.hBN
  have hinj2 : ∀ a b, a < inp.num_items → b < inp.num_items →
      env.sorted_upper_bounds_indices a = env.sorted_upper_bounds_indices b → a = b :=
    fun a b ha hb h => hinj a ha b hb h
  apply idealScan_inv (score inp env i) (ceiling inp env i) env.sorted_upper_bounds_indices
    inp.K inp.num_items hinj2
  · omega
  · exact (idealSeed_inv (score inp env i) (ceiling inp env i) env.sorted_upper_bounds_indices
      inp.num_items hinj2 inp.K hKN).1

/-- A product that is a `float` is not changed by the rounding, and then a valid bound
stays valid after rounding. -/
theorem rounded_valid_of_exact (hV : ValidBound inp env) (i : Nat)
    (hi : i < inp.num_users_to_compute)
    (hex : ∀ k, k < inp.num_items →
      env.float_round (env.user_norms i * upper_bounds inp env k) =
        env.user_norms i * upper_bounds inp env k) :
    ∀ k, k < inp.num_items →
      exactScore inp i k ≤ env.float_round (env.user_norms i * upper_bounds inp env k) := by
  intro k hk
  rw [hex k hk]
  exact hV i hi k hk

/-- Shape of the row of item ids read off a queue that satisfies the invariant at
`num_items`: `K` distinct ids below `num_items`, earlier ids have larger `(score, id)`
pairs. -/
theorem heapInv_row_shape
    (hrange : ∀ a, a < inp.num_items → env.sorted_upper_bounds_indices a < inp.num_items)
    (i : Nat) (q : Heap α)
    (hq : HeapInv (score inp env i) (ceiling inp env i) env.sorted_upper_bounds_indices inp.K
      inp.num_items inp.num_items q) :
    ((q.map Prod.snd).reverse).length = inp.K ∧
    ((q.map Prod.snd).reverse).Nodup ∧
    (∀ a ∈ (q.map Prod.snd).reverse, a < inp.num_items) ∧
    ((q.map Prod.snd).reverse).Pairwise (RowOrder inp i) := by
  have hel : ∀ e ∈ q, e.1 = exactScore inp i e.2 ∧ e.2 < inp.num_items := by
    intro e he
    obtain ⟨a, ha, rfl⟩ := hq.src e he
    exact ⟨rfl, hrange a ha⟩
  have hinj2 : ∀ x ∈ q, ∀ y ∈ q, x.2 = y.2 → x = y := by
    intro x hx y hy hxy
    apply Prod.ext _ hxy
    rw [(hel x hx).1, (hel y hy).1, hxy]
  refine ⟨?_, ?_, ?_, ?_⟩
  · simp [hq.len]
  · rw [List.nodup_reverse]
    exact List.Nodup.map_on hinj2 hq.nodup
  · intro a ha
    simp only [List.mem_reverse, List.mem_map] at ha
    obtain ⟨e, he, rfl⟩ := ha
    exact (hel e he).2
  · rw [List.pairwise_reverse, List.pairwise_map]
    have hboth : q.Pairwise (fun x y => PairLe x y ∧ x ≠ y) := hq.sorted.and hq.nodup
    apply hboth.imp_of_mem
    intro x y hx hy hxy
    obtain ⟨hle, hne⟩ := hxy
    have hne2 : x.2 ≠ y.2 := fun h => hne (hinj2 x hx y hy h)
    unfold RowOrder
    rw [← (hel x hx).1, ← (hel y hy).1]
    rcases hle with h | ⟨h1, h2⟩
    · exact Or.inl h
    · exact Or.inr ⟨h1.symm, lt_of_le_of_ne h2 hne2⟩

end RowTheory

section NaiveTheory
variable {α : Type} [LinearOrderedCommRing α]
variable (inp : ClusterInput α)

/-- Whatever order `std::sort` gives to ids of equal score (lines 76-77): when `v` lists
ids so that no id comes before one of larger score, the first `K` ids of `v` differ from
every row in which some id comes before one of larger score. -/
theorem take_ne_of_ascending_pair (i : Nat) (v row : List Nat) (K : Nat)
    (hv : v.Pairwise (fun a b => ¬ exactScore inp i a < exactScore inp i b))
    (hrow : ¬ row.Pairwise (fun a b => ¬ exactScore inp i a < exactScore inp i b)) :
    v.take K ≠ row := by
  intro h
  apply hrow
  rw [← h]
  exact hv.sublist (List.take_sublist K v)

end NaiveTheory

/-- The row `[9, 1, 0]` that the second user of `staleInput` receives is not the head of
any ordering of the ids by descending score: item `9` scores less than item `1`. -/
theorem stale_row_fails_every_sort (v : List Nat)
    (hv : v.Pairwise (fun a b => ¬ exactScore staleInput 1 a < exactScore staleInput 1 b)) :
    v.take 3 ≠ [9, 1, 0] :=
  take_ne_of_ascending_pair staleInput 1 v [9, 1, 0] 3 hv (by decide!)

section BoundTheory
variable {α : Type} [LinearOrderedCommRing α]

theorem isamax_succ (n : Nat) (x : Nat → α) :
    cblas_isamax (n + 1) x =
      if |x (cblas_isamax n x)| < |x n| then n else cblas_isamax n x := by
  unfold cblas_isamax
  rw [List.range_succ, List.foldl_append]
  rfl

theorem isamax_abs_max (x : Nat → α) :
    ∀ n, cblas_isamax (n + 1) x < n + 1 ∧
      ∀ i, i < n + 1 → |x i| ≤ |x (cblas_isamax (n + 1) x)| := by
  intro n
  induction n with
  | zero =>
    have h0 : cblas_isamax 1 x = 0 := by
      rw [isamax_succ]
      simp [cblas_isamax]
    rw [h0]
    refine ⟨by omega, ?_⟩
    intro i hi
    have : i = 0 := by omega
    subst this
    exact le_refl _
  | succ n ih =>
    obtain ⟨h1, h2⟩ := ih
    rw [isamax_succ (n + 1)]
    split
    · rename_i hlt
      refine ⟨by omega, ?_⟩
      intro i hi
      rcases Nat.lt_succ_iff_lt_or_eq.mp hi with h | h
      · exact le_trans (h2 i h) (le_of_lt hlt)
      · subst h
        exact le_refl _
    · rename_i hlt
      refine ⟨by omega, ?_⟩
      intro i hi
      rcases Nat.lt_succ_iff_lt_or_eq.mp hi with h | h
      · exact h2 i h
      · subst h
        exact not_lt.mp hlt

/-- On non-negative angles `theta_max` is the largest `theta_uc` of the cluster. -/
theorem theta_max_spec (inp : ClusterInput α) (env : Oracle α)
    (hm : 1 ≤ inp.num_users_to_compute)
    (hθ : ∀ i, i < inp.num_users_to_compute → 0 ≤ env.theta_ucs i) :
    (∀ i, i < inp.num_users_to_compute → env.theta_ucs i ≤ theta_max inp env) ∧
    (∃ i, i < inp.num_users_to_compute ∧ theta_max inp env = env.theta_ucs i) ∧
    (inp.num_users_to_compute = 1 → theta_max inp env = env.theta_ucs 0) := by
  obtain ⟨n, hn⟩ : ∃ n, inp.num_users_to_compute = n + 1 := ⟨inp.num_users_to_compute - 1, by omega⟩
  obtain ⟨h1, h2⟩ := isamax_abs_max env.theta_ucs n
  unfold theta_max
  rw [hn] at hθ ⊢
  refine ⟨?_, ⟨_, h1, rfl⟩, ?_⟩
  · intro i hi
    have := h2 i hi
    rwa [abs_of_nonneg (hθ i hi), abs_of_nonneg (hθ _ h1)] at this
  · intro hone
    have : n = 0 := by omega
    subst this
    have : cblas_isamax (0 + 1) env.theta_ucs = 0 := by omega
    rw [this]

theorem upper_bounds_eq (inp : ClusterInput α) (env : Oracle α) (k : Nat)
    (hk : k < inp.num_items) :
    upper_bounds inp env k =
      inp.item_norms k * env.cos (max 0 (inp.theta_ics k - theta_max inp env)) := by
  unfold upper_bounds
  rw [if_pos hk]
  simp only
  congr 2
  split
  · rename_i h
    exact (max_eq_left (le_of_lt h)).symm
  · rename_i h
    exact (max_eq_right (not_lt.mp h)).symm

end BoundTheory

section GeometryTheory

theorem dotRows_eq_sum (F : Nat) (a : Nat → ℝ) (ao : Nat) (b : Nat → ℝ) (bo : Nat) :
    dotRows F a ao b bo = ∑ c in Finset.range F, a (ao + c) * b (bo + c) := by
  unfold dotRows
  induction F with
  | zero => simp
  | succ F ih =>
    rw [List.range_succ, List.map_append, List.sum_append, ih, Finset.sum_range_succ]
    simp

/-- Gram inequality for three vectors given by their coordinates. -/
theorem gram_ineq (F : Nat) (u v c : Nat → ℝ) (hcc : 0 < ∑ k in Finset.range F, c k * c k) :
    ((∑ k in Finset.range F, u k * v k) * (∑ k in Finset.range F, c k * c k) -
        (∑ k in Finset.range F, u k * c k) * (∑ k in Finset.range F, v k * c k)) ^ 2 ≤
      ((∑ k in Finset.range F, u k * u k) * (∑ k in Finset.range F, c k * c k) -
          (∑ k in Finset.range F, u k * c k) ^ 2) *
        ((∑ k in Finset.range F, v k * v k) * (∑ k in Finset.range F, c k * c k) -
          (∑ k in Finset.range F, v k * c k) ^ 2) := by
  set cc := ∑ k in Finset.range F, c k * c k with hccd
  set uc := ∑ k in Finset.range F, u k * c k with hucd
  set vc := ∑ k in Finset.range F, v k * c k with hvcd
  set uv := ∑ k in Finset.range F, u k * v k with huvd
  set uu := ∑ k in Finset.range F, u k * u k with huud
  set vv := ∑ k in Finset.range F, v k * v k with hvvd
  have hcs := Finset.sum_mul_sq_le_sq_mul_sq (Finset.range F)
    (fun k => cc * u k - uc * c k) (fun k => cc * v k - vc * c k)
  have e1 : ∑ k in Finset.range F, (cc * u k - uc * c k) * (cc * v k - vc * c k) =
      cc * (uv * cc - uc * vc) := by
    have : ∀ k, (cc * u k - uc * c k) * (cc * v k - vc * c k) =
        cc * cc * (u k * v k) - cc * vc * (u k * c k) - uc * cc * (v k * c k)
          + uc * vc * (c k * c k) := by
      intro k; ring
    simp only [this, Finset.sum_add_distrib, Finset.sum_sub_distrib, ← Finset.mul_sum]
    ring
  have e2 : ∑ k in Finset.range F, (cc * u k - uc * c k) ^ 2 = cc * (uu * cc - uc ^ 2) := by
    have : ∀ k, (cc * u k - uc * c k) ^ 2 =
        cc * cc * (u k * u k) - 2 * cc * uc * (u k * c k) + uc * uc * (c k * c k) := by
      intro k; ring
    simp only [this, Finset.sum_add_distrib, Finset.sum_sub_distrib, ← Finset.mul_sum]
    ring
  have e3 : ∑ k in Finset.range F, (cc * v k - vc * c k) ^ 2 = cc * (vv * cc - vc ^ 2) := by
    have : ∀ k, (cc * v k - vc * c k) ^ 2 =
        cc * cc * (v k * v k) - 2 * cc * vc * (v k * c k) + vc * vc * (c k * c k) := by
      intro k; ring
    simp only [this, Finset.sum_add_distrib, Finset.sum_sub_distrib, ← Finset.mul_sum]
    ring
  rw [e1, e2, e3] at hcs
  have h2 : cc ^ 2 * (uv * cc - uc * vc) ^ 2 ≤
      cc ^ 2 * ((uu * cc - uc ^ 2) * (vv * cc - vc ^ 2)) := by
    calc cc ^ 2 * (uv * cc - uc * vc) ^ 2 = (cc * (uv * cc - uc * vc)) ^ 2 := by ring
      _ ≤ cc * (uu * cc - uc ^ 2) * (cc * (vv * cc - vc ^ 2)) := hcs
      _ = cc ^ 2 * ((uu * cc - uc ^ 2) * (vv * cc - vc ^ 2)) := by ring
  exact le_of_mul_le_mul_left h2 (by positivity)

/-- The angle bound behind the upper bounds: a user at angle `a` and an item at angle `b`
from the centroid have `u · v ≤ ‖u‖ ‖v‖ cos (max 0 (b - t))` for every `t ≥ a`. -/
theorem angle_bound (F : Nat) (u v c : Nat → ℝ) (nu nv nc a b t : ℝ)
    (hnu : 0 < nu) (hnv : 0 < nv) (hnc : 0 < nc)
    (huu : nu ^ 2 = ∑ k in Finset.range F, u k * u k)
    (hvv : nv ^ 2 = ∑ k in Finset.range F, v k * v k)
    (hcc : nc ^ 2 = ∑ k in Finset.range F, c k * c k)
    (ha : 0 ≤ a ∧ a ≤ Real.pi) (hb : 0 ≤ b ∧ b ≤ Real.pi)
    (hua : Real.cos a * (nu * nc) = ∑ k in Finset.range F, u k * c k)
    (hvb : Real.cos b * (nv * nc) = ∑ k in Finset.range F, v k * c k)
    (hat : a ≤ t) :
    (∑ k in Finset.range F, u k * v k) ≤
      nu * (nv * Real.cos (if b - t < 0 then 0 else b - t)) := by
  have hg := gram_ineq F u v c (by rw [← hcc]; positivity)
  rw [← huu, ← hvv, ← hcc, ← hua, ← hvb] at hg
  set uv := ∑ k in Finset.range F, u k * v k with huvd
  have hsa : 0 ≤ Real.sin a := Real.sin_nonneg_of_nonneg_of_le_pi ha.1 ha.2
  have hsb : 0 ≤ Real.sin b := Real.sin_nonneg_of_nonneg_of_le_pi hb.1 hb.2
  have hca := Real.sin_sq_add_cos_sq a
  have hcb := Real.sin_sq_add_cos_sq b
  have hrhs : (nu ^ 2 * nc ^ 2 - (Real.cos a * (nu * nc)) ^ 2) *
      (nv ^ 2 * nc ^ 2 - (Real.cos b * (nv * nc)) ^ 2) =
      (nc ^ 2 * (nu * nv * (Real.sin a * Real.sin b))) ^ 2 := by
    have h1 : 1 - Real.cos a ^ 2 = Real.sin a ^ 2 := by linarith
    have h2 : 1 - Real.cos b ^ 2 = Real.sin b ^ 2 := by linarith
    calc (nu ^ 2 * nc ^ 2 - (Real.cos a * (nu * nc)) ^ 2) *
        (nv ^ 2 * nc ^ 2 - (Real.cos b * (nv * nc)) ^ 2)
        = nu ^ 2 * nc ^ 2 * (1 - Real.cos a ^ 2) * (nv ^ 2 * nc ^ 2 * (1 - Real.cos b ^ 2)) := by
          ring
      _ = (nc ^ 2 * (nu * nv * (Real.sin a * Real.sin b))) ^ 2 := by
          rw [h1, h2]; ring
  have hlhs : uv * nc ^ 2 - Real.cos a * (nu * nc) * (Real.cos b * (nv * nc)) =
      nc ^ 2 * (uv - nu * nv * (Real.cos a * Real.cos b)) := by ring
  rw [hrhs, hlhs] at hg
  have hnn : 0 ≤ nc ^ 2 * (nu * nv * (Real.sin a * Real.sin b)) := by positivity
  have habs := abs_le_of_sq_le_sq' hg hnn
  have h3 : nc ^ 2 * (uv - nu * nv * (Real.cos a * Real.cos b)) ≤
      nc ^ 2 * (nu * nv * (Real.sin a * Real.sin b)) := habs.2
  have h4 : uv - nu * nv * (Real.cos a * Real.cos b) ≤ nu * nv * (Real.sin a * Real.sin b) :=
    le_of_mul_le_mul_left h3 (by positivity)
  have h5 : uv ≤ nu * nv * Real.cos (b - a) := by
    rw [Real.cos_sub]
    nlinarith
  have h6 : Real.cos (b - a) ≤ Real.cos (if b - t < 0 then 0 else b - t) := by
    split
    · rw [Real.cos_zero]
      exact Real.cos_le_one _
    · rename_i hneg
      exact Real.cos_le_cos_of_nonneg_of_le_pi (not_lt.mp hneg) (by linarith) (by linarith)
  calc uv ≤ nu * nv * Real.cos (b - a) := h5
    _ ≤ nu * nv * Real.cos (if b - t < 0 then 0 else b - t) :=
        mul_le_mul_of_nonneg_left h6 (by positivity)
    _ = nu * (nv * Real.cos (if b - t < 0 then 0 else b - t)) := by ring

/-- With true norms and angles the buffer `upper_bounds` bounds every score. -/
theorem validBound_of_trueGeometry (inp : ClusterInput ℝ) (env : Oracle ℝ)
    (h : TrueGeometry inp env) : ValidBound inp env := by
  intro i hi k hk
  have hmax := (theta_max_spec inp env (by omega) (fun j hj => (h.user_theta_range j hj).1)).1 i hi
  unfold upper_bounds exactScore
  rw [if_pos hk, h.cos_eq]
  simp only
  rw [dotRows_eq_sum]
  have := angle_bound inp.num_latent_factors
    (fun c => inp.user_weights (i * inp.num_latent_factors + c))
    (fun c => inp.item_weights (k * inp.num_latent_factors + c))
    (fun c => inp.centroid (0 + c))
    (env.user_norms i) (inp.item_norms k) inp.centroid_norm (env.theta_ucs i) (inp.theta_ics k)
    (theta_max inp env) (h.user_norm_pos i hi) (h.item_norm_pos k hk) h.centroid_norm_pos
    (by rw [h.user_norm_sq i hi, dotRows_eq_sum])
    (by rw [h.item_norm_sq k hk, dotRows_eq_sum])
    (by rw [h.centroid_norm_sq, dotRows_eq_sum])
    (h.user_theta_range i hi) (h.item_theta_range k hk)
    (by rw [h.user_theta i hi, dotRows_eq_sum])
    (by rw [h.item_theta k hk, dotRows_eq_sum])
    hmax
  exact this

end GeometryTheory

/-! ## Rounding to `float` -/

/-- Values of `roundFloat`: the `float` nearest to `1/10`; ties go to the even
significand (`1 + 2^-24` to `1`, `1 + 3 · 2^-24` to `1 + 2^-22`); the sign is kept;
below `2^-126` the spacing is `2^-149`; and the ceiling of `roundingInput`,
`(1 + 2^-12)(1 + 2^-13)`, is rounded down to `1 + 2^-12 + 2^-13`. -/
theorem roundFloat_values :
    roundFloat (1 / 10) = 13421773 / 134217728 ∧
    roundFloat (1 + 1 / 2 ^ 24) = 1 ∧
    roundFloat (1 + 3 / 2 ^ 24) = 1 + 1 / 2 ^ 22 ∧
    roundFloat (-(21 / 10)) = -(8808038 / 4194304) ∧
    roundFloat (1 / 2 ^ 150) = 0 ∧
    roundFloat (3 / 2 ^ 150) = 1 / 2 ^ 148 ∧
    roundFloat (4097 / 4096 * (8193 / 8192)) = 8195 / 8192 :=
  ⟨by decide!, by decide!, by decide!, by decide!, by decide!, by decide!, by decide!⟩

section PlaneFacts

theorem plane_theta_max :
    theta_max (planeInput (Real.arccos (4 / 5))) (planeOracle Real.cos Real.pi) = Real.pi := by
  have hpi := Real.pi_pos
  simp [theta_max, cblas_isamax, planeInput, planeOracle, vec, List.range_succ,
    abs_of_pos hpi, hpi]

theorem plane_ub0 :
    upper_bounds (planeInput (Real.arccos (4 / 5))) (planeOracle Real.cos Real.pi) 0 = 4 := by
  have hpi := Real.pi_pos
  rw [upper_bounds_eq _ _ 0 (by simp [planeInput]), plane_theta_max]
  have e1 : (planeInput (Real.arccos (4 / 5))).theta_ics 0 = 0 := by simp [planeInput, vec]
  have e2 : (planeInput (Real.arccos (4 / 5))).item_norms 0 = 4 := by simp [planeInput, vec]
  have e3 : (planeOracle Real.cos Real.pi).cos = Real.cos := rfl
  rw [e1, e2, e3, max_eq_left (by linarith), Real.cos_zero, mul_one]

theorem plane_scores (a : ℝ) :
    exactScore (planeInput a) 0 0 = 4 ∧ exactScore (planeInput a) 0 1 = 4 ∧
    exactScore (planeInput a) 1 0 = -4 ∧ exactScore (planeInput a) 1 1 = -4 := by
  refine ⟨?_, ?_, ?_, ?_⟩ <;>
    simp [exactScore, dotRows, planeInput, vec, List.range_succ]

theorem plane_trueGeometry :
    TrueGeometry (planeInput (Real.arccos (4 / 5))) (planeOracle Real.cos Real.pi) := by
  have hpi := Real.pi_pos
  refine ⟨rfl, ?_, ?_, ?_, ?_, ?_, ?_, ?_, ?_, ?_, ?_⟩
  · simp [planeInput]
  · simp [planeInput, dotRows, vec, List.range_succ]
  · intro k hk
    have hk2 : k < 2 := hk
    interval_cases k <;> simp [planeInput, vec]
  · intro k hk
    have hk2 : k < 2 := hk
    interval_cases k
    · simp [planeInput, dotRows, vec, List.range_succ]
      norm_num
    · simp [planeInput, dotRows, vec, List.range_succ]
      norm_num
  · intro k hk
    have hk2 : k < 2 := hk
    interval_cases k
    · simp [planeInput, vec, hpi.le]
    · simp [planeInput, vec, Real.arccos_nonneg, Real.arccos_le_pi]
  · intro k hk
    have hk2 : k < 2 := hk
    interval_cases k
    · simp [planeInput, dotRows, vec, List.range_succ]
    · have hc : Real.cos (Real.arccos (4 / 5)) = 4 / 5 :=
        Real.cos_arccos (by norm_num) (by norm_num)
      simp [planeInput, dotRows, vec, List.range_succ, hc]
  · intro i hi
    have hi2 : i < 2 := hi
    interval_cases i <;> simp [planeOracle, vec]
  · intro i hi
    have hi2 : i < 2 := hi
    interval_cases i <;> simp [planeInput, planeOracle, dotRows, vec, List.range_succ]
  · intro i hi
    have hi2 : i < 2 := hi
    interval_cases i
    · simp [planeOracle, vec, hpi.le]
    · simp [planeOracle, vec, hpi.le]
  · intro i hi
    have hi2 : i < 2 := hi
    interval_cases i
    · simp [planeInput, planeOracle, dotRows, vec, List.range_succ]
    · simp [planeInput, planeOracle, dotRows, vec, List.range_succ]

theorem plane_idealRow :
    idealRow (planeInput (Real.arccos (4 / 5))) (planeOracle Real.cos Real.pi) 0 = [1] := by
  have e0 : (planeOracle Real.cos Real.pi).sorted_upper_bounds_indices 0 = 1 := by
    simp [planeOracle, vec]
  have e1 : (planeOracle Real.cos Real.pi).sorted_upper_bounds_indices 1 = 0 := by
    simp [planeOracle, vec]
  obtain ⟨s00, s01, _, _⟩ := plane_scores (Real.arccos (4 / 5))
  have hn : (planeOracle Real.cos Real.pi).user_norms 0 = 1 := by simp [planeOracle, vec]
  have hK : (planeInput (Real.arccos (4 / 5))).K = 1 := rfl
  have hN : (planeInput (Real.arccos (4 / 5))).num_items = 2 := rfl
  unfold idealRow
  rw [hK, hN]
  simp [idealSeed, idealScan, push, score, ceiling, e0, e1, s00, s01, hn, plane_ub0]

end PlaneFacts

section StepTheory
variable {α : Type} [LinearOrderedCommRing α]
variable (inp : ClusterInput α) (env : Oracle α)

/-- The scan loop is the iteration of `scanStep`. -/
theorem scanLoop_succ (i fuel j : Nat) (st : ClusterState α) (q : Heap α) :
    scanLoop inp env i (fuel + 1) j st q =
      match scanStep inp env i j st q with
      | Sum.inl r => r
      | Sum.inr r => scanLoop inp env i fuel (j + 1) r.1 r.2 := by
  cases q with
  | nil => simp only [scanLoop, scanStep]
  | cons top rest =>
    simp only [scanLoop, scanStep]
    generalize (if j &&& (inp.item_batch_size - 1) = 0 then enterBatch inp env i j st else st)
      = st0
    by_cases hlt : st0.user_norm_times_upper_bound (j &&& (inp.item_batch_size - 1)) < top.1
    · rw [if_pos hlt, if_pos hlt]
    · rw [if_neg hlt, if_neg hlt]

/-- A pass that runs to its end: the queue was not empty, the test of line 331 failed
in the state `st0` reached after the batch-boundary code, the score was read and the
queue updated. -/
theorem scanStep_next (i j : Nat) (st : ClusterState α) (q : Heap α)
    (r : ClusterState α × Heap α) (h : scanStep inp env i j st q = Sum.inr r) :
    ∃ top rest st0, q = top :: rest ∧
      st0 = (if j &&& (inp.item_batch_size - 1) = 0 then enterBatch inp env i j st else st) ∧
      ¬ (st0.user_norm_times_upper_bound (j &&& (inp.item_batch_size - 1)) < top.1) ∧
      r.1 = { st0 with trace := st0.trace ++
          [Event.read Buf.sorted_upper_bounds_indices j,
           Event.read Buf.users_dot_items
             (i * inp.item_batch_size + (j &&& (inp.item_batch_size - 1))),
           Event.score i j (st0.users_dot_items
             (i * inp.item_batch_size + (j &&& (inp.item_batch_size - 1))))] } ∧
      r.2 = (if top.1 < st0.users_dot_items
                (i * inp.item_batch_size + (j &&& (inp.item_batch_size - 1)))
             then push (st0.users_dot_items
                (i * inp.item_batch_size + (j &&& (inp.item_batch_size - 1))),
                env.sorted_upper_bounds_indices j) rest
             else top :: rest) := by
  cases q with
  | nil => simp [scanStep] at h
  | cons top rest =>
    simp only [scanStep] at h
    refine ⟨top, rest, _, rfl, rfl, ?_⟩
    generalize (if j &&& (inp.item_batch_size - 1) = 0 then enterBatch inp env i j st else st)
      = st0 at h ⊢
    by_cases hlt : st0.user_norm_times_upper_bound (j &&& (inp.item_batch_size - 1)) < top.1
    · rw [if_pos hlt] at h
      cases h
    · rw [if_neg hlt] at h
      have h2 := Sum.inr.inj h
      subst h2
      exact ⟨hlt, rfl, rfl⟩

/-- A pass that leaves the loop: at `q.top()` on an empty queue, or by the `break` of
line 332 when the value in `user_norm_times_upper_bound` is below the queue minimum. -/
theorem scanStep_exit (i j : Nat) (st : ClusterState α) (q : Heap α)
    (r : ClusterState α × Heap α) (h : scanStep inp env i j st q = Sum.inl r) :
    ∃ st0, st0 = (if j &&& (inp.item_batch_size - 1) = 0 then enterBatch inp env i j st
        else st) ∧ r.2 = q ∧
      ((q = [] ∧ r.1 = { st0 with trace := st0.trace ++ [Event.emptyTop i j] }) ∨
       (∃ top rest, q = top :: rest ∧
          st0.user_norm_times_upper_bound (j &&& (inp.item_batch_size - 1)) < top.1 ∧
          r.1 = { st0 with trace := st0.trace ++ [Event.brk i j top.1
            (st0.user_norm_times_upper_bound (j &&& (inp.item_batch_size - 1)))] })) := by
  cases q with
  | nil =>
    simp only [scanStep] at h
    have h2 := Sum.inl.inj h
    subst h2
    exact ⟨_, rfl, rfl, Or.inl ⟨rfl, rfl⟩⟩
  | cons top rest =>
    simp only [scanStep] at h
    refine ⟨_, rfl, ?_⟩
    generalize (if j &&& (inp.item_batch_size - 1) = 0 then enterBatch inp env i j st else st)
      = st0 at h ⊢
    by_cases hlt : st0.user_norm_times_upper_bound (j &&& (inp.item_batch_size - 1)) < top.1
    · rw [if_pos hlt] at h
      have h2 := Sum.inl.inj h
      subst h2
      exact ⟨rfl, Or.inr ⟨top, rest, rfl, hlt, rfl⟩⟩
    · rw [if_neg hlt] at h
      cases h

/-- Induction along the scan loop: a property `P` of the configurations kept by every
pass that runs to its end gives a property `Q` of the configuration with which the loop
is left. -/
theorem scanLoop_rec (i : Nat) (P : Nat → ClusterState α → Heap α → Prop)
    (Q : ClusterState α → Heap α → Prop)
    (hnext : ∀ j st q r, j < inp.num_items → P j st q →
      scanStep inp env i j st q = Sum.inr r → P (j + 1) r.1 r.2)
    (hexit : ∀ j st q r, j < inp.num_items → P j st q →
      scanStep inp env i j st q = Sum.inl r → Q r.1 r.2)
    (hend : ∀ st q, P inp.num_items st q → Q st q) :
    ∀ fuel j st q, j + fuel = inp.num_items → P j st q →
      Q (scanLoop inp env i fuel j st q).1 (scanLoop inp env i fuel j st q).2 := by
  intro fuel
  induction fuel with
  | zero =>
    intro j st q hj hP
    simp only [scanLoop]
    rw [Nat.add_zero] at hj
    subst hj
    exact hend st q hP
  | succ fuel ih =>
    intro j st q hj hP
    rw [scanLoop_succ]
    cases hs : scanStep inp env i j st q with
    | inl r => exact hexit j st q r (by omega) hP hs
    | inr r => exact ih (j + 1) r.1 r.2 (by omega) (hnext j st q r (by omega) hP hs)

/-- Induction along the configurations of the scan loop of user `i`. -/
theorem scanConfig_rec (i : Nat) (P : Nat → ClusterState α → Heap α → Prop)
    (hnext : ∀ j st q r, j < inp.num_items → P j st q →
      scanStep inp env i j st q = Sum.inr r → P (j + 1) r.1 r.2)
    (h0 : P inp.K (seedPhase inp env (stateAfter inp env i) i).1
      (seedPhase inp env (stateAfter inp env i) i).2) :
    ∀ t c, scanConfig inp env i t = some c → P (inp.K + t) c.1 c.2 := by
  intro t
  induction t with
  | zero =>
    intro c hc
    simp only [scanConfig, Option.some.injEq] at hc
    subst hc
    exact h0
  | succ t ih =>
    intro c hc
    simp only [scanConfig] at hc
    cases hprev : scanConfig inp env i t with
    | none => simp [hprev] at hc
    | some c0 =>
      simp only [hprev] at hc
      split at hc
      · rename_i hlt
        cases hs : scanStep inp env i (inp.K + t) c0.1 c0.2 with
        | inl r => simp [hs] at hc
        | inr r =>
          simp only [hs, Option.some.injEq] at hc
          subst hc
          exact hnext _ _ _ _ hlt (ih c0 hprev) hs
      · simp at hc

/-- A configuration reached at index `K + t` is at most `num_items`. -/
theorem scanConfig_le (i : Nat) (hKN : inp.K ≤ inp.num_items) :
    ∀ t c, scanConfig inp env i t = some c → inp.K + t ≤ inp.num_items := by
  intro t
  cases t with
  | zero => intro _ _; omega
  | succ t =>
    intro c hc
    simp only [scanConfig] at hc
    cases hprev : scanConfig inp env i t with
    | none => simp [hprev] at hc
    | some c0 =>
      simp only [hprev] at hc
      split at hc
      · omega
      · simp at hc

/-- From a configuration it has reached, the scan loop runs on as from its start. -/
theorem scanEnd_of_config (i : Nat) :
    ∀ t c, scanConfig inp env i t = some c → inp.K + t ≤ inp.num_items →
      scanEnd inp env i = scanLoop inp env i (inp.num_items - (inp.K + t)) (inp.K + t) c.1 c.2 := by
  intro t
  induction t with
  | zero =>
    intro c hc _
    simp only [scanConfig, Option.some.injEq] at hc
    subst hc
    rfl
  | succ t ih =>
    intro c hc hle
    simp only [scanConfig] at hc
    cases hprev : scanConfig inp env i t with
    | none => simp [hprev] at hc
    | some c0 =>
      simp only [hprev] at hc
      split at hc
      · cases hs : scanStep inp env i (inp.K + t) c0.1 c0.2 with
        | inl r => simp [hs] at hc
        | inr r =>
          simp only [hs, Option.some.injEq] at hc
          subst hc
          rw [ih c0 hprev (by omega)]
          have e : inp.num_items - (inp.K + t) = (inp.num_items - (inp.K + (t + 1))) + 1 := by
            omega
          rw [e, scanLoop_succ, hs]
          rfl
      · simp at hc

theorem processUser_eq (st : ClusterState α) (i : Nat) :
    processUser inp env st i =
      extractLoop i inp.K inp.K 0
        (scanLoop inp env i (inp.num_items - inp.K) inp.K (seedPhase inp env st i).1
          (seedPhase inp env st i).2).2
        (scanLoop inp env i (inp.num_items - inp.K) inp.K (seedPhase inp env st i).1
          (seedPhase inp env st i).2).1 := rfl

theorem stateAfter_succ_eq (i : Nat) :
    stateAfter inp env (i + 1) =
      extractLoop i inp.K inp.K 0 (scanEnd inp env i).2 (scanEnd inp env i).1 := by
  rw [stateAfter_succ, processUser_eq]
  rfl

end StepTheory

section TraceTheory
variable {α : Type}

theorem TraceExt.ext_refl (ok : Event α → Prop) (t : List (Event α)) : TraceExt ok t t :=
  ⟨[], by simp, fun _ h => by simp at h⟩

theorem TraceExt.ext_comp {ok : Event α → Prop} {a b c : List (Event α)} (h1 : TraceExt ok a b)
    (h2 : TraceExt ok b c) : TraceExt ok a c := by
  obtain ⟨l1, rfl, h1⟩ := h1
  obtain ⟨l2, rfl, h2⟩ := h2
  refine ⟨l1 ++ l2, by simp, ?_⟩
  intro e he
  rcases List.mem_append.mp he with h | h
  · exact h1 e h
  · exact h2 e h

theorem TraceExt.mono {ok ok' : Event α → Prop} {a b : List (Event α)} (h : TraceExt ok a b)
    (hm : ∀ e, ok e → ok' e) : TraceExt ok' a b := by
  obtain ⟨l, rfl, h⟩ := h
  exact ⟨l, rfl, fun e he => hm e (h e he)⟩

theorem TraceExt.by_append (ok : Event α → Prop) (t l : List (Event α))
    (h : ∀ e, e ∈ l → ok e) : TraceExt ok t (t ++ l) := ⟨l, rfl, h⟩

theorem TraceExt.mem_old {ok : Event α → Prop} {a b : List (Event α)} (h : TraceExt ok a b)
    {e : Event α} (he : e ∈ a) : e ∈ b := by
  obtain ⟨l, rfl, _⟩ := h
  exact List.mem_append_left _ he

theorem TraceExt.mem_new {ok : Event α → Prop} {a b : List (Event α)} (h : TraceExt ok a b)
    {e : Event α} (he : e ∈ b) : e ∈ a ∨ ok e := by
  obtain ⟨l, rfl, h⟩ := h
  rcases List.mem_append.mp he with h1 | h1
  · exact Or.inl h1
  · exact Or.inr (h e h1)

theorem scoresRead_append (i : Nat) (a b : List (Event α)) :
    scoresRead i (a ++ b) = scoresRead i a ++ scoresRead i b := by
  unfold scoresRead
  rw [List.filterMap_append]

theorem scoresRead_reads (i : Nat) (l : List (Event α)) (h : ∀ e, e ∈ l → e.isRead = true) :
    scoresRead i l = [] := by
  unfold scoresRead
  rw [List.filterMap_eq_nil_iff]
  intro e he
  have := h e he
  cases e <;> simp [Event.isRead] at this ⊢

theorem scoresRead_ext_reads (i : Nat) {a b : List (Event α)}
    (h : TraceExt (fun e => e.isRead = true) a b) : scoresRead i b = scoresRead i a := by
  obtain ⟨l, rfl, h⟩ := h
  rw [scoresRead_append, scoresRead_reads i l h, List.append_nil]

end TraceTheory

section KeepTheory
variable {α : Type} (inp : ClusterInput α)

theorem KeepsFilled.keep_refl (st : ClusterState α) : KeepsFilled inp st st :=
  ⟨le_refl _, fun _ _ => ⟨rfl, fun _ _ => rfl⟩⟩

theorem KeepsFilled.keep_comp {a b c : ClusterState α} (h1 : KeepsFilled inp a b)
    (h2 : KeepsFilled inp b c) : KeepsFilled inp a c := by
  refine ⟨le_trans h1.1 h2.1, ?_⟩
  intro k hk
  obtain ⟨a1, a2⟩ := h1.2 k hk
  obtain ⟨b1, b2⟩ := h2.2 k (lt_of_lt_of_le hk h1.1)
  exact ⟨b1.trans a1, fun c hc => (b2 c hc).trans (a2 c hc)⟩

theorem KeepsFilled.keep_of_eq {st st' : ClusterState α}
    (h1 : st'.sorted_upper_bounds = st.sorted_upper_bounds)
    (h2 : st'.sorted_item_weights = st.sorted_item_weights)
    (h3 : st'.batch_counter = st.batch_counter) : KeepsFilled inp st st' := by
  refine ⟨by rw [h3], ?_⟩
  intro k _
  rw [h1, h2]
  exact ⟨rfl, fun _ _ => rfl⟩

end KeepTheory

section FrameTheory
variable {α : Type} [LinearOrderedCommRing α]
variable (inp : ClusterInput α) (env : Oracle α)

theorem copyRow_reads (st : ClusterState α) (j : Nat) :
    TraceExt (fun e => e.isRead = true) st.trace (copyRow inp env st j).trace := by
  unfold copyRow
  apply TraceExt.by_append
  intro e he
  simp only [List.mem_cons, List.mem_map] at he
  rcases he with rfl | rfl | ⟨c, _, rfl⟩ <;> rfl

theorem foldl_copyRow_reads (l : List Nat) (st : ClusterState α) :
    TraceExt (fun e => e.isRead = true) st.trace (l.foldl (copyRow inp env) st).trace := by
  induction l generalizing st with
  | nil => exact TraceExt.ext_refl _ _
  | cons a l ih =>
    rw [List.foldl_cons]
    exact (copyRow_reads inp env st a).ext_comp (ih _)

theorem fillBatch_reads (j : Nat) (st : ClusterState α) :
    TraceExt (fun e => e.isRead = true) st.trace (fillBatch inp env j st).trace := by
  unfold fillBatch
  split
  · simp only
    rw [← List.foldl_map]
    exact foldl_copyRow_reads inp env _ st
  · exact TraceExt.ext_refl _ _

theorem gemvUser_reads (i j : Nat) (st : ClusterState α) :
    TraceExt (fun e => e.isRead = true) st.trace (gemvUser inp i j st).trace := by
  unfold gemvUser
  apply TraceExt.by_append
  intro e he
  simp only [List.mem_flatMap, List.mem_map] at he
  obtain ⟨a, _, b, _, rfl⟩ := he
  rfl

theorem refreshCeilings_reads (i j : Nat) (st : ClusterState α) :
    TraceExt (fun e => e.isRead = true) st.trace (refreshCeilings inp env i j st).trace := by
  unfold refreshCeilings
  apply TraceExt.by_append
  intro e he
  simp only [List.mem_map] at he
  obtain ⟨a, _, rfl⟩ := he
  rfl

theorem enterBatch_reads (i j : Nat) (st : ClusterState α) :
    TraceExt (fun e => e.isRead = true) st.trace (enterBatch inp env i j st).trace :=
  ((fillBatch_reads inp env j st).ext_comp (gemvUser_reads inp i j _)).ext_comp
    (refreshCeilings_reads inp env i j _)

theorem Materialized.mat_of_eq {st st' : ClusterState α} (h : Materialized inp env st)
    (h1 : st'.sorted_upper_bounds = st.sorted_upper_bounds)
    (h2 : st'.sorted_item_weights = st.sorted_item_weights)
    (h3 : st'.batch_counter = st.batch_counter) : Materialized inp env st' := by
  intro k hk
  rw [h1, h2]
  rw [h3] at hk
  exact h k hk

/-- Lines 283-299 keep the filled rows and extend the materialized prefix. -/
theorem fillBatch_keeps (j : Nat) (st : ClusterState α) :
    KeepsFilled inp st (fillBatch inp env j st) ∧
    (Materialized inp env st → Materialized inp env (fillBatch inp env j st)) := by
  by_cases hj : j = st.batch_counter
  · have hbc := fillBatch_bc inp env j st
    rw [if_pos hj] at hbc
    have hsub : ∀ k, (fillBatch inp env j st).sorted_upper_bounds k =
        if st.batch_counter ≤ k ∧ k < st.batch_counter +
            min inp.item_batch_size (inp.num_items - st.batch_counter)
        then upper_bounds inp env (env.sorted_upper_bounds_indices k)
        else st.sorted_upper_bounds k := by
      intro k
      unfold fillBatch
      rw [if_pos hj]
      simp only
      rw [← List.foldl_map, foldl_copyRow_sub]
      simp only [mem_map_add_range]
    have hsiw : ∀ k c, c < inp.num_latent_factors →
        (fillBatch inp env j st).sorted_item_weights (k * inp.num_latent_factors + c) =
        if st.batch_counter ≤ k ∧ k < st.batch_counter +
            min inp.item_batch_size (inp.num_items - st.batch_counter)
        then inp.item_weights (env.sorted_upper_bounds_indices k * inp.num_latent_factors + c)
        else st.sorted_item_weights (k * inp.num_latent_factors + c) := by
      intro k c hc
      unfold fillBatch
      rw [if_pos hj]
      simp only
      rw [← List.foldl_map, foldl_copyRow_siw inp env _ st k c hc]
      simp only [mem_map_add_range]
    constructor
    · refine ⟨by omega, ?_⟩
      intro k hk
      refine ⟨?_, ?_⟩
      · rw [hsub, if_neg (by omega)]
      · intro c hc
        rw [hsiw k c hc, if_neg (by omega)]
    · intro hM k hk
      rw [hbc] at hk
      by_cases hin : st.batch_counter ≤ k ∧ k < st.batch_counter +
            min inp.item_batch_size (inp.num_items - st.batch_counter)
      · refine ⟨?_, ?_⟩
        · rw [hsub, if_pos hin]
        · intro c hc
          rw [hsiw k c hc, if_pos hin]
      · have hk2 : k < min st.batch_counter inp.num_items := by
          rw [lt_min_iff] at hk ⊢
          omega
        obtain ⟨m1, m2⟩ := hM k hk2
        refine ⟨?_, ?_⟩
        · rw [hsub, if_neg hin]
          exact m1
        · intro c hc
          rw [hsiw k c hc, if_neg hin]
          exact m2 c hc
  · have e : fillBatch inp env j st = st := by
      unfold fillBatch
      rw [if_neg hj]
    rw [e]
    exact ⟨KeepsFilled.keep_refl inp st, fun h => h⟩

/-- Lines 283-328 keep the filled rows, extend the materialized prefix, leave
`top_K_items` alone and record buffer reads only. -/
theorem enterBatch_keeps (i j : Nat) (st : ClusterState α) :
    KeepsFilled inp st (enterBatch inp env i j st) ∧
    (Materialized inp env st → Materialized inp env (enterBatch inp env i j st)) ∧
    (enterBatch inp env i j st).top_K_items = st.top_K_items := by
  obtain ⟨k1, k2⟩ := fillBatch_keeps inp env j st
  obtain ⟨_, _, f3, _⟩ := fillBatch_frame inp env j st
  refine ⟨k1.keep_comp inp (KeepsFilled.keep_of_eq inp rfl rfl rfl), ?_, f3⟩
  intro hM
  exact (k2 hM).mat_of_eq inp env rfl rfl rfl

/-- The state in which a pass reaches the test of line 331. -/
theorem boundary_keeps (i j : Nat) (st st0 : ClusterState α)
    (h : st0 = (if j &&& (inp.item_batch_size - 1) = 0 then enterBatch inp env i j st else st)) :
    KeepsFilled inp st st0 ∧ (Materialized inp env st → Materialized inp env st0) ∧
    st0.top_K_items = st.top_K_items ∧
    TraceExt (fun e => e.isRead = true) st.trace st0.trace := by
  subst h
  split
  · obtain ⟨h1, h2, h3⟩ := enterBatch_keeps inp env i j st
    exact ⟨h1, h2, h3, enterBatch_reads inp env i j st⟩
  · exact ⟨KeepsFilled.keep_refl inp st, fun h => h, rfl, TraceExt.ext_refl _ _⟩

end FrameTheory

section ExtractTheory
variable {α : Type}

/-- The extraction loop records nothing when the queue holds at least as many pairs as
passes are made. -/
theorem extractLoop_trace (i K : Nat) :
    ∀ fuel j (q : Heap α) (st : ClusterState α), fuel ≤ q.length →
      (extractLoop i K fuel j q st).trace = st.trace := by
  intro fuel
  induction fuel with
  | zero => intro j q st _; rfl
  | succ fuel ih =>
    intro j q st hq
    cases q with
    | nil => simp at hq
    | cons p rest =>
      simp only [extractLoop]
      rw [ih]
      simp only [List.length_cons] at hq
      omega

end ExtractTheory

section RunTheory
variable {α : Type} [LinearOrderedCommRing α]
variable (inp : ClusterInput α) (env : Oracle α)

/-- What one pass of the scan loop does to the state, whichever way it ends. -/
theorem scanStep_state (ok : Event α → Prop) (i : Nat)
    (hread : ∀ e : Event α, e.isRead = true → ok e)
    (hscore : ∀ j v, ok (Event.score i j v))
    (hbrk : ∀ j top c, ok (Event.brk i j top c))
    (hempty : inp.K = 0 → ∀ j, ok (Event.emptyTop i j))
    (j : Nat) (st : ClusterState α) (q : Heap α) (r : ClusterState α × Heap α)
    (hlen : q.length = inp.K)
    (h : scanStep inp env i j st q = Sum.inr r ∨ scanStep inp env i j st q = Sum.inl r) :
    TraceExt ok st.trace r.1.trace ∧ KeepsFilled inp st r.1 ∧
    (Materialized inp env st → Materialized inp env r.1) ∧
    r.1.top_K_items = st.top_K_items ∧ r.2.length = inp.K := by
  rcases h with h | h
  · obtain ⟨top, rest, st0, hq, hst0, _, hr1, hr2⟩ := scanStep_next inp env i j st q r h
    obtain ⟨b1, b2, b3, b4⟩ := boundary_keeps inp env i j st st0 hst0
    refine ⟨?_, ?_, ?_, ?_, ?_⟩
    · rw [hr1]
      refine (b4.mono hread).ext_comp (TraceExt.by_append ok _ _ ?_)
      intro e he
      simp only [List.mem_cons, List.mem_singleton, List.not_mem_nil, or_false] at he
      rcases he with rfl | rfl | rfl
      · exact hread _ rfl
      · exact hread _ rfl
      · exact hscore _ _
    · rw [hr1]
      exact b1.keep_comp inp (KeepsFilled.keep_of_eq inp rfl rfl rfl)
    · intro hM
      rw [hr1]
      exact (b2 hM).mat_of_eq inp env rfl rfl rfl
    · rw [hr1]
      exact b3
    · rw [hr2, ← hlen, hq]
      split
      · rw [length_push]
        rfl
      · rfl
  · obtain ⟨st0, hst0, hr2, hcase⟩ := scanStep_exit inp env i j st q r h
    obtain ⟨b1, b2, b3, b4⟩ := boundary_keeps inp env i j st st0 hst0
    have hr1 : ∃ e, ok e ∧ r.1 = { st0 with trace := st0.trace ++ [e] } := by
      rcases hcase with ⟨hq, hr⟩ | ⟨top, rest, _, _, hr⟩
      · refine ⟨_, hempty ?_ j, hr⟩
        rw [← hlen, hq]
        rfl
      · exact ⟨_, hbrk _ _ _, hr⟩
    obtain ⟨e, hoke, hr1⟩ := hr1
    refine ⟨?_, ?_, ?_, ?_, ?_⟩
    · rw [hr1]
      refine (b4.mono hread).ext_comp (TraceExt.by_append ok _ _ ?_)
      intro e' he'
      simp only [List.mem_singleton] at he'
      subst he'
      exact hoke
    · rw [hr1]
      exact b1.keep_comp inp (KeepsFilled.keep_of_eq inp rfl rfl rfl)
    · intro hM
      rw [hr1]
      exact (b2 hM).mat_of_eq inp env rfl rfl rfl
    · rw [hr1]
      exact b3
    · rw [hr2]
      exact hlen

/-- What the scan loop does to the state, from any configuration. -/
theorem scanLoop_state (ok : Event α → Prop) (i : Nat)
    (hread : ∀ e : Event α, e.isRead = true → ok e)
    (hscore : ∀ j v, ok (Event.score i j v))
    (hbrk : ∀ j top c, ok (Event.brk i j top c))
    (hempty : inp.K = 0 → ∀ j, ok (Event.emptyTop i j))
    (fuel j : Nat) (st : ClusterState α) (q : Heap α) (hj : j + fuel = inp.num_items)
    (hlen : q.length = inp.K) :
    TraceExt ok st.trace (scanLoop inp env i fuel j st q).1.trace ∧
    KeepsFilled inp st (scanLoop inp env i fuel j st q).1 ∧
    (Materialized inp env st → Materialized inp env (scanLoop inp env i fuel j st q).1) ∧
    (scanLoop inp env i fuel j st q).1.top_K_items = st.top_K_items ∧
    (scanLoop inp env i fuel j st q).2.length = inp.K := by
  have key := scanLoop_rec inp env i
    (fun _ st' q' => TraceExt ok st.trace st'.trace ∧ KeepsFilled inp st st' ∧
      (Materialized inp env st → Materialized inp env st') ∧
      st'.top_K_items = st.top_K_items ∧ q'.length = inp.K)
    (fun st' q' => TraceExt ok st.trace st'.trace ∧ KeepsFilled inp st st' ∧
      (Materialized inp env st → Materialized inp env st') ∧
      st'.top_K_items = st.top_K_items ∧ q'.length = inp.K)
    ?_ ?_ (fun _ _ h => h) fuel j st q hj
    ⟨TraceExt.ext_refl _ _, KeepsFilled.keep_refl inp st, fun h => h, rfl, hlen⟩
  · exact key
  · intro j' st' q' r _ hP hs
    obtain ⟨p1, p2, p3, p4, p5⟩ := hP
    obtain ⟨s1, s2, s3, s4, s5⟩ := scanStep_state inp env ok i hread hscore hbrk hempty
      j' st' q' r p5 (Or.inl hs)
    exact ⟨p1.ext_comp s1, p2.keep_comp inp s2, fun h => s3 (p3 h), s4.trans p4, s5⟩
  · intro j' st' q' r _ hP hs
    obtain ⟨p1, p2, p3, p4, p5⟩ := hP
    obtain ⟨s1, s2, s3, s4, s5⟩ := scanStep_state inp env ok i hread hscore hbrk hempty
      j' st' q' r p5 (Or.inr hs)
    exact ⟨p1.ext_comp s1, p2.keep_comp inp s2, fun h => s3 (p3 h), s4.trans p4, s5⟩

theorem seedHeap_eq_idealSeed (i : Nat) (st : ClusterState α) :
    seedHeap inp env i st =
      idealSeed (fun k => st.users_dot_items (i * inp.item_batch_size + k))
        env.sorted_upper_bounds_indices inp.K := rfl

/-- What lines 267-275 do to the state. -/
theorem seedPhase_state (i : Nat) (st : ClusterState α) :
    TraceExt (fun e => e.isRead = true) st.trace (seedPhase inp env st i).1.trace ∧
    (seedPhase inp env st i).1.sorted_upper_bounds = st.sorted_upper_bounds ∧
    (seedPhase inp env st i).1.sorted_item_weights = st.sorted_item_weights ∧
    (seedPhase inp env st i).1.batch_counter = st.batch_counter ∧
    (seedPhase inp env st i).1.users_dot_items = st.users_dot_items ∧
    (seedPhase inp env st i).1.top_K_items = st.top_K_items ∧
    (seedPhase inp env st i).2.length = inp.K ∧
    (seedPhase inp env st i).2 =
      idealSeed (fun k => st.users_dot_items (i * inp.item_batch_size + k))
        env.sorted_upper_bounds_indices inp.K := by
  refine ⟨?_, rfl, rfl, rfl, rfl, rfl, ?_, rfl⟩
  · unfold seedPhase
    refine (refreshCeilings_reads inp env i 0 st).ext_comp (TraceExt.by_append _ _ _ ?_)
    intro e he
    simp only [List.mem_flatMap, List.mem_cons, List.mem_singleton, List.not_mem_nil,
      or_false] at he
    obtain ⟨j, _, rfl | rfl⟩ := he <;> rfl
  · unfold seedPhase
    simp only
    rw [seedHeap_eq_idealSeed, idealSeed_length]

/-- What the processing of one user does to the state. -/
theorem processUser_state (ok : Event α → Prop) (i : Nat)
    (hread : ∀ e : Event α, e.isRead = true → ok e)
    (hscore : ∀ j v, ok (Event.score i j v))
    (hbrk : ∀ j top c, ok (Event.brk i j top c))
    (hempty : inp.K = 0 → ∀ j, ok (Event.emptyTop i j))
    (hKN : inp.K ≤ inp.num_items) (st : ClusterState α) :
    TraceExt ok st.trace (processUser inp env st i).trace ∧
    KeepsFilled inp st (processUser inp env st i) ∧
    (Materialized inp env st → Materialized inp env (processUser inp env st i)) ∧
    (∀ k, ¬ (i * inp.K ≤ k ∧ k < i * inp.K + inp.K) →
      (processUser inp env st i).top_K_items k = st.top_K_items k) := by
  obtain ⟨s1, s2, s3, s4, _, s6, s7, _⟩ := seedPhase_state inp env i st
  obtain ⟨l1, l2, l3, l4, l5⟩ := scanLoop_state inp env ok i hread hscore hbrk hempty
    (inp.num_items - inp.K) inp.K (seedPhase inp env st i).1 (seedPhase inp env st i).2
    (by omega) s7
  rw [processUser_eq]
  generalize scanLoop inp env i (inp.num_items - inp.K) inp.K (seedPhase inp env st i).1
    (seedPhase inp env st i).2 = r at l1 l2 l3 l4 l5
  obtain ⟨e1, e2, e3, _, _, _, e7⟩ := extractLoop_frame i inp.K inp.K 0 r.2 r.1 (by omega)
  have e8 := extractLoop_trace i inp.K inp.K 0 r.2 r.1 (by omega)
  have hk0 : KeepsFilled inp st (seedPhase inp env st i).1 := KeepsFilled.keep_of_eq inp s2 s3 s4
  refine ⟨?_, ?_, ?_, ?_⟩
  · rw [e8]
    exact (s1.mono hread).ext_comp l1
  · exact (hk0.keep_comp inp l2).keep_comp inp (KeepsFilled.keep_of_eq inp e1 e2 e3)
  · intro hM
    exact (l3 (hM.mat_of_eq inp env s2 s3 s4)).mat_of_eq inp env e1 e2 e3
  · intro k hk
    rw [e7 k, l4, s6]
    intro t ht
    omega

end RunTheory

section ClusterRunTheory
variable {α : Type} [LinearOrderedCommRing α]
variable (inp : ClusterInput α) (env : Oracle α)

/-- The state in which the user loop is entered: the first batch is materialized and
only buffer reads have been recorded. -/
theorem initState_keeps :
    Materialized inp env (initState inp env) ∧
    TraceExt (fun e => e.isRead = true) [] (initState inp env).trace ∧
    (initState inp env).batch_counter = inp.item_batch_size := by
  refine ⟨?_, ?_, rfl⟩
  · intro k hk
    have hkB : k < inp.item_batch_size := lt_of_lt_of_le hk (min_le_left _ _)
    refine ⟨?_, ?_⟩
    · unfold initState
      simp only
      rw [foldl_copyRow_sub, if_pos (List.mem_range.mpr hkB)]
    · intro c hc
      unfold initState
      simp only
      rw [foldl_copyRow_siw inp env _ _ k c hc, if_pos (List.mem_range.mpr hkB)]
  · unfold initState
    simp only
    refine (foldl_copyRow_reads inp env _ _).ext_comp (TraceExt.by_append _ _ _ ?_)
    intro e he
    simp only [List.mem_flatMap, List.mem_map] at he
    obtain ⟨a, _, b, _, rfl⟩ := he
    rfl

/-- Every event recorded before user `n` is processed is a buffer read or an event of an
earlier user. -/
theorem stateAfter_events (hKN : inp.K ≤ inp.num_items) :
    ∀ n e, e ∈ (stateAfter inp env n).trace → e.isRead = true ∨ ∃ i, i < n ∧ e.userOf i := by
  intro n
  induction n with
  | zero =>
    intro e he
    obtain ⟨_, h, _⟩ := initState_keeps inp env
    rcases h.mem_new he with h1 | h1
    · simp at h1
    · exact Or.inl h1
  | succ n ih =>
    intro e he
    rw [stateAfter_succ] at he
    obtain ⟨h, _⟩ := processUser_state inp env (Event.userOf n) n
      (fun e h => Or.inl h) (fun j v => Or.inr (Or.inl ⟨j, v, rfl⟩))
      (fun j top c => Or.inr (Or.inr (Or.inl ⟨j, top, c, rfl⟩)))
      (fun _ j => Or.inr (Or.inr (Or.inr ⟨j, rfl⟩))) hKN (stateAfter inp env n)
    rcases h.mem_new he with h1 | h1
    · rcases ih e h1 with h2 | ⟨i, hi, h2⟩
      · exact Or.inl h2
      · exact Or.inr ⟨i, by omega, h2⟩
    · exact Or.inr ⟨n, by omega, h1⟩

/-- With `K ≥ 1` no evaluation of `q.top()` on an empty queue is ever recorded. -/
theorem stateAfter_no_emptyTop (hK : 1 ≤ inp.K) (hKN : inp.K ≤ inp.num_items) :
    ∀ n i j, Event.emptyTop i j ∉ (stateAfter inp env n).trace := by
  intro n
  induction n with
  | zero =>
    intro i j he
    obtain ⟨_, h, _⟩ := initState_keeps inp env
    rcases h.mem_new he with h1 | h1
    · simp at h1
    · simp [Event.isRead] at h1
  | succ n ih =>
    intro i j he
    rw [stateAfter_succ] at he
    obtain ⟨h, _⟩ := processUser_state inp env (fun e => ∀ i j, e ≠ Event.emptyTop i j) n
      (fun e h i j hh => by rw [hh] at h; simp [Event.isRead] at h)
      (fun j v i' j' hh => by cases hh)
      (fun j top c i' j' hh => by cases hh)
      (fun h0 => by omega) hKN (stateAfter inp env n)
    rcases h.mem_new he with h1 | h1
    · exact ih i j h1
    · exact h1 i j rfl

/-- The trace only grows along the user loop. -/
theorem stateAfter_trace_mono (hKN : inp.K ≤ inp.num_items) (a : Nat) :
    ∀ d e, e ∈ (stateAfter inp env a).trace → e ∈ (stateAfter inp env (a + d)).trace := by
  intro d
  induction d with
  | zero => intro e he; exact he
  | succ d ih =>
    intro e he
    rw [← Nat.add_assoc, stateAfter_succ]
    obtain ⟨h, _⟩ := processUser_state inp env (fun _ => True) (a + d)
      (fun _ _ => trivial) (fun _ _ => trivial) (fun _ _ _ => trivial) (fun _ _ => trivial)
      hKN (stateAfter inp env (a + d))
    exact h.mem_old (ih e he)

/-- The materialized prefix along the user loop. -/
theorem stateAfter_keeps (hKN : inp.K ≤ inp.num_items) :
    ∀ n, Materialized inp env (stateAfter inp env n) ∧
      KeepsFilled inp (stateAfter inp env n) (stateAfter inp env (n + 1)) := by
  have hstep : ∀ n, KeepsFilled inp (stateAfter inp env n) (stateAfter inp env (n + 1)) ∧
      (Materialized inp env (stateAfter inp env n) →
        Materialized inp env (stateAfter inp env (n + 1))) := by
    intro n
    rw [stateAfter_succ]
    obtain ⟨_, h2, h3, _⟩ := processUser_state inp env (fun _ => True) n
      (fun _ _ => trivial) (fun _ _ => trivial) (fun _ _ _ => trivial) (fun _ _ => trivial)
      hKN (stateAfter inp env n)
    exact ⟨h2, h3⟩
  intro n
  refine ⟨?_, (hstep n).1⟩
  induction n with
  | zero => exact (initState_keeps inp env).1
  | succ n ih => exact (hstep n).2 ih

/-- Row `i` of `top_K_items` is not written after user `i` has been processed. -/
theorem stateAfter_row_stable (hKN : inp.K ≤ inp.num_items) (i : Nat) :
    ∀ d, rowOf inp.K (stateAfter inp env (i + 1 + d)).top_K_items i =
      rowOf inp.K (stateAfter inp env (i + 1)).top_K_items i := by
  intro d
  induction d with
  | zero => rfl
  | succ d ih =>
    rw [← ih, ← Nat.add_assoc, stateAfter_succ]
    obtain ⟨_, _, _, h4⟩ := processUser_state inp env (fun _ => True) (i + 1 + d)
      (fun _ _ => trivial) (fun _ _ => trivial) (fun _ _ _ => trivial) (fun _ _ => trivial)
      hKN (stateAfter inp env (i + 1 + d))
    apply rowOf_congr
    intro k hk1 hk2
    apply h4
    intro hh
    have := Nat.mul_le_mul_right inp.K (show i + 1 ≤ i + 1 + d by omega)
    rw [Nat.succ_mul] at this
    omega

end ClusterRunTheory

section ListTheory
variable {α : Type}

theorem perm_step_replace {R H O : List α} {v t : α} (h : R.Perm ((t :: H) ++ O)) :
    (R ++ [v]).Perm ((v :: H) ++ (t :: O)) := by
  have h1 : (R ++ [v]).Perm (v :: R) := List.perm_append_singleton v R
  have h2 : (v :: R).Perm (v :: ((t :: H) ++ O)) := List.Perm.cons v h
  have h3 : ((v :: H) ++ (t :: O)).Perm (t :: ((v :: H) ++ O)) := List.perm_middle
  have h4 : (v :: ((t :: H) ++ O)).Perm (t :: ((v :: H) ++ O)) := List.Perm.swap t v (H ++ O)
  exact (h1.trans h2).trans (h4.trans h3.symm)

theorem perm_step_keep {R H O : List α} {v : α} (h : R.Perm (H ++ O)) :
    (R ++ [v]).Perm (H ++ (v :: O)) := by
  have h1 : (R ++ [v]).Perm (v :: R) := List.perm_append_singleton v R
  have h2 : (v :: R).Perm (v :: (H ++ O)) := List.Perm.cons v h
  have h3 : (H ++ (v :: O)).Perm (v :: (H ++ O)) := List.perm_middle
  exact (h1.trans h2).trans h3.symm

end ListTheory

section HeapRunTheory
variable {α : Type} [LinearOrderedCommRing α]
variable (inp : ClusterInput α) (env : Oracle α)

theorem idealSeed_perm (sc : Nat → α) (pi : Nat → Nat) (K : Nat) :
    (idealSeed sc pi K).Perm ((List.range K).map (fun k => (sc k, pi k))) := by
  induction K with
  | zero => exact List.Perm.refl _
  | succ k ih =>
    rw [idealSeed_succ, List.range_succ, List.map_append]
    refine (push_perm _ _).trans ?_
    refine (List.Perm.cons _ ih).trans ?_
    exact (List.perm_append_singleton _ _).symm

theorem idealSeed_sorted (sc : Nat → α) (pi : Nat → Nat) (K : Nat) :
    (idealSeed sc pi K).Pairwise PairLe := by
  induction K with
  | zero => exact List.Pairwise.nil
  | succ k ih =>
    rw [idealSeed_succ]
    exact push_sorted _ _ ih

/-- The queue invariant holds when the scan loop is entered. -/
theorem scanInv_start (hKN : inp.K ≤ inp.num_items) (i : Nat) :
    ScanInv inp env i inp.K (seedPhase inp env (stateAfter inp env i) i).1
      (seedPhase inp env (stateAfter inp env i) i).2 := by
  obtain ⟨s1, _, _, _, s5, _, s7, s8⟩ := seedPhase_state inp env i (stateAfter inp env i)
  have hnone : scoresRead i (seedPhase inp env (stateAfter inp env i) i).1.trace = [] := by
    rw [scoresRead_ext_reads i s1]
    unfold scoresRead
    rw [List.filterMap_eq_nil_iff]
    intro e he
    rcases stateAfter_events inp env hKN i e he with h | ⟨i', hi', h⟩
    · cases e <;> simp [Event.isRead] at h ⊢
    · rcases h with h | ⟨j, v, rfl⟩ | ⟨j, top, c, rfl⟩ | ⟨j, rfl⟩
      · cases e <;> simp [Event.isRead] at h ⊢
      · simp only [ite_eq_right_iff, reduceCtorEq, imp_false]
        omega
      · rfl
      · rfl
  have hperm := idealSeed_perm (fun k => (stateAfter inp env i).users_dot_items
    (i * inp.item_batch_size + k)) env.sorted_upper_bounds_indices inp.K
  refine ⟨s7, ?_, ⟨List.range inp.K, List.nodup_range _, ?_, ?_⟩, ⟨[], ?_, ?_⟩, ?_⟩
  · rw [s8]
    exact idealSeed_sorted _ _ _
  · rw [s8]
    refine (hperm.map Prod.snd).trans ?_
    rw [List.map_map]
    exact List.Perm.refl _
  · intro p hp
    have := List.mem_range.mp hp
    exact ⟨this, Or.inl this⟩
  · rw [hnone, List.append_nil, List.append_nil, s8]
    refine List.Perm.symm ((hperm.map Prod.fst).trans ?_)
    rw [List.map_map]
    unfold seedScores
    rw [s5]
    exact List.Perm.refl _
  · intro x hx
    simp at hx
  · rw [hnone, List.append_nil]
    unfold seedScores
    simp

/-- A pass that runs to its end keeps the queue invariant. -/
theorem scanInv_next (i j : Nat) (st : ClusterState α) (q : Heap α)
    (r : ClusterState α × Heap α) (hinv : ScanInv inp env i j st q)
    (h : scanStep inp env i j st q = Sum.inr r) : ScanInv inp env i (j + 1) r.1 r.2 := by
  obtain ⟨top, rest, st0, hq, hst0, _, hr1, hr2⟩ := scanStep_next inp env i j st q r h
  obtain ⟨_, _, _, b4⟩ := boundary_keeps inp env i j st st0 hst0
  generalize hv : st0.users_dot_items
    (i * inp.item_batch_size + (j &&& (inp.item_batch_size - 1))) = v at hr1 hr2
  have htr : r.1.trace = st0.trace ++ [Event.read Buf.sorted_upper_bounds_indices j,
      Event.read Buf.users_dot_items (i * inp.item_batch_size + (j &&& (inp.item_batch_size - 1))),
      Event.score i j v] := by rw [hr1]
  have hmono : ∀ e, e ∈ st.trace → e ∈ r.1.trace := by
    intro e he
    rw [htr]
    exact List.mem_append_left _ (b4.mem_old he)
  have hnew : Event.score i j v ∈ r.1.trace := by
    rw [htr]
    simp
  have hreads : scoresRead i r.1.trace = scoresRead i st.trace ++ [v] := by
    rw [htr, scoresRead_append, scoresRead_ext_reads i b4]
    congr 1
    simp [scoresRead]
  obtain ⟨ps, hnd, hpp, hps⟩ := hinv.pos
  obtain ⟨others, hrp, hro⟩ := hinv.reads
  have hsorted := hinv.sorted
  rw [hq] at hpp hrp hro hsorted
  rw [List.pairwise_cons] at hsorted
  have hlen := hinv.len
  rw [hq] at hlen
  by_cases hlt : top.1 < v
  · rw [if_pos hlt] at hr2
    have hpush := push_perm (v, env.sorted_upper_bounds_indices j) rest
    refine ⟨?_, ?_, ?_, ?_, ?_⟩
    · rw [hr2, length_push, ← hlen]
      rfl
    · rw [hr2]
      exact push_sorted _ _ hsorted.2
    · have hmem : top.2 ∈ ps.map env.sorted_upper_bounds_indices :=
        hpp.mem_iff.mp (by simp)
      obtain ⟨p0, hp0, hp0e⟩ := List.mem_map.mp hmem
      have h1 : (ps.map env.sorted_upper_bounds_indices).Perm
          (top.2 :: (ps.erase p0).map env.sorted_upper_bounds_indices) := by
        rw [← hp0e, ← List.map_cons]
        exact (List.perm_cons_erase hp0).map _
      have h2 : (rest.map Prod.snd).Perm ((ps.erase p0).map env.sorted_upper_bounds_indices) := by
        have := hpp.trans h1
        rw [List.map_cons] at this
        exact List.Perm.cons_inv this
      refine ⟨j :: ps.erase p0, ?_, ?_, ?_⟩
      · rw [List.nodup_cons]
        refine ⟨?_, hnd.erase p0⟩
        intro hj
        have := (hps j (List.mem_of_mem_erase hj)).1
        omega
      · rw [hr2, List.map_cons]
        refine (hpush.map Prod.snd).trans ?_
        rw [List.map_cons]
        exact List.Perm.cons _ h2
      · intro p hp
        rcases List.mem_cons.mp hp with rfl | hp
        · exact ⟨by omega, Or.inr ⟨v, hnew⟩⟩
        · obtain ⟨a1, a2⟩ := hps p (List.mem_of_mem_erase hp)
          refine ⟨by omega, ?_⟩
          rcases a2 with a2 | ⟨w, hw⟩
          · exact Or.inl a2
          · exact Or.inr ⟨w, hmono _ hw⟩
    · refine ⟨top.1 :: others, ?_, ?_⟩
      · rw [hreads, ← List.append_assoc, hr2]
        have h1 := perm_step_replace (v := v) hrp
        refine h1.trans (List.Perm.append ?_ (List.Perm.refl _))
        rw [List.map_cons] at *
        exact ((hpush.map Prod.fst).trans (by rw [List.map_cons])).symm
      · intro x hx e he
        rw [hr2] at he
        have he2 : e = (v, env.sorted_upper_bounds_indices j) ∨ e ∈ rest := mem_push.mp he
        rcases List.mem_cons.mp hx with rfl | hx
        · rcases he2 with rfl | he2
          · exact le_of_lt hlt
          · exact (hsorted.1 e he2).fst_le
        · have hxt := hro x hx top (List.mem_cons_self _ _)
          rcases he2 with rfl | he2
          · exact le_trans hxt (le_of_lt hlt)
          · exact hro x hx e (List.mem_cons_of_mem _ he2)
    · rw [hreads, ← List.append_assoc, List.length_append, hinv.count]
      rfl
  · rw [if_neg hlt] at hr2
    refine ⟨?_, ?_, ?_, ?_, ?_⟩
    · rw [hr2]
      exact hlen
    · rw [hr2, List.pairwise_cons]
      exact hsorted
    · refine ⟨ps, hnd, ?_, ?_⟩
      · rw [hr2]
        exact hpp
      · intro p hp
        obtain ⟨a1, a2⟩ := hps p hp
        refine ⟨by omega, ?_⟩
        rcases a2 with a2 | ⟨w, hw⟩
        · exact Or.inl a2
        · exact Or.inr ⟨w, hmono _ hw⟩
    · refine ⟨v :: others, ?_, ?_⟩
      · rw [hreads, ← List.append_assoc, hr2]
        exact perm_step_keep hrp
      · intro x hx e he
        rw [hr2] at he
        rcases List.mem_cons.mp hx with rfl | hx
        · have h1 : x ≤ top.1 := not_lt.mp hlt
          rcases List.mem_cons.mp he with rfl | he
          · exact h1
          · exact le_trans h1 (hsorted.1 e he).fst_le
        · exact hro x hx e he
    · rw [hreads, ← List.append_assoc, List.length_append, hinv.count]
      rfl

/-- A pass that leaves the loop keeps the queue invariant. -/
theorem scanInv_exit (i j : Nat) (st : ClusterState α) (q : Heap α)
    (r : ClusterState α × Heap α) (hinv : ScanInv inp env i j st q)
    (h : scanStep inp env i j st q = Sum.inl r) : ScanInv inp env i j r.1 r.2 := by
  obtain ⟨st0, hst0, hr2, hcase⟩ := scanStep_exit inp env i j st q r h
  obtain ⟨_, _, _, b4⟩ := boundary_keeps inp env i j st st0 hst0
  have htr : ∃ e : Event α, (∀ j v, e ≠ Event.score i j v) ∧ r.1.trace = st0.trace ++ [e] := by
    rcases hcase with ⟨_, hr⟩ | ⟨top, rest, _, _, hr⟩
    · refine ⟨Event.emptyTop i j, ?_, ?_⟩
      · intro j' v' hh
        cases hh
      · rw [hr]
    · refine ⟨Event.brk i j top.1
        (st0.user_norm_times_upper_bound (j &&& (inp.item_batch_size - 1))), ?_, ?_⟩
      · intro j' v' hh
        cases hh
      · rw [hr]
  obtain ⟨e, hne, htr⟩ := htr
  have hmono : ∀ e, e ∈ st.trace → e ∈ r.1.trace := by
    intro e he
    rw [htr]
    exact List.mem_append_left _ (b4.mem_old he)
  have hreads : scoresRead i r.1.trace = scoresRead i st.trace := by
    rw [htr, scoresRead_append, scoresRead_ext_reads i b4]
    have : scoresRead i [e] = [] := by
      unfold scoresRead
      rw [List.filterMap_eq_nil_iff]
      intro e' he'
      simp only [List.mem_singleton] at he'
      subst he'
      cases e' with
      | score i' j' v' =>
        simp only [ite_eq_right_iff, reduceCtorEq, imp_false]
        intro hi
        subst hi
        exact hne j' v' rfl
      | _ => rfl
    rw [this, List.append_nil]
  obtain ⟨ps, hnd, hpp, hps⟩ := hinv.pos
  refine ⟨?_, ?_, ⟨ps, hnd, ?_, ?_⟩, ?_, ?_⟩
  · rw [hr2]; exact hinv.len
  · rw [hr2]; exact hinv.sorted
  · rw [hr2]; exact hpp
  · intro p hp
    obtain ⟨a1, a2⟩ := hps p hp
    refine ⟨a1, ?_⟩
    rcases a2 with a2 | ⟨w, hw⟩
    · exact Or.inl a2
    · exact Or.inr ⟨w, hmono _ hw⟩
  · rw [hreads, hr2]
    exact hinv.reads
  · rw [hreads]
    exact hinv.count

/-- The queue invariant at every configuration of the scan loop. -/
theorem scanInv_config (hKN : inp.K ≤ inp.num_items) (i : Nat) :
    ∀ t c, scanConfig inp env i t = some c → ScanInv inp env i (inp.K + t) c.1 c.2 :=
  scanConfig_rec inp env i (fun j st q => ScanInv inp env i j st q)
    (fun j st q r _ hP hs => scanInv_next inp env i j st q r hP hs)
    (scanInv_start inp env hKN i)

/-- The queue invariant when the scan loop is left. -/
theorem scanInv_end (hKN : inp.K ≤ inp.num_items) (i : Nat) :
    ∃ j, j ≤ inp.num_items ∧ ScanInv inp env i j (scanEnd inp env i).1 (scanEnd inp env i).2 :=
  scanLoop_rec inp env i (fun j st q => ScanInv inp env i j st q)
    (fun st q => ∃ j, j ≤ inp.num_items ∧ ScanInv inp env i j st q)
    (fun j st q r _ hP hs => scanInv_next inp env i j st q r hP hs)
    (fun j st q r hj hP hs => ⟨j, le_of_lt hj, scanInv_exit inp env i j st q r hP hs⟩)
    (fun st q hP => ⟨inp.num_items, le_refl _, hP⟩)
    (inp.num_items - inp.K) inp.K _ _ (by omega) (scanInv_start inp env hKN i)

end HeapRunTheory

section CeilingTheory
variable {α : Type} [LinearOrderedCommRing α]
variable (inp : ClusterInput α) (env : Oracle α)

/-- With `1 ≤ K ≤ B ≤ N` the cells user `i` reads for its seeds hold the exact scores. -/
theorem seed_cells_exact {p : Nat} (hP : Params inp p) (i : Nat)
    (hi : i < inp.num_users_to_compute) (k : Nat) (hk : k < inp.K) :
    (seedPhase inp env (stateAfter inp env i) i).1.users_dot_items
      (i * inp.item_batch_size + k) = score inp env i k :=
  (userInv_stateAfter inp env hP i (le_of_lt hi)).rows i k (le_refl _) hi
    (lt_of_lt_of_le hk hP.hKB)

end CeilingTheory

section ExtractQueueTheory
variable {α : Type}

theorem extractQueue_eq_drop : ∀ (t : Nat) (q : Heap α), extractQueue t q = q.drop t := by
  intro t
  induction t with
  | zero => intro q; rfl
  | succ t ih =>
    intro q
    cases q with
    | nil => rfl
    | cons p rest =>
      simp only [extractQueue, List.drop_succ_cons]
      exact ih rest

/-- After `a` passes the extraction loop goes on with the queue `extractQueue a q`. -/
theorem extractLoop_add (i K : Nat) :
    ∀ (a b j : Nat) (q : Heap α) (st : ClusterState α), a ≤ q.length →
      extractLoop i K (a + b) j q st =
        extractLoop i K b (j + a) (extractQueue a q) (extractLoop i K a j q st) := by
  intro a
  induction a with
  | zero =>
    intro b j q st _
    rw [Nat.zero_add]
    rfl
  | succ a ih =>
    intro b j q st ha
    cases q with
    | nil => simp at ha
    | cons p rest =>
      have e : a + 1 + b = (a + b) + 1 := by omega
      rw [e]
      simp only [extractLoop, extractQueue]
      rw [ih b (j + 1) rest _ (by simpa using ha)]
      have e2 : j + 1 + a = j + (a + 1) := by omega
      rw [e2]

end ExtractQueueTheory

section ClaimSupport
variable {α : Type} [LinearOrderedCommRing α]
variable (inp : ClusterInput α) (env : Oracle α)

theorem scanConfig_succ_some (i t : Nat) (c' : ClusterState α × Heap α)
    (h : scanConfig inp env i (t + 1) = some c') :
    ∃ c, scanConfig inp env i t = some c ∧ inp.K + t < inp.num_items ∧
      scanStep inp env i (inp.K + t) c.1 c.2 = Sum.inr c' := by
  simp only [scanConfig] at h
  cases hprev : scanConfig inp env i t with
  | none => simp [hprev] at h
  | some c0 =>
    simp only [hprev] at h
    split at h
    · rename_i hlt
      cases hs : scanStep inp env i (inp.K + t) c0.1 c0.2 with
      | inl r => simp [hs] at h
      | inr r =>
        simp only [hs, Option.some.injEq] at h
        subst h
        exact ⟨c0, rfl, hlt, hs⟩
    · simp at h

/-- The materialized prefix at every configuration of the scan loop of user `i`. -/
theorem config_keeps (hKN : inp.K ≤ inp.num_items) (i : Nat) :
    ∀ t c, scanConfig inp env i t = some c →
      Materialized inp env c.1 ∧ KeepsFilled inp (stateAfter inp env i) c.1 ∧
      KeepsFilled inp c.1 (stateAfter inp env (i + 1)) := by
  intro t c hc
  have h1 := scanConfig_rec inp env i
    (fun _ st q => Materialized inp env st ∧ KeepsFilled inp (stateAfter inp env i) st ∧
      q.length = inp.K) ?_ ?_ t c hc
  · obtain ⟨m1, m2, m3⟩ := h1
    refine ⟨m1, m2, ?_⟩
    have hle := scanConfig_le inp env i hKN t c hc
    obtain ⟨_, l2, _, _, l5⟩ := scanLoop_state inp env (fun _ => True) i
      (fun _ _ => trivial) (fun _ _ => trivial) (fun _ _ _ => trivial) (fun _ _ => trivial)
      (inp.num_items - (inp.K + t)) (inp.K + t) c.1 c.2 (by omega) m3
    rw [← scanEnd_of_config inp env i t c hc hle] at l2 l5
    rw [stateAfter_succ_eq]
    obtain ⟨e1, e2, e3, _⟩ := extractLoop_frame i inp.K inp.K 0 (scanEnd inp env i).2
      (scanEnd inp env i).1 (by omega)
    exact l2.keep_comp inp (KeepsFilled.keep_of_eq inp e1 e2 e3)
  · intro j st q r _ hPj hs
    obtain ⟨p1, p2, p3⟩ := hPj
    obtain ⟨_, s2, s3, _, s5⟩ := scanStep_state inp env (fun _ => True) i
      (fun _ _ => trivial) (fun _ _ => trivial) (fun _ _ _ => trivial) (fun _ _ => trivial)
      j st q r p3 (Or.inl hs)
    exact ⟨s3 p1, p2.keep_comp inp s2, s5⟩
  · obtain ⟨_, s2, s3, s4, _, _, s7, _⟩ := seedPhase_state inp env i (stateAfter inp env i)
    exact ⟨((stateAfter_keeps inp env hKN i).1).mat_of_eq inp env s2 s3 s4,
      KeepsFilled.keep_of_eq inp s2 s3 s4, s7⟩

/-- The materialized prefix when the scan loop of user `i` is left. -/
theorem scanEnd_keeps (hKN : inp.K ≤ inp.num_items) (i : Nat) :
    Materialized inp env (scanEnd inp env i).1 ∧
    KeepsFilled inp (stateAfter inp env i) (scanEnd inp env i).1 := by
  obtain ⟨_, s2, s3, s4, _, _, s7, _⟩ := seedPhase_state inp env i (stateAfter inp env i)
  obtain ⟨_, l2, l3, _, _⟩ := scanLoop_state inp env (fun _ => True) i
    (fun _ _ => trivial) (fun _ _ => trivial) (fun _ _ _ => trivial) (fun _ _ => trivial)
    (inp.num_items - inp.K) inp.K (seedPhase inp env (stateAfter inp env i) i).1
    (seedPhase inp env (stateAfter inp env i) i).2 (by omega) s7
  exact ⟨l3 (((stateAfter_keeps inp env hKN i).1).mat_of_eq inp env s2 s3 s4),
    (KeepsFilled.keep_of_eq inp s2 s3 s4).keep_comp inp l2⟩

/-- Between two consecutive configurations of the scan loop the filled rows are kept. -/
theorem config_keeps_succ (i t : Nat) (c c' : ClusterState α × Heap α)
    (hc : scanConfig inp env i t = some c) (hc' : scanConfig inp env i (t + 1) = some c') :
    KeepsFilled inp c.1 c'.1 := by
  obtain ⟨c0, h0, _, hs⟩ := scanConfig_succ_some inp env i t c' hc'
  rw [hc] at h0
  have := Option.some.inj h0
  subst this
  obtain ⟨top, rest, st0, _, hst0, _, hr1, _⟩ := scanStep_next inp env i _ _ _ _ hs
  obtain ⟨b1, _, _, _⟩ := boundary_keeps inp env i _ _ st0 hst0
  rw [hr1]
  exact b1.keep_comp inp (KeepsFilled.keep_of_eq inp rfl rfl rfl)

/-- Row `i` of the final `top_K_items` lists the ids of the final queue of user `i`,
largest pair first. -/
theorem final_row_eq (hKN : inp.K ≤ inp.num_items) (i : Nat)
    (hi : i < inp.num_users_to_compute) :
    rowOf inp.K (stateAfter inp env inp.num_users_to_compute).top_K_items i =
      ((scanEnd inp env i).2.map Prod.snd).reverse ∧
    ∀ e, e ∈ (scanEnd inp env i).1.trace →
      e ∈ (stateAfter inp env inp.num_users_to_compute).trace := by
  obtain ⟨_, hinv⟩ := scanInv_end inp env hKN i
  have hm : inp.num_users_to_compute = i + 1 + (inp.num_users_to_compute - (i + 1)) := by omega
  constructor
  · rw [hm, stateAfter_row_stable inp env hKN i, stateAfter_succ_eq]
    exact rowOf_extract i inp.K _ _ hinv.2.len
  · intro e he
    rw [hm]
    apply stateAfter_trace_mono inp env hKN (i + 1)
    rw [stateAfter_succ_eq, extractLoop_trace i inp.K inp.K 0 _ _ (by rw [hinv.2.len])]
    exact he

end ClaimSupport

section BinTheory
variable {α : Type} [LinearOrderedCommRing α]

/-- The loop of `find_theta_bin_index` started at index `i` with all earlier entries
below `theta_uc`: it returns the first index whose entry is at least `theta_uc`, or
`num_bins - 1` when there is none. -/
theorem find_theta_bin_index_loop_spec (theta_uc : α) (theta_bins : List α) (num_bins : Nat)
    (hlen : theta_bins.length = num_bins) :
    ∀ fuel i, i + fuel = num_bins →
      (∀ k b, k < i → theta_bins[k]? = some b → b < theta_uc) →
      (∃ (r : Nat) (b : α),
          find_theta_bin_index_loop theta_uc theta_bins num_bins fuel i = some (r : Int) ∧
          r < num_bins ∧ theta_bins[r]? = some b ∧ theta_uc ≤ b ∧
          ∀ k b', k < r → theta_bins[k]? = some b' → b' < theta_uc) ∨
      (find_theta_bin_index_loop theta_uc theta_bins num_bins fuel i =
          some ((num_bins : Int) - 1) ∧
        ∀ b, b ∈ theta_bins → b < theta_uc) := by
  intro fuel
  induction fuel with
  | zero =>
    intro i hi hbelow
    right
    refine ⟨rfl, ?_⟩
    intro b hb
    obtain ⟨k, hk, rfl⟩ := List.getElem_of_mem hb
    exact hbelow k _ (by omega) (List.getElem?_eq_getElem hk)
  | succ fuel ih =>
    intro i hi hbelow
    have hilt : i < theta_bins.length := by omega
    simp only [find_theta_bin_index_loop, List.getElem?_eq_getElem hilt]
    by_cases hle : theta_uc ≤ theta_bins[i]
    · left
      rw [if_pos hle]
      exact ⟨i, theta_bins[i], rfl, by omega, List.getElem?_eq_getElem hilt, hle, hbelow⟩
    · rw [if_neg hle]
      apply ih (i + 1) (by omega)
      intro k b hk hb
      rcases Nat.lt_succ_iff_lt_or_eq.mp hk with h | h
      · exact hbelow k b h hb
      · subst h
        rw [List.getElem?_eq_getElem hilt] at hb
        rw [← Option.some.inj hb]
        exact not_le.mp hle

/-- What `find_theta_bin_index` computes on an ascending vector `theta_bins` of length
`num_bins`: if some entry is at least `theta_uc`, the first index `r` whose entry `b` is
at least `theta_uc`; every earlier entry is below `theta_uc`, and `b` is greater than
`theta_uc` when `theta_uc` is not itself an entry.  If every entry is below `theta_uc`
the result is `num_bins - 1`. -/
theorem find_theta_bin_index_first_at_least {α : Type} [LinearOrderedCommRing α] (theta_uc : α)
    (theta_bins : List α) (num_bins : Nat) (hlen : theta_bins.length = num_bins)
    (hasc : theta_bins.Pairwise (fun a b => a ≤ b)) :
    ((∃ b, b ∈ theta_bins ∧ theta_uc ≤ b) →
      ∃ (r : Nat) (b : α), find_theta_bin_index theta_uc theta_bins num_bins = some (r : Int) ∧
        r < num_bins ∧ theta_bins[r]? = some b ∧ theta_uc ≤ b ∧
        (∀ k b', k < r → theta_bins[k]? = some b' → b' < theta_uc) ∧
        (∀ b', b' ∈ theta_bins → theta_uc ≤ b' → b ≤ b') ∧
        (theta_uc ∉ theta_bins → theta_uc < b)) ∧
    ((∀ b, b ∈ theta_bins → b < theta_uc) →
      find_theta_bin_index theta_uc theta_bins num_bins = some ((num_bins : Int) - 1)) := by
  have hspec := find_theta_bin_index_loop_spec theta_uc theta_bins num_bins hlen num_bins 0
    (by omega) (fun k b hk _ => absurd hk (Nat.not_lt_zero k))
  constructor
  · rintro ⟨b0, hb0, hb0le⟩
    rcases hspec with ⟨r, b, h1, h2, h3, h4, h5⟩ | ⟨_, hall⟩
    · refine ⟨r, b, h1, h2, h3, h4, h5, ?_, ?_⟩
      · intro b' hb' hle
        obtain ⟨k, hk, rfl⟩ := List.getElem_of_mem hb'
        have hr : r < theta_bins.length := by omega
        have hbr : theta_bins[r] = b := by
          rw [List.getElem?_eq_getElem hr] at h3
          exact Option.some.inj h3
        rcases Nat.lt_trichotomy k r with h | h | h
        · exact absurd (h5 k _ h (List.getElem?_eq_getElem hk)) (not_lt.mpr hle)
        · subst h
          rw [hbr]
        · rw [← hbr]
          exact List.pairwise_iff_getElem.mp hasc r k hr hk h
      · intro hnot
        rcases lt_or_eq_of_le h4 with h | h
        · exact h
        · exfalso
          apply hnot
          rw [h]
          exact List.getElem?_mem h3
    · exact absurd (hall b0 hb0) (not_lt.mpr hb0le)
  · intro hall
    rcases hspec with ⟨r, b, _, _, h3, h4, _⟩ | ⟨h, _⟩
    · exact absurd (hall b (List.getElem?_mem h3)) (not_lt.mpr h4)
    · exact h

end BinTheory

section BoundSignTheory

/-- With the real cosine, `upper_bounds[k]` lies between `-item_norms[k]` and
`item_norms[k]` for a non-negative norm. -/
theorem upper_bounds_abs_le (inp : ClusterInput ℝ) (env : Oracle ℝ) (hcos : env.cos = Real.cos)
    (k : Nat) (hk : k < inp.num_items) (hn : 0 ≤ inp.item_norms k) :
    -inp.item_norms k ≤ upper_bounds inp env k ∧ upper_bounds inp env k ≤ inp.item_norms k := by
  rw [upper_bounds_eq inp env k hk, hcos]
  have h1 := Real.neg_one_le_cos (max 0 (inp.theta_ics k - theta_max inp env))
  have h2 := Real.cos_le_one (max 0 (inp.theta_ics k - theta_max inp env))
  constructor <;> nlinarith

theorem upper_bounds_nonneg_of_le (inp : ClusterInput ℝ) (env : Oracle ℝ)
    (hcos : env.cos = Real.cos) (k : Nat) (hk : k < inp.num_items) (hn : 0 ≤ inp.item_norms k)
    (hd : inp.theta_ics k - theta_max inp env ≤ Real.pi / 2) :
    0 ≤ upper_bounds inp env k := by
  rw [upper_bounds_eq inp env k hk, hcos]
  apply mul_nonneg hn
  apply Real.cos_nonneg_of_neg_pi_div_two_le_of_le
  · have := Real.pi_pos
    have : (0 : ℝ) ≤ max 0 (inp.theta_ics k - theta_max inp env) := le_max_left _ _
    linarith
  · exact max_le (by have := Real.pi_pos; linarith) hd

theorem upper_bounds_neg_of_gt (inp : ClusterInput ℝ) (env : Oracle ℝ)
    (hcos : env.cos = Real.cos) (k : Nat) (hk : k < inp.num_items) (hn : 0 < inp.item_norms k)
    (hd : Real.pi / 2 < inp.theta_ics k - theta_max inp env)
    (hd2 : inp.theta_ics k - theta_max inp env ≤ Real.pi) :
    upper_bounds inp env k < 0 := by
  rw [upper_bounds_eq inp env k hk, hcos]
  apply mul_neg_of_pos_of_neg hn
  have hpos := Real.pi_pos
  have e : max 0 (inp.theta_ics k - theta_max inp env) = inp.theta_ics k - theta_max inp env :=
    max_eq_right (by linarith)
  rw [e]
  exact Real.cos_neg_of_pi_div_two_lt_of_lt hd (by linarith)

end BoundSignTheory

section BackFacts

theorem back_theta_max (a : ℝ) (cosf : ℝ → ℝ) :
    theta_max (backInput a) (backOracle cosf) = 0 := by
  simp [theta_max, cblas_isamax, backInput, backOracle, vec, List.range_succ]

theorem back_ub :
    upper_bounds (backInput Real.pi) (backOracle Real.cos) 0 = -1 := by
  have hpi := Real.pi_pos
  rw [upper_bounds_eq _ _ 0 (by simp [backInput]), back_theta_max]
  have e1 : (backInput Real.pi).theta_ics 0 = Real.pi := by simp [backInput, vec]
  have e2 : (backInput Real.pi).item_norms 0 = 1 := by simp [backInput, vec]
  have e3 : (backOracle Real.cos).cos = Real.cos := rfl
  rw [e1, e2, e3, sub_zero, max_eq_right hpi.le, Real.cos_pi, one_mul]

theorem back_trueGeometry : TrueGeometry (backInput Real.pi) (backOracle Real.cos) := by
  have hpi := Real.pi_pos
  refine ⟨rfl, ?_, ?_, ?_, ?_, ?_, ?_, ?_, ?_, ?_, ?_⟩
  · simp [backInput]
  · simp [backInput, dotRows, vec, List.range_succ]
  · intro k hk
    have hk2 : k < 1 := hk
    interval_cases k
    simp [backInput, vec]
  · intro k hk
    have hk2 : k < 1 := hk
    interval_cases k
    simp [backInput, dotRows, vec, List.range_succ]
  · intro k hk
    have hk2 : k < 1 := hk
    interval_cases k
    simp [backInput, vec, hpi.le]
  · intro k hk
    have hk2 : k < 1 := hk
    interval_cases k
    simp [backInput, dotRows, vec, List.range_succ]
  · intro i hi
    have hi2 : i < 1 := hi
    interval_cases i
    simp [backOracle, vec]
  · intro i hi
    have hi2 : i < 1 := hi
    interval_cases i
    simp [backInput, backOracle, dotRows, vec, List.range_succ]
  · intro i hi
    have hi2 : i < 1 := hi
    interval_cases i
    simp [backOracle, vec, hpi.le]
  · intro i hi
    have hi2 : i < 1 := hi
    interval_cases i
    simp [backInput, backOracle, dotRows, vec, List.range_succ]

end BackFacts

/-! ## The regime `num_items < item_batch_size`

When the batch is larger than the cluster no scan index is a batch boundary, so the
ceilings written before the seeding (lines 267-269) serve the whole scan. -/

section SingleBatchMask
variable {α : Type} (inp : ClusterInput α)

end SingleBatchMask

section SingleBatchTheory
variable {α : Type} [LinearOrderedCommRing α]
variable (inp : ClusterInput α) (env : Oracle α)

end SingleBatchTheory

/-! ## The claims -/

section Claims

/-- Claim C2.  In exact real arithmetic with true (positive) norms and true angles to the
centroid, with `theta_max` and `upper_bounds` as `computeTopKForCluster` builds them,
every user `i` of the cluster and every item `k` satisfy
`u_i · item_k ≤ ‖u_i‖ · upper_bounds[k]`. -/
theorem C2_upper_bound_valid (inp : ClusterInput ℝ) (env : Oracle ℝ)
    (h : TrueGeometry inp env) :
    ∀ i, i < inp.num_users_to_compute → ∀ k, k < inp.num_items →
      exactScore inp i k ≤ env.user_norms i * upper_bounds inp env k :=
  validBound_of_trueGeometry inp env h

/-- Witness of `C2_upper_bound_valid`: the planar cluster, where the bound
`(-1, 0) · (4, 3) = -4 ≤ 1 · 5` is strict. -/
theorem C2_upper_bound_valid_witness :
    TrueGeometry (planeInput (Real.arccos (4 / 5))) (planeOracle Real.cos Real.pi) ∧
    exactScore (planeInput (Real.arccos (4 / 5))) 1 1 ≤
      (planeOracle Real.cos Real.pi).user_norms 1 *
        upper_bounds (planeInput (Real.arccos (4 / 5))) (planeOracle Real.cos Real.pi) 1 :=
  ⟨plane_trueGeometry,
    C2_upper_bound_valid _ _ plane_trueGeometry 1 (by simp [planeInput]) 1 (by simp [planeInput])⟩

/-- Claim C4, evaluation at the failing input `staleInput` (`N = 17`, `B = 8`, `K = 3`, two
users): after the first user has filled all batches, the second user at scan index
`j = 9` reads `4` from `users_dot_items` while `u_1 · item_{π[9]} = 2`. -/
theorem C4_stale_score_read :
    ∃ st, computeTopKForCluster staleInput staleOracle = some st ∧
      Event.score 1 9 4 ∈ st.trace ∧
      exactScore staleInput 1 (staleOracle.sorted_upper_bounds_indices 9) = 2 :=
  ⟨_, rfl, by decide!, by decide!⟩

/-- Claim C5, evaluation at the failing input `staleInput`: row 1 of `top_K_items` is
`[9, 1, 0]`, the score of item `9`, at position 0, is smaller than the score of item
`1`, at position 1, and the row does not pass `check_against_naive`. -/
theorem C5_row_not_descending :
    ∃ st, computeTopKForCluster staleInput staleOracle = some st ∧
      rowOf 3 st.top_K_items 1 = [9, 1, 0] ∧
      exactScore staleInput 1 9 < exactScore staleInput 1 1 ∧
      check_against_naive staleInput 1 (rowOf 3 st.top_K_items 1) = false :=
  ⟨_, rfl, by decide!, by decide!, by decide!⟩

/-- Claim C6, evaluation at the failing input: on `staleInput` (users `1`, `2`) the rows
are `[1, 0, 2]` and `[9, 1, 0]`; with the two user rows exchanged (users `2`, `1`) the
rows are again `[1, 0, 2]` and `[9, 1, 0]`, not the exchanged rows. -/
theorem C6_order_dependent :
    topKRows staleInput staleOracle = some [[1, 0, 2], [9, 1, 0]] ∧
    topKRows staleInputSwapped staleOracleSwapped = some [[1, 0, 2], [9, 1, 0]] :=
  ⟨by decide!, by decide!⟩

/-- Claim C7, counterexample.  Scenario 2 of the specification (items `1.0, 1.0, 0.5`,
user `1.0`, `K = 2`, equal upper bounds listed by ascending id) yields the row `[1, 0]`:
of the two items with equal scores the larger id comes first. -/
theorem C7_tie_counterexample : topKRows tieInput tieOracle = some [[1, 0]] := by
  decide!

/-- Claim C7 (amended).  Let `1 ≤ K ≤ B ≤ N` with `B` a power of two, the index array a
permutation of `0 .. N-1`, and let user `i` be the first user of the cluster, or `B`
divide `N`, or `N ≤ 2B`.  Then the call returns and, whenever two items of row `i` have
equal scores, the one with the larger item id is at the earlier position. -/
theorem C7_ties_larger_id_first {α : Type} [LinearOrderedCommRing α] (inp : ClusterInput α)
    (env : Oracle α) (p : Nat) (hP : Params inp p)
    (hov : overflowCheck inp.num_users_to_compute inp.item_batch_size = false)
    (hrange : ∀ a, a < inp.num_items → env.sorted_upper_bounds_indices a < inp.num_items)
    (hinj : ∀ a, a < inp.num_items → ∀ b, b < inp.num_items →
      env.sorted_upper_bounds_indices a = env.sorted_upper_bounds_indices b → a = b)
    (i : Nat) (hi : i < inp.num_users_to_compute) (hU : Unaffected inp i) :
    ∃ st, computeTopKForCluster inp env = some st ∧
      (rowOf inp.K st.top_K_items i).Pairwise
        (fun a b => exactScore inp i a = exactScore inp i b → b < a) := by
  refine ⟨_, computeTopKForCluster_eq inp env hov, ?_⟩
  rw [row_eq_idealRow inp env hP i hi hU]
  have hq := finalHeap_inv inp env hP hinj i
  obtain ⟨_, _, _, h4⟩ := heapInv_row_shape inp env hrange i _ hq
  apply h4.imp
  intro a b hab heq
  rcases hab with h | h
  · exact absurd heq (ne_of_gt h)
  · exact h.2

/-- Witness of `C7_ties_larger_id_first`: the user of `tieInput`, whose row is `[1, 0]`. -/
theorem C7_ties_larger_id_first_witness :
    Params tieInput 1 ∧ Unaffected tieInput 0 ∧
    ∃ st, computeTopKForCluster tieInput tieOracle = some st ∧
      (rowOf tieInput.K st.top_K_items 0).Pairwise
        (fun a b => exactScore tieInput 0 a = exactScore tieInput 0 b → b < a) :=
  ⟨⟨by decide, by decide, by decide, by decide⟩, Or.inl rfl,
    C7_ties_larger_id_first tieInput tieOracle 1 ⟨by decide, by decide, by decide, by decide⟩
      (by decide) (by decide!) (by decide!) 0 (by decide) (Or.inl rfl)⟩

/-- Claim C8.  For a cluster with at least one user and angles `theta_ucs ≥ 0`, the value
`theta_max` used by the upper-bound constructor is at least every `theta_uc`, equals
some user's `theta_uc` (the only user's in a one-user cluster), and for every item
`k < N`, `upper_bounds[k] = item_norms[k] · cos(max(0, theta_ics[k] − theta_max))`. -/
theorem C8_upper_bounds_closed_form {α : Type} [LinearOrderedCommRing α]
    (inp : ClusterInput α) (env : Oracle α) (hm : 1 ≤ inp.num_users_to_compute)
    (hθ : ∀ i, i < inp.num_users_to_compute → 0 ≤ env.theta_ucs i) :
    (∀ i, i < inp.num_users_to_compute → env.theta_ucs i ≤ theta_max inp env) ∧
    (∃ i, i < inp.num_users_to_compute ∧ theta_max inp env = env.theta_ucs i) ∧
    (inp.num_users_to_compute = 1 → theta_max inp env = env.theta_ucs 0) ∧
    ∀ k, k < inp.num_items → upper_bounds inp env k =
      inp.item_norms k * env.cos (max 0 (inp.theta_ics k - theta_max inp env)) := by
  obtain ⟨h1, h2, h3⟩ := theta_max_spec inp env hm hθ
  exact ⟨h1, h2, h3, fun k hk => upper_bounds_eq inp env k hk⟩

/-- Witness of `C8_upper_bounds_closed_form`: three users with angles `1/2, 3/2, 1`, so
`theta_max = 3/2`; the item at angle `2` gets `3 · cosQ (1/2)`, the item at angle `1`
gets `5 · cosQ 0 = 5`. -/
theorem C8_upper_bounds_closed_form_witness :
    theta_max angleInput angleOracle = 3 / 2 ∧
    upper_bounds angleInput angleOracle 0 = 3 * cosQ (1 / 2) ∧
    upper_bounds angleInput angleOracle 1 = 5 ∧
    ∀ k, k < angleInput.num_items → upper_bounds angleInput angleOracle k =
      angleInput.item_norms k *
        angleOracle.cos (max 0 (angleInput.theta_ics k - theta_max angleInput angleOracle)) :=
  ⟨by decide!, by decide!, by decide!,
    (C8_upper_bounds_closed_form angleInput angleOracle (by decide) (by decide!)).2.2.2⟩

/-- Claim C9, evaluation at two failing inputs.  On `staleInput` (`N = 17`, `B = 8`,
`K = 3`) the refresh of the ceilings at the truncated batch `j = 16` reads
`sorted_upper_bounds[17]`, past its `17` cells; on `wideInput` (`N = 3`, `B = 4`) the
initial copy loop reads `sorted_upper_bounds_indices[3]`, past its `3` cells. -/
theorem C9_reads_out_of_bounds :
    (∃ st, computeTopKForCluster staleInput staleOracle = some st ∧
      Event.read Buf.sorted_upper_bounds 17 ∈ st.trace ∧
      Buf.size staleInput Buf.sorted_upper_bounds = 17) ∧
    (∃ st, computeTopKForCluster wideInput wideOracle = some st ∧
      Event.read Buf.sorted_upper_bounds_indices 3 ∈ st.trace ∧
      Buf.size wideInput Buf.sorted_upper_bounds_indices = 3) :=
  ⟨⟨_, rfl, by decide!, by decide⟩, ⟨_, rfl, by decide!, by decide⟩⟩

/-- Claim C10, evaluation at the failing input: for `num_users_to_compute = 65536` and
`item_batch_size = 65536` the product `2^32` exceeds `2^31 - 1`, its 32-bit value is `0`,
the test of line 114 does not fire, and the call does not take the error exit. -/
theorem C10_overflow_check_misses :
    (2 : Int) ^ 31 - 1 < (65536 : Int) * 65536 ∧
    toInt32 ((65536 : Int) * 65536) = 0 ∧
    overflowCheck 65536 65536 = false ∧
    (computeTopKForCluster overflowInput overflowOracle).isSome = true := by
  refine ⟨by decide, by decide, by decide, ?_⟩
  rw [computeTopKForCluster_eq overflowInput overflowOracle (by decide)]
  rfl

end Claims

section ClaimsSteps

/-- Claim C12, counterexample.  `narrowInput` meets the stated preconditions (`K = 2 ≥ 1`,
`K ≤ N = 3`, `B = 1 = 2^0`) with `K > B`.  For user 0 the second seed is read from
`users_dot_items[0 * 1 + 1]`, which holds `3`, the product of user 1 with item `π[0]`;
the queue is seeded with `(3, 1)` and `(30, 0)` while `u_0 · item_{π[1]} = 20`. -/
theorem C12_seed_counterexample :
    1 ≤ narrowInput.K ∧ narrowInput.K ≤ narrowInput.num_items ∧
    narrowInput.item_batch_size = 2 ^ 0 ∧
    (scanConfig narrowInput narrowOracle 0 0).map Prod.snd = some [(3, 1), (30, 0)] ∧
    (seedPhase narrowInput narrowOracle (stateAfter narrowInput narrowOracle 0) 0).1.users_dot_items
      (0 * narrowInput.item_batch_size + 1) = 3 ∧
    exactScore narrowInput 0 (narrowOracle.sorted_upper_bounds_indices 1) = 20 :=
  ⟨by decide, by decide, by decide, by decide!, by decide!, by decide!⟩

/-- Claim C12 (amended).  Let `1 ≤ K ≤ B ≤ N` with `B` a power of two.  For every user `i`
of the cluster, each value read from `users_dot_items[i*B + k]`, `k < K`, when the queue
is seeded is the exact product `u_i · item_{π[k]}`, and the queue with which the scan loop
is entered holds exactly the `K` pairs `(u_i · item_{π[k]}, π[k])`, `k = 0 .. K-1`. -/
theorem C12_seeds_exact {α : Type} [LinearOrderedCommRing α] (inp : ClusterInput α)
    (env : Oracle α) (p : Nat) (hP : Params inp p) (i : Nat)
    (hi : i < inp.num_users_to_compute) :
    (∀ k, k < inp.K →
      (seedPhase inp env (stateAfter inp env i) i).1.users_dot_items
        (i * inp.item_batch_size + k) =
          exactScore inp i (env.sorted_upper_bounds_indices k)) ∧
    (seedPhase inp env (stateAfter inp env i) i).2.length = inp.K ∧
    (seedPhase inp env (stateAfter inp env i) i).2.Perm
      ((List.range inp.K).map (fun k =>
        (exactScore inp i (env.sorted_upper_bounds_indices k),
          env.sorted_upper_bounds_indices k))) := by
  have hcell := seed_cells_exact inp env hP i hi
  obtain ⟨_, _, _, _, s5, _, s7, s8⟩ := seedPhase_state inp env i (stateAfter inp env i)
  refine ⟨hcell, s7, ?_⟩
  rw [s8]
  refine (idealSeed_perm _ _ _).trans ?_
  rw [List.map_congr_left]
  intro k hk
  have := hcell k (List.mem_range.mp hk)
  rw [s5] at this
  rw [this]
  rfl

/-- Witness of `C12_seeds_exact`: the second user of `evenInput` (`K = 2`, `B = 2`), whose
seeds are `(6, 1)` and `(8, 0)`. -/
theorem C12_seeds_exact_witness :
    Params evenInput 1 ∧
    (seedPhase evenInput evenOracle (stateAfter evenInput evenOracle 1) 1).2.Perm
      ((List.range evenInput.K).map (fun k =>
        (exactScore evenInput 1 (evenOracle.sorted_upper_bounds_indices k),
          evenOracle.sorted_upper_bounds_indices k))) ∧
    (seedPhase evenInput evenOracle (stateAfter evenInput evenOracle 1) 1).2 =
      [(6, 1), (8, 0)] :=
  ⟨⟨by decide, by decide, by decide, by decide⟩,
    (C12_seeds_exact evenInput evenOracle 1 ⟨by decide, by decide, by decide, by decide⟩ 1
      (by decide)).2.2, by decide!⟩

/-- Claim C14.  Let `1 ≤ K ≤ N`.  For every user `i` the queue holds exactly `K` pairs at
every configuration of the scan loop and when the loop is left; no evaluation of
`q.top()` on an empty queue is ever recorded, in the scan loop or in the extraction loop;
each of the `K` passes of the extraction loop removes one pair and the queue is empty
after the last. -/
theorem C14_heap_size {α : Type} [LinearOrderedCommRing α] (inp : ClusterInput α)
    (env : Oracle α) (hK : 1 ≤ inp.K) (hKN : inp.K ≤ inp.num_items) (i : Nat) :
    (∀ t c, scanConfig inp env i t = some c → c.2.length = inp.K) ∧
    (scanEnd inp env i).2.length = inp.K ∧
    (∀ n i' j, Event.emptyTop i' j ∉ (stateAfter inp env n).trace) ∧
    (∀ t, t ≤ inp.K → (extractQueue t (scanEnd inp env i).2).length = inp.K - t) ∧
    extractQueue inp.K (scanEnd inp env i).2 = [] := by
  obtain ⟨_, _, hend⟩ := scanInv_end inp env hKN i
  refine ⟨fun t c hc => (scanInv_config inp env hKN i t c hc).len, hend.len,
    stateAfter_no_emptyTop inp env hK hKN, ?_, ?_⟩
  · intro t _
    rw [extractQueue_eq_drop, List.length_drop, hend.len]
  · rw [extractQueue_eq_drop, List.drop_eq_nil_iff, hend.len]

/-- Witness of `C14_heap_size`: the first user of `evenInput` (`K = 2`, `N = 4`). -/
theorem C14_heap_size_witness :
    1 ≤ evenInput.K ∧ evenInput.K ≤ evenInput.num_items ∧
    (scanEnd evenInput evenOracle 0).2.length = 2 ∧
    extractQueue 2 (scanEnd evenInput evenOracle 0).2 = [] :=
  ⟨by decide, by decide,
    (C14_heap_size evenInput evenOracle (by decide) (by decide) 0).2.1,
    (C14_heap_size evenInput evenOracle (by decide) (by decide) 0).2.2.2.2⟩

/-- Claim C15.  Let `K ≤ N`.  In the state in which the user loop is entered, in the state
after any number of users, in every configuration of the scan loop of every user and in
the state in which that loop is left:
for every `k < min(batch_counter, N)`, `sorted_upper_bounds[k] = upper_bounds[π[k]]` and
row `k` of `sorted_item_weights` is row `π[k]` of `item_weights`.  From each of these
states to the next (start of user `i`, the configurations of its scan loop in turn, end
of user `i`), `batch_counter` does not decrease and the rows below the earlier
`batch_counter` hold the same values.  (`item_weights` and `upper_bounds` are not part of
the mutable state: the function does not write them after line 177.) -/
theorem C15_filled_rows_kept {α : Type} [LinearOrderedCommRing α] (inp : ClusterInput α)
    (env : Oracle α) (hKN : inp.K ≤ inp.num_items) :
    Materialized inp env (initState inp env) ∧
    (∀ n, Materialized inp env (stateAfter inp env n) ∧
      KeepsFilled inp (stateAfter inp env n) (stateAfter inp env (n + 1))) ∧
    (∀ i t c, scanConfig inp env i t = some c →
      Materialized inp env c.1 ∧ KeepsFilled inp (stateAfter inp env i) c.1 ∧
      KeepsFilled inp c.1 (stateAfter inp env (i + 1))) ∧
    (∀ i t c c', scanConfig inp env i t = some c → scanConfig inp env i (t + 1) = some c' →
      KeepsFilled inp c.1 c'.1) ∧
    (∀ i, Materialized inp env (scanEnd inp env i).1 ∧
      KeepsFilled inp (stateAfter inp env i) (scanEnd inp env i).1) :=
  ⟨(initState_keeps inp env).1, stateAfter_keeps inp env hKN,
    fun i t c hc => config_keeps inp env hKN i t c hc,
    fun i t c c' hc hc' => config_keeps_succ inp env i t c c' hc hc',
    fun i => scanEnd_keeps inp env hKN i⟩

/-- Witness of `C15_filled_rows_kept`: `staleInput` (`N = 17`, `B = 8`), after both
users; all `17` rows are materialized. -/
theorem C15_filled_rows_kept_witness :
    staleInput.K ≤ staleInput.num_items ∧
    Materialized staleInput staleOracle (stateAfter staleInput staleOracle 2) ∧
    (stateAfter staleInput staleOracle 2).batch_counter = 17 :=
  ⟨by decide, ((C15_filled_rows_kept staleInput staleOracle (by decide)).2.1 2).1, by decide!⟩

/-- Claim C16, counterexample.  In the cluster `backInput` (true norms and angles, real
cosine) the item has norm `1 ≥ 0` and angle `θ_ic = π ∈ [0, π]`, `θ_max = 0 ∈ [0, π]`,
and `upper_bounds[0] = 1 · cos(π) = -1 < 0`. -/
theorem C16_negative_upper_bound :
    TrueGeometry (backInput Real.pi) (backOracle Real.cos) ∧
    0 ≤ (backInput Real.pi).item_norms 0 ∧
    (0 ≤ (backInput Real.pi).theta_ics 0 ∧ (backInput Real.pi).theta_ics 0 ≤ Real.pi) ∧
    (0 ≤ theta_max (backInput Real.pi) (backOracle Real.cos) ∧
      theta_max (backInput Real.pi) (backOracle Real.cos) ≤ Real.pi) ∧
    upper_bounds (backInput Real.pi) (backOracle Real.cos) 0 = -1 ∧
    upper_bounds (backInput Real.pi) (backOracle Real.cos) 0 < 0 := by
  have hpi := Real.pi_pos
  refine ⟨back_trueGeometry, ?_, ?_, ?_, back_ub, ?_⟩
  · simp [backInput, vec]
  · simp [backInput, vec, hpi.le]
  · rw [back_theta_max]
    exact ⟨le_refl _, hpi.le⟩
  · rw [back_ub]
    norm_num

/-- Claim C16 (amended).  With the real cosine, for every item `k < N` with
`item_norms[k] ≥ 0`: `-item_norms[k] ≤ upper_bounds[k] ≤ item_norms[k]`;
`upper_bounds[k] ≥ 0` when `θ_ic − θ_max ≤ π/2`; and `upper_bounds[k] < 0` when the norm is
positive and `π/2 < θ_ic − θ_max ≤ π`. -/
theorem C16_upper_bound_sign (inp : ClusterInput ℝ) (env : Oracle ℝ)
    (hcos : env.cos = Real.cos) (k : Nat) (hk : k < inp.num_items)
    (hn : 0 ≤ inp.item_norms k) :
    (-inp.item_norms k ≤ upper_bounds inp env k ∧ upper_bounds inp env k ≤ inp.item_norms k) ∧
    (inp.theta_ics k - theta_max inp env ≤ Real.pi / 2 → 0 ≤ upper_bounds inp env k) ∧
    (0 < inp.item_norms k → Real.pi / 2 < inp.theta_ics k - theta_max inp env →
      inp.theta_ics k - theta_max inp env ≤ Real.pi → upper_bounds inp env k < 0) :=
  ⟨upper_bounds_abs_le inp env hcos k hk hn,
    fun hd => upper_bounds_nonneg_of_le inp env hcos k hk hn hd,
    fun hn2 hd hd2 => upper_bounds_neg_of_gt inp env hcos k hk hn2 hd hd2⟩

/-- Witness of `C16_upper_bound_sign`: the second item of the planar cluster, of norm `5`
and angle `arccos (4/5)`, with `θ_max = π`: its upper bound is non-negative. -/
theorem C16_upper_bound_sign_witness :
    (planeOracle Real.cos Real.pi).cos = Real.cos ∧
    0 ≤ (planeInput (Real.arccos (4 / 5))).item_norms 1 ∧
    0 ≤ upper_bounds (planeInput (Real.arccos (4 / 5))) (planeOracle Real.cos Real.pi) 1 := by
  have hn : 0 ≤ (planeInput (Real.arccos (4 / 5))).item_norms 1 := by simp [planeInput, vec]
  refine ⟨rfl, hn, (C16_upper_bound_sign (planeInput (Real.arccos (4 / 5)))
    (planeOracle Real.cos Real.pi) rfl 1 (by simp [planeInput]) hn).2.1 ?_⟩
  rw [plane_theta_max]
  have e1 : (planeInput (Real.arccos (4 / 5))).theta_ics 1 = Real.arccos (4 / 5) := by
    simp [planeInput, vec]
  have h1 := Real.arccos_le_pi (4 / 5)
  have hpi := Real.pi_pos
  rw [e1]
  linarith

/-- Claim C17.  Let `item_batch_size = 2^p`.  For every index `j`,
`j & (item_batch_size - 1) = j mod item_batch_size`, and the batch-boundary test
`(j & mod) == 0` holds exactly when `item_batch_size` divides `j`.  Hence a pass of the
scan loop at index `j` runs the batch-boundary code exactly when `item_batch_size`
divides `j`, compares the queue minimum with `user_norm_times_upper_bound[j mod B]` and
reads its score from `users_dot_items[i*B + j mod B]`. -/
theorem C17_mask_is_mod {α : Type} [LinearOrderedCommRing α] (inp : ClusterInput α)
    (env : Oracle α) (p : Nat) (hB : inp.item_batch_size = 2 ^ p) (i j : Nat)
    (st : ClusterState α) (top : α × Nat) (rest : Heap α) :
    j &&& (inp.item_batch_size - 1) = j % inp.item_batch_size ∧
    (j &&& (inp.item_batch_size - 1) = 0 ↔ inp.item_batch_size ∣ j) ∧
    scanStep inp env i j st (top :: rest) =
      (let st0 := if inp.item_batch_size ∣ j then enterBatch inp env i j st else st
       if st0.user_norm_times_upper_bound (j % inp.item_batch_size) < top.1 then
         Sum.inl ({ st0 with trace := st0.trace ++
           [Event.brk i j top.1 (st0.user_norm_times_upper_bound (j % inp.item_batch_size))] },
           top :: rest)
       else
         Sum.inr ({ st0 with trace := st0.trace ++
           [Event.read Buf.sorted_upper_bounds_indices j,
            Event.read Buf.users_dot_items (i * inp.item_batch_size + j % inp.item_batch_size),
            Event.score i j
              (st0.users_dot_items (i * inp.item_batch_size + j % inp.item_batch_size))] },
           if top.1 < st0.users_dot_items (i * inp.item_batch_size + j % inp.item_batch_size)
           then push (st0.users_dot_items (i * inp.item_batch_size + j % inp.item_batch_size),
             env.sorted_upper_bounds_indices j) rest
           else top :: rest)) := by
  have hland : ∀ j, j &&& (inp.item_batch_size - 1) = j % inp.item_batch_size := by
    intro j
    rw [hB]
    exact Nat.and_pow_two_sub_one_eq_mod j p
  refine ⟨hland j, ?_, ?_⟩
  · rw [hland j, Nat.dvd_iff_mod_eq_zero]
  · simp only [scanStep, hland j]
    have e : (if j % inp.item_batch_size = 0 then enterBatch inp env i j st else st) =
        (if inp.item_batch_size ∣ j then enterBatch inp env i j st else st) := by
      by_cases h : j % inp.item_batch_size = 0
      · rw [if_pos h, if_pos (Nat.dvd_of_mod_eq_zero h)]
      · rw [if_neg h, if_neg (fun hd => h (Nat.mod_eq_zero_of_dvd hd))]
    rw [e]

/-- Witness of `C17_mask_is_mod`: batch size `8 = 2^3` (`staleInput`) at the index
`j = 19`: `19 & 7 = 3 = 19 mod 8`. -/
theorem C17_mask_is_mod_witness :
    staleInput.item_batch_size = 2 ^ 3 ∧
    19 &&& (staleInput.item_batch_size - 1) = 19 % staleInput.item_batch_size ∧
    19 % staleInput.item_batch_size = 3 :=
  ⟨by decide,
    (C17_mask_is_mod staleInput staleOracle 3 (by decide) 0 19
      (initState staleInput staleOracle) (0, 0) []).1, by decide⟩

/-- Claim C18.  Let `K ≤ N` and let the index array map `0 .. N-1` injectively into
`0 .. N-1`.  Then the call returns (when the test of line 114 does not fire) and every
row `i` of `top_K_items` holds `K` pairwise distinct item ids below `N`; the row is, up to
order, the list `π[p]` for `K` distinct sorted positions `p < N`, each of them visited by
user `i`, as one of the seed positions `0 .. K-1` or at line 335. -/
theorem C18_row_ids_distinct {α : Type} [LinearOrderedCommRing α] (inp : ClusterInput α)
    (env : Oracle α)
    (hov : overflowCheck inp.num_users_to_compute inp.item_batch_size = false)
    (hKN : inp.K ≤ inp.num_items)
    (hrange : ∀ a, a < inp.num_items → env.sorted_upper_bounds_indices a < inp.num_items)
    (hinj : ∀ a, a < inp.num_items → ∀ b, b < inp.num_items →
      env.sorted_upper_bounds_indices a = env.sorted_upper_bounds_indices b → a = b)
    (i : Nat) (hi : i < inp.num_users_to_compute) :
    ∃ st, computeTopKForCluster inp env = some st ∧
      (rowOf inp.K st.top_K_items i).length = inp.K ∧
      (rowOf inp.K st.top_K_items i).Nodup ∧
      (∀ a, a ∈ rowOf inp.K st.top_K_items i → a < inp.num_items) ∧
      ∃ ps : List Nat, ps.length = inp.K ∧ ps.Nodup ∧
        (rowOf inp.K st.top_K_items i).Perm (ps.map env.sorted_upper_bounds_indices) ∧
        ∀ p, p ∈ ps → p < inp.num_items ∧
          (p < inp.K ∨ ∃ v, Event.score i p v ∈ st.trace) := by
  refine ⟨_, computeTopKForCluster_eq inp env hov, ?_⟩
  obtain ⟨hrow, htr⟩ := final_row_eq inp env hKN i hi
  obtain ⟨j, hj, hinv⟩ := scanInv_end inp env hKN i
  obtain ⟨ps, hnd, hperm, hps⟩ := hinv.pos
  have hlt : ∀ p, p ∈ ps → p < inp.num_items := fun p hp => lt_of_lt_of_le (hps p hp).1 hj
  have hperm2 : (rowOf inp.K (stateAfter inp env inp.num_users_to_compute).top_K_items i).Perm
      (ps.map env.sorted_upper_bounds_indices) := by
    rw [hrow]
    exact (List.reverse_perm _).trans hperm
  have hlen : ps.length = inp.K := by
    have := hperm.length_eq
    rw [List.length_map, List.length_map, hinv.len] at this
    exact this.symm
  have hnd2 : (ps.map env.sorted_upper_bounds_indices).Nodup := by
    rw [List.nodup_map_iff_inj_on hnd]
    intro a ha b hb hab
    exact hinj a (hlt a ha) b (hlt b hb) hab
  refine ⟨?_, ?_, ?_, ps, hlen, hnd, hperm2, ?_⟩
  · rw [hperm2.length_eq, List.length_map, hlen]
  · exact hperm2.nodup_iff.mpr hnd2
  · intro a ha
    obtain ⟨p, hp, rfl⟩ := List.mem_map.mp (hperm2.mem_iff.mp ha)
    exact hrange p (hlt p hp)
  · intro p hp
    refine ⟨hlt p hp, ?_⟩
    rcases (hps p hp).2 with h | ⟨v, hv⟩
    · exact Or.inl h
    · exact Or.inr ⟨v, htr _ hv⟩

/-- Witness of `C18_row_ids_distinct`: the second user of `staleInput`, whose row is
`[9, 1, 0]`. -/
theorem C18_row_ids_distinct_witness :
    staleInput.K ≤ staleInput.num_items ∧
    ∃ st, computeTopKForCluster staleInput staleOracle = some st ∧
      (rowOf staleInput.K st.top_K_items 1).Nodup ∧
      ∀ a, a ∈ rowOf staleInput.K st.top_K_items 1 → a < staleInput.num_items := by
  obtain ⟨st, h1, _, h3, h4, _⟩ := C18_row_ids_distinct staleInput staleOracle (by decide)
    (by decide) (by decide!) (by decide!) 1 (by decide)
  exact ⟨by decide, st, h1, h3, h4⟩

/-- Claim C19, evaluation at the failing input: for the ascending vector
`theta_bins = [1, 2]` (`num_bins = 2`) and `theta_uc = 1` the function returns `0`; the
entry at index `0` is `1`, which is not greater than `theta_uc`, while the smallest entry
greater than `theta_uc`, which the comment of lines 41-45 names as the result, is `2`, at
index `1`. -/
theorem C19_returns_equal_entry :
    ([1, 2] : List ℚ).Pairwise (fun a b => a ≤ b) ∧
    (∃ b, b ∈ ([1, 2] : List ℚ) ∧ (1 : ℚ) < b) ∧
    find_theta_bin_index (1 : ℚ) [1, 2] 2 = some 0 ∧
    ([1, 2] : List ℚ)[0]? = some 1 ∧ ¬ ((1 : ℚ) < 1) ∧
    ([1, 2] : List ℚ)[1]? = some 2 ∧ (1 : ℚ) < 2 :=
  ⟨by decide!, ⟨2, by decide!, by decide!⟩, by decide!, by decide!, by decide!, by decide!,
    by decide!⟩

end ClaimsSteps

end SimDex
